import Mathlib

/-!
Verification of the `gaql_validator` package (parser, validator, fixer,
formatter, query builder for the Google Ads Query Language) against its
natural-language specification.  The Python sources are shallowly embedded:
strings are `String`/`List Char`, the lark LALR parser (grammar.py) is
embedded as a deterministic scannerless parser that follows the grammar's
fixed clause sequence and the contextual lexer's longest-pattern-first
token matching, Python exceptions become `Except`, Python floats appearing
in similarity scores become `Rat`.
-/

namespace GaqlSpec

/-! ## Python string primitives -/

/-- Python's `\s` character class (ASCII range, as exercised here). -/
def pyIsSpace (c : Char) : Bool :=
  c = ' ' || c = '\t' || c = '\n' || c = '\r' || c = '\x0b' || c = '\x0c'

def lowerStr (s : String) : String := String.mk (s.toList.map Char.toLower)

def upperStr (s : String) : String := String.mk (s.toList.map Char.toUpper)

/-- Python `str.strip` on a char list. -/
def pyStripList (l : List Char) : List Char :=
  ((l.dropWhile pyIsSpace).reverse.dropWhile pyIsSpace).reverse

def pyStrip (s : String) : String := String.mk (pyStripList s.toList)

/-- Python's `needle in hay` substring test. -/
def hasSubList (nd : List Char) : List Char → Bool
  | [] => nd.isEmpty
  | c :: t => nd.isPrefixOf (c :: t) || hasSubList nd t

def hasSub (s sub : String) : Bool := hasSubList sub.toList s.toList

/-- `str.replace` (all occurrences, leftmost, non-overlapping,
case-sensitive); callers only pass non-empty patterns. -/
def replaceAllGo (pat rep : List Char) : Nat → List Char → List Char
  | 0, _ => []
  | _, [] => []
  | fuel + 1, c :: t =>
    if pat.isEmpty then c :: t
    else if pat.isPrefixOf (c :: t) then
      rep ++ replaceAllGo pat rep fuel ((c :: t).drop pat.length)
    else c :: replaceAllGo pat rep fuel t

def pyReplace (s pat rep : String) : String :=
  if pat.toList.isEmpty then s
  else String.mk (replaceAllGo pat.toList rep.toList (s.toList.length + 1) s.toList)

/-- `str.split(sep)` for a non-empty separator. -/
def splitOnListGo (sep : List Char) : Nat → List Char → List Char → List (List Char)
  | 0, acc, _ => [acc.reverse]
  | _, acc, [] => [acc.reverse]
  | fuel + 1, acc, c :: t =>
    if sep.isEmpty then [acc.reverse ++ c :: t]
    else if sep.isPrefixOf (c :: t) then
      acc.reverse :: splitOnListGo sep fuel [] ((c :: t).drop sep.length)
    else splitOnListGo sep fuel (c :: acc) t

def pySplit (s sep : String) : List String :=
  (splitOnListGo sep.toList (s.toList.length + 1) [] s.toList).map String.mk

def pyStartsWith (s p : String) : Bool := p.toList.isPrefixOf s.toList

def pyEndsWith (s p : String) : Bool := p.toList.reverse.isPrefixOf s.toList.reverse

theorem length_dropWhile_le (p : Char → Bool) (l : List Char) :
    (l.dropWhile p).length ≤ l.length := by
  induction l with
  | nil => simp [List.dropWhile]
  | cons c t ih =>
    simp only [List.dropWhile]
    split
    · exact Nat.le_trans ih (Nat.le_succ _)
    · simp

/-- `re.sub(r'--[^\n]*', '', ·)`: delete line comments, keeping newlines. -/
def stripCommentsListGo : Nat → List Char → List Char
  | 0, _ => []
  | _, [] => []
  | fuel + 1, c :: t =>
    if c = '-' ∧ t.head? = some '-' then
      stripCommentsListGo fuel (t.dropWhile (fun x => x ≠ '\n'))
    else
      c :: stripCommentsListGo fuel t

def stripCommentsList (l : List Char) : List Char :=
  stripCommentsListGo (l.length + 1) l

/-- `re.sub(r'\s+', ' ', ·)`: collapse whitespace runs to single spaces. -/
def collapseWsListGo : Nat → List Char → List Char
  | 0, _ => []
  | _, [] => []
  | fuel + 1, c :: t =>
    if pyIsSpace c then ' ' :: collapseWsListGo fuel (t.dropWhile pyIsSpace)
    else c :: collapseWsListGo fuel t

def collapseWsList (l : List Char) : List Char :=
  collapseWsListGo (l.length + 1) l

/-- `GaqlParser._normalize_query`: strip comments, collapse whitespace, strip. -/
def normalizeQuery (query : String) : String :=
  String.mk (pyStripList (collapseWsList (stripCommentsList query.toList)))

/-! ## Character classes of the grammar's terminals -/

def isLowerAZ (c : Char) : Bool := 'a' ≤ c && c ≤ 'z'

def isUpperAZ (c : Char) : Bool := 'A' ≤ c && c ≤ 'Z'

def isAZ (c : Char) : Bool := isLowerAZ c || isUpperAZ c

def isDigitC (c : Char) : Bool := '0' ≤ c && c ≤ '9'

/-- `FIELD_NAME: /[a-z][a-zA-Z0-9._]*/` — the continuation class. -/
def fieldChar (c : Char) : Bool := isAZ c || isDigitC c || c = '.' || c = '_'

/-- `RESOURCE_NAME: /[a-z][a-zA-Z_]*/` — the continuation class. -/
def resourceChar (c : Char) : Bool := isAZ c || c = '_'

/-- `LITERAL: /[a-zA-Z0-9_]+/`. -/
def literalChar (c : Char) : Bool := isAZ c || isDigitC c || c = '_'

/-! ## AST (the dict produced by `GaqlToDict`)

The Python AST is a `dict` keyed by clause name, built by inserting the
clauses in the order the grammar's `query` rule lists them; we keep it as an
association list so that key order is part of the model. -/

inductive PyVal where
  | str (s : String)
  | num (lexeme : String)
  | litList (xs : List String)
  | numList (xs : List String)
  | strList (xs : List String)
deriving DecidableEq, Repr

structure Condition where
  field : String
  op : String
  value : PyVal
deriving DecidableEq, Repr

structure OrderItem where
  field : String
  direction : String
deriving DecidableEq, Repr

inductive Clause where
  | selectC (fields : List String)
  | fromC (resource : String)
  | whereC (conditions : List Condition)
  | orderByC (orderings : List OrderItem)
  | limitC (n : Int)
  | parametersC (params : List (String × String))
deriving DecidableEq, Repr

abbrev Ast := List (String × Clause)

def lookupClause (ast : Ast) (k : String) : Option Clause :=
  (ast.find? (fun p => p.1 = k)).map (fun p => p.2)

/-- Python dict assignment `d[k] = v`: overwrite in place or append. -/
def dictInsert : List (String × String) → String → String → List (String × String)
  | [], n, v => [(n, v)]
  | (k, w) :: t, n, v => if k = n then (k, v) :: t else (k, w) :: dictInsert t n v

/-! ## Parse failures

lark reports `UnexpectedToken` (the contextual lexer falls back to the root
lexer, so any failure where some terminal still matches the input — or the
input is exhausted — carries a token) or `UnexpectedCharacters`; exceptions
raised inside the tree transformer (the `direction` rule's transformer
indexes an empty child list, because inline `"ASC" | "DESC"` tokens are
filtered from the tree) surface as a third kind. -/

inductive PFail where
  | unexpected (rem : List Char) (expected : List String)
  | transformErr (msg : String)
deriving DecidableEq, Repr

def skipWs (l : List Char) : List Char := l.dropWhile pyIsSpace

def expectTok (kw : String) (l : List Char) : Except PFail (List Char) :=
  if kw.toList.isPrefixOf (skipWs l) then .ok ((skipWs l).drop kw.toList.length)
  else .error (.unexpected (skipWs l) [kw])

def parseFieldName (l : List Char) : Except PFail (String × List Char) :=
  match skipWs l with
  | c :: rest =>
    if isLowerAZ c then .ok (String.mk (c :: rest.takeWhile fieldChar), rest.dropWhile fieldChar)
    else .error (.unexpected (c :: rest) ["FIELD_NAME"])
  | [] => .error (.unexpected [] ["FIELD_NAME"])

def parseResourceName (l : List Char) : Except PFail (String × List Char) :=
  match skipWs l with
  | c :: rest =>
    if isLowerAZ c then .ok (String.mk (c :: rest.takeWhile resourceChar), rest.dropWhile resourceChar)
    else .error (.unexpected (c :: rest) ["RESOURCE_NAME"])
  | [] => .error (.unexpected [] ["RESOURCE_NAME"])

theorem skipWs_length_le (l : List Char) : (skipWs l).length ≤ l.length :=
  length_dropWhile_le _ _

theorem parseFieldName_length {l : List Char} {f : String} {r : List Char}
    (h : parseFieldName l = .ok (f, r)) : r.length < l.length := by
  unfold parseFieldName at h
  rcases hs : skipWs l with _ | ⟨c, rest⟩ <;> rw [hs] at h
  · exact absurd h (by simp)
  · by_cases hc : isLowerAZ c = true
    · simp only [hc, if_true] at h
      have hr : r = rest.dropWhile fieldChar := by
        cases h; rfl
      have h1 : rest.length + 1 ≤ l.length := by
        have := skipWs_length_le l
        rw [hs] at this; simpa using this
      have h2 : r.length ≤ rest.length := by
        rw [hr]; exact length_dropWhile_le _ _
      omega
    · simp only [hc] at h
      exact absurd h (by simp)

theorem parseResourceName_length {l : List Char} {f : String} {r : List Char}
    (h : parseResourceName l = .ok (f, r)) : r.length < l.length := by
  unfold parseResourceName at h
  rcases hs : skipWs l with _ | ⟨c, rest⟩ <;> rw [hs] at h
  · exact absurd h (by simp)
  · by_cases hc : isLowerAZ c = true
    · simp only [hc, if_true] at h
      have hr : r = rest.dropWhile resourceChar := by
        cases h; rfl
      have h1 : rest.length + 1 ≤ l.length := by
        have := skipWs_length_le l
        rw [hs] at this; simpa using this
      have h2 : r.length ≤ rest.length := by
        rw [hr]; exact length_dropWhile_le _ _
      omega
    · simp only [hc] at h
      exact absurd h (by simp)

/-! ## Operators

The operator-state terminals, widest pattern first (lark's lexer sorts a
state's terminals by pattern width and matches the first that fits, and a
compound keyword operator such as `NOT_IN_OP: "NOT" "IN"` is a single
terminal whose pattern is the concatenation `NOTIN`, with no internal
whitespace).  The second component is what `GaqlToDict.operator` produces
for the token: the `op_map` image of the named terminals, and `""` for the
inline `"DURING"` / `"BETWEEN"` strings, which lark filters out of the tree
so that the transformer's `operator` method sees an empty child list and
returns `""`. -/

def opTable : List (String × String) := [
  ("NOTREGEXP_MATCH", "NOT REGEXP_MATCH"),
  ("CONTAINSNONE", "CONTAINS NONE"),
  ("REGEXP_MATCH", "REGEXP_MATCH"),
  ("CONTAINSALL", "CONTAINS ALL"),
  ("CONTAINSANY", "CONTAINS ANY"),
  ("ISNOTNULL", "IS NOT NULL"),
  ("BETWEEN", ""),
  ("NOTLIKE", "NOT LIKE"),
  ("DURING", ""),
  ("ISNULL", "IS NULL"),
  ("NOTIN", "NOT IN"),
  ("LIKE", "LIKE"),
  (">=", ">="), ("<=", "<="), ("!=", "!="), ("IN", "IN"),
  ("=", "="), (">", ">"), ("<", "<")]

def parseOperator (l : List Char) : Except PFail (String × List Char) :=
  let l1 := skipWs l
  match opTable.find? (fun p => p.1.toList.isPrefixOf l1) with
  | some p => .ok (p.2, l1.drop p.1.toList.length)
  | none => .error (.unexpected l1 ["OPERATOR"])

theorem parseOperator_length {l : List Char} {op : String} {r : List Char}
    (h : parseOperator l = .ok (op, r)) : r.length ≤ l.length := by
  unfold parseOperator at h
  rcases hf : opTable.find? (fun p => p.1.toList.isPrefixOf (skipWs l)) with _ | p <;>
    simp only [hf] at h
  · exact absurd h (by simp)
  · have hr : r = (skipWs l).drop p.1.toList.length := by cases h; rfl
    calc r.length ≤ (skipWs l).length := by rw [hr]; simpa using Nat.sub_le _ _
    _ ≤ l.length := skipWs_length_le l

/-! ## Values -/

/-- The body scanner of the quoted-string terminal `'(?:[^'\\]|\\.)*'`
(and its double-quote twin): after the opening quote, reads up to and
including the closing quote (`esc` records a pending backslash); `none`
when the string is unterminated. -/
def scanQuotedAux (q : Char) (esc : Bool) : List Char → Option (List Char × List Char)
  | [] => none
  | c :: t =>
    if esc then (scanQuotedAux q false t).map (fun p => (c :: p.1, p.2))
    else if c = q then some ([q], t)
    else if c = '\\' then (scanQuotedAux q true t).map (fun p => (c :: p.1, p.2))
    else (scanQuotedAux q false t).map (fun p => (c :: p.1, p.2))

def scanQuoted (q : Char) (l : List Char) : Option (List Char × List Char) :=
  scanQuotedAux q false l

theorem scanQuotedAux_length {q : Char} {esc : Bool} {l x r : List Char}
    (h : scanQuotedAux q esc l = some (x, r)) : r.length ≤ l.length := by
  induction l generalizing esc x r with
  | nil => simp [scanQuotedAux] at h
  | cons c t ih =>
    rw [scanQuotedAux] at h
    split at h
    · rcases hs : scanQuotedAux q false t with _ | p <;> rw [hs] at h <;> simp at h
      have := ih hs
      obtain ⟨h1, h2⟩ := h
      subst h2; simp; omega
    · split at h
      · cases h; simp
      · split at h
        · rcases hs : scanQuotedAux q true t with _ | p <;> rw [hs] at h <;> simp at h
          have := ih hs
          obtain ⟨h1, h2⟩ := h
          subst h2; simp; omega
        · rcases hs : scanQuotedAux q false t with _ | p <;> rw [hs] at h <;> simp at h
          have := ih hs
          obtain ⟨h1, h2⟩ := h
          subst h2; simp; omega

theorem scanQuoted_length {q : Char} {l x r : List Char}
    (h : scanQuoted q l = some (x, r)) : r.length ≤ l.length :=
  scanQuotedAux_length h

/-- The digits-and-fraction part of the terminal
`NUMBER: -?[0-9]+(\.[0-9]+)?` (regex), after an optional sign: maximal
munch, with the regex's backtracking on a dot not followed by a digit.
`l1` is the full token start, kept for the error report. -/
def numTail (sign : List Char) (l1 l2 : List Char) : Except PFail (String × List Char) :=
  if (l2.takeWhile isDigitC).isEmpty then .error (.unexpected l1 ["NUMBER"])
  else
    match l2.dropWhile isDigitC with
    | '.' :: t =>
      if (t.takeWhile isDigitC).isEmpty then
        .ok (String.mk (sign ++ l2.takeWhile isDigitC), l2.dropWhile isDigitC)
      else
        .ok (String.mk (sign ++ l2.takeWhile isDigitC ++ '.' :: t.takeWhile isDigitC),
             t.dropWhile isDigitC)
    | _ => .ok (String.mk (sign ++ l2.takeWhile isDigitC), l2.dropWhile isDigitC)

def parseNumber (l : List Char) : Except PFail (String × List Char) :=
  if (skipWs l).head? = some '-' then numTail ['-'] (skipWs l) (skipWs l).tail
  else numTail [] (skipWs l) (skipWs l)

theorem numTail_length {sign l1 l2 : List Char} {s : String} {r : List Char}
    (h : numTail sign l1 l2 = .ok (s, r)) : r.length ≤ l2.length := by
  unfold numTail at h
  have hd : (l2.dropWhile isDigitC).length ≤ l2.length := length_dropWhile_le _ _
  split at h
  · exact absurd h (by simp)
  · split at h
    case h_1 t heq =>
      split at h
      · cases h; rw [heq] at hd; simpa [heq] using hd
      · cases h
        have h1 : (t.dropWhile isDigitC).length ≤ t.length := length_dropWhile_le _ _
        have h2 : t.length + 1 = (l2.dropWhile isDigitC).length := by rw [heq]; simp
        omega
    case h_2 => cases h; exact hd

theorem parseNumber_length {l : List Char} {s : String} {r : List Char}
    (h : parseNumber l = .ok (s, r)) : r.length ≤ l.length := by
  unfold parseNumber at h
  have hs := skipWs_length_le l
  have ht : (skipWs l).tail.length ≤ (skipWs l).length := by
    simp [List.length_tail]
  split at h
  · have := numTail_length h
    omega
  · have := numTail_length h
    omega

/-- A list element of the grammar's `literal_list` / `number_list` /
`string_list` (LALR fixes the element kind from the first element). -/
inductive LKind where
  | lit
  | num
  | strK
deriving DecidableEq, Repr

/-- A quoted-string lexeme (either quote style), quotes included, at an
already-whitespace-skipped position. -/
def parseQuotedLexeme (l1 : List Char) : Except PFail (String × List Char) :=
  match l1 with
  | '\'' :: rest =>
    match scanQuoted '\'' rest with
    | some (x, r) => .ok (String.mk ('\'' :: x), r)
    | none => .error (.unexpected l1 ["STRING"])
  | '"' :: rest =>
    match scanQuoted '"' rest with
    | some (x, r) => .ok (String.mk ('"' :: x), r)
    | none => .error (.unexpected l1 ["STRING"])
  | _ => .error (.unexpected l1 ["STRING"])

theorem parseQuotedLexeme_length {l1 : List Char} {s : String} {r : List Char}
    (h : parseQuotedLexeme l1 = .ok (s, r)) : r.length ≤ l1.length := by
  unfold parseQuotedLexeme at h
  split at h
  case h_1 rest =>
    rcases hs : scanQuoted '\'' rest with _ | p <;> rw [hs] at h
    · exact absurd h (by simp)
    · cases h
      have h1 := scanQuoted_length hs
      simp; omega
  case h_2 rest =>
    rcases hs : scanQuoted '"' rest with _ | p <;> rw [hs] at h
    · exact absurd h (by simp)
    · cases h
      have h1 := scanQuoted_length hs
      simp; omega
  case h_3 => exact absurd h (by simp)

def parseListItem (k : LKind) (l : List Char) : Except PFail (String × List Char) :=
  match k with
  | .lit =>
    if ((skipWs l).takeWhile literalChar).isEmpty then
      .error (.unexpected (skipWs l) ["LITERAL"])
    else .ok (String.mk ((skipWs l).takeWhile literalChar), (skipWs l).dropWhile literalChar)
  | .num => parseNumber l
  | .strK => parseQuotedLexeme (skipWs l)

theorem parseListItem_length {k : LKind} {l : List Char} {s : String} {r : List Char}
    (h : parseListItem k l = .ok (s, r)) : r.length ≤ l.length := by
  unfold parseListItem at h
  have hskip := skipWs_length_le l
  cases k with
  | lit =>
    simp only at h
    split at h
    · exact absurd h (by simp)
    · cases h
      exact Nat.le_trans (length_dropWhile_le _ _) hskip
  | num =>
    simp only at h
    exact parseNumber_length h
  | strK =>
    simp only at h
    exact Nat.le_trans (parseQuotedLexeme_length h) hskip

def parseListRestGo (k : LKind) :
    Nat → List String → List Char → Except PFail (List String × List Char)
  | 0, _, l => .error (.unexpected (skipWs l) [")", ","])
  | fuel + 1, acc, l =>
    match skipWs l with
    | ',' :: rest =>
      match parseListItem k rest with
      | .error e => .error e
      | .ok (s, r) => parseListRestGo k fuel (acc ++ [s]) r
    | ')' :: rest => .ok (acc, rest)
    | other => .error (.unexpected other [")", ","])

def parseListRest (k : LKind) (acc : List String) (l : List Char) :
    Except PFail (List String × List Char) :=
  parseListRestGo k (l.length + 1) acc l

theorem parseListRestGo_length {k : LKind} :
    ∀ (fuel : Nat) (l : List Char) {acc xs : List String} {r : List Char},
      parseListRestGo k fuel acc l = .ok (xs, r) → r.length ≤ l.length := by
  intro fuel
  induction fuel with
  | zero =>
    intro l acc xs r h
    rw [parseListRestGo] at h
    exact absurd h (by simp)
  | succ n ih =>
    intro l acc xs r h
    rw [parseListRestGo] at h
    split at h
    next rest hskip =>
      have hlen : rest.length + 1 ≤ l.length := by
        have := skipWs_length_le l
        rw [hskip] at this
        simpa using this
      split at h
      next e hi => exact absurd h (by simp)
      next s ri hi =>
        have h1 := parseListItem_length hi
        have h2 := ih ri h
        omega
    next rest hskip =>
      cases h
      have := skipWs_length_le l
      rw [hskip] at this
      simp at this
      omega
    next =>
      exact absurd h (by simp)

theorem parseListRest_length {k : LKind} {acc xs : List String} {l r : List Char}
    (h : parseListRest k acc l = .ok (xs, r)) : r.length ≤ l.length :=
  parseListRestGo_length (l.length + 1) l h

/-- The kind of list the first element after `(` commits the LALR parse to. -/
def listKindOf (d : Char) : Option LKind :=
  if d = '\'' ∨ d = '"' then some .strK
  else if d = '-' ∨ isDigitC d then some .num
  else if literalChar d then some .lit
  else none

def parseListValue (k : LKind) (l : List Char) : Except PFail (PyVal × List Char) :=
  match parseListItem k l with
  | .error e => .error e
  | .ok (s, r) =>
    match parseListRest k [s] r with
    | .error e => .error e
    | .ok (xs, r2) =>
      match k with
      | .lit => .ok (.litList xs, r2)
      | .num => .ok (.numList xs, r2)
      | .strK => .ok (.strList xs, r2)

theorem parseListValue_length {k : LKind} {l : List Char} {v : PyVal} {r : List Char}
    (h : parseListValue k l = .ok (v, r)) : r.length ≤ l.length := by
  unfold parseListValue at h
  split at h
  next => exact absurd h (by simp)
  next s ri hi =>
    split at h
    next => exact absurd h (by simp)
    next xs r2 hr =>
      have h1 := parseListItem_length hi
      have h2 := parseListRest_length hr
      have hr2 : r = r2 := by rcases k <;> cases h <;> rfl
      subst hr2
      omega

/-- The `value` rule.  At the value state the lexer tries `NUMBER`, the
quoted strings, `LITERAL` and a `(`-opened list; `DATE_RANGE_LITERAL` is
sorted after the unbounded-width `LITERAL` pattern, and both transform to
the same Python string, so date-range keywords are modelled as literals. -/
def parseValue (l : List Char) : Except PFail (PyVal × List Char) :=
  match skipWs l with
  | [] => .error (.unexpected [] ["VALUE"])
  | c :: rest =>
    if c = '\'' ∨ c = '"' then
      match parseQuotedLexeme (c :: rest) with
      | .error e => .error e
      | .ok (s, r) => .ok (.str s, r)
    else if c = '(' then
      match skipWs rest with
      | [] => .error (.unexpected [] ["VALUE"])
      | d :: rest2 =>
        match listKindOf d with
        | none => .error (.unexpected (d :: rest2) ["VALUE"])
        | some k => parseListValue k (d :: rest2)
    else if c = '-' ∨ isDigitC c then
      match parseNumber (c :: rest) with
      | .error e => .error e
      | .ok (s, r) => .ok (.num s, r)
    else if literalChar c then
      .ok (.str (String.mk ((c :: rest).takeWhile literalChar)),
           (c :: rest).dropWhile literalChar)
    else .error (.unexpected (c :: rest) ["VALUE"])

theorem parseValue_length {l : List Char} {v : PyVal} {r : List Char}
    (h : parseValue l = .ok (v, r)) : r.length ≤ l.length := by
  unfold parseValue at h
  have hskip := skipWs_length_le l
  split at h
  · exact absurd h (by simp)
  case h_2 c rest heq =>
    rw [heq] at hskip
    have hcr : rest.length + 1 ≤ l.length := by simpa using hskip
    split at h
    · rcases hs : parseQuotedLexeme (c :: rest) with e | ⟨s, rq⟩ <;> rw [hs] at h
      · exact absurd h (by simp)
      · cases h
        have := parseQuotedLexeme_length hs
        simp at this; omega
    · split at h
      · -- list case
        have hskip2 := skipWs_length_le rest
        split at h
        · exact absurd h (by simp)
        case h_2 d rest2 heq2 =>
          rw [heq2] at hskip2
          have hdr : rest2.length + 1 ≤ rest.length := by simpa using hskip2
          split at h
          · exact absurd h (by simp)
          case h_2 k =>
            have := parseListValue_length h
            simp at this; omega
      · split at h
        · rcases hn : parseNumber (c :: rest) with e | ⟨s, rn⟩ <;> rw [hn] at h
          · exact absurd h (by simp)
          · cases h
            have := parseNumber_length hn
            simp at this; omega
        · split at h
          · cases h
            have := length_dropWhile_le literalChar (c :: rest)
            simp at this ⊢; omega
          · exact absurd h (by simp)

/-! ## Conditions, clauses and the query parser -/

def parseCondition (l : List Char) : Except PFail (Condition × List Char) :=
  match parseFieldName l with
  | .error e => .error e
  | .ok (f, r1) =>
    match parseOperator r1 with
    | .error e => .error e
    | .ok (op, r2) =>
      match parseValue r2 with
      | .error e => .error e
      | .ok (v, r3) => .ok (⟨f, op, v⟩, r3)

theorem parseCondition_length {l : List Char} {c : Condition} {r : List Char}
    (h : parseCondition l = .ok (c, r)) : r.length < l.length := by
  unfold parseCondition at h
  split at h
  next => exact absurd h (by simp)
  next f r1 h1 =>
    split at h
    next => exact absurd h (by simp)
    next op r2 h2 =>
      split at h
      next => exact absurd h (by simp)
      next v r3 h3 =>
        cases h
        have a1 := parseFieldName_length h1
        have a2 := parseOperator_length h2
        have a3 := parseValue_length h3
        omega

theorem expectTok_length {kw : String} {l r : List Char}
    (h : expectTok kw l = .ok r) : r.length ≤ l.length := by
  unfold expectTok at h
  split at h
  · cases h
    exact Nat.le_trans (by simpa using Nat.sub_le _ _) (skipWs_length_le l)
  · exact absurd h (by simp)

def parseCondsRestGo :
    Nat → List Condition → List Char → Except PFail (List Condition × List Char)
  | 0, _, l => .error (.unexpected (skipWs l) ["AND"])
  | fuel + 1, acc, l =>
    if ("AND".toList).isPrefixOf (skipWs l) then
      match parseCondition ((skipWs l).drop 3) with
      | .error e => .error e
      | .ok (c, r) => parseCondsRestGo fuel (acc ++ [c]) r
    else .ok (acc, l)

def parseCondsRest (acc : List Condition) (l : List Char) :
    Except PFail (List Condition × List Char) :=
  parseCondsRestGo (l.length + 1) acc l

/-- `ordering: field_name [direction]`.  An explicit `ASC` / `DESC` token is
consumed by the parser, but the transformer later fails on it (`direction`'s
children are filtered out, and `str(items[0])` raises `IndexError`), so the
Boolean records that the transform will fail. -/
def parseOrdering (l : List Char) : Except PFail ((OrderItem × Bool) × List Char) :=
  match parseFieldName l with
  | .error e => .error e
  | .ok (f, r1) =>
    if ("DESC".toList).isPrefixOf (skipWs r1) then .ok ((⟨f, "DESC"⟩, true), (skipWs r1).drop 4)
    else if ("ASC".toList).isPrefixOf (skipWs r1) then .ok ((⟨f, "ASC"⟩, true), (skipWs r1).drop 3)
    else .ok ((⟨f, "ASC"⟩, false), r1)

theorem parseOrdering_length {l : List Char} {o : OrderItem × Bool} {r : List Char}
    (h : parseOrdering l = .ok (o, r)) : r.length < l.length := by
  unfold parseOrdering at h
  split at h
  next => exact absurd h (by simp)
  next f r1 h1 =>
    have a1 := parseFieldName_length h1
    have a2 := skipWs_length_le r1
    split at h
    · cases h
      have : ((skipWs r1).drop 4).length = (skipWs r1).length - 4 := by simp
      omega
    · split at h
      · cases h
        have : ((skipWs r1).drop 3).length = (skipWs r1).length - 3 := by simp
        omega
      · cases h
        omega

def parseOrderRestGo :
    Nat → List OrderItem → Bool → List Char →
      Except PFail ((List OrderItem × Bool) × List Char)
  | 0, _, _, l => .error (.unexpected (skipWs l) [","])
  | fuel + 1, acc, flag, l =>
    match skipWs l with
    | ',' :: rest =>
      match parseOrdering rest with
      | .error e => .error e
      | .ok ((o, fl), r) => parseOrderRestGo fuel (acc ++ [o]) (flag || fl) r
    | _ => .ok ((acc, flag), l)

def parseOrderRest (acc : List OrderItem) (flag : Bool) (l : List Char) :
    Except PFail ((List OrderItem × Bool) × List Char) :=
  parseOrderRestGo (l.length + 1) acc flag l

def parseFieldsRestGo :
    Nat → List String → List Char → Except PFail (List String × List Char)
  | 0, _, l => .error (.unexpected (skipWs l) [","])
  | fuel + 1, acc, l =>
    match skipWs l with
    | ',' :: rest =>
      match parseFieldName rest with
      | .error e => .error e
      | .ok (f, r) => parseFieldsRestGo fuel (acc ++ [f]) r
    | _ => .ok (acc, l)

def parseFieldsRest (acc : List String) (l : List Char) :
    Except PFail (List String × List Char) :=
  parseFieldsRestGo (l.length + 1) acc l

/-- `PARAMETER_NAME: "include_drafts" | "omit_unselected_resource_names"`,
widest first. -/
def paramNameTable : List String := ["omit_unselected_resource_names", "include_drafts"]

def parseParamName (l : List Char) : Except PFail (String × List Char) :=
  match paramNameTable.find? (fun p => p.toList.isPrefixOf (skipWs l)) with
  | some p => .ok (p, (skipWs l).drop p.toList.length)
  | none => .error (.unexpected (skipWs l) ["PARAMETER_NAME"])

def parseParamValue (l : List Char) : Except PFail (String × List Char) :=
  if ("false".toList).isPrefixOf (skipWs l) then .ok ("false", (skipWs l).drop 5)
  else if ("true".toList).isPrefixOf (skipWs l) then .ok ("true", (skipWs l).drop 4)
  else .error (.unexpected (skipWs l) ["PARAMETER_VALUE"])

def parseParameter (l : List Char) : Except PFail ((String × String) × List Char) :=
  match parseParamName l with
  | .error e => .error e
  | .ok (n, r1) =>
    match expectTok "=" r1 with
    | .error e => .error e
    | .ok r2 =>
      match parseParamValue r2 with
      | .error e => .error e
      | .ok (v, r3) => .ok ((n, v), r3)

theorem parseParamName_length {l : List Char} {n : String} {r : List Char}
    (h : parseParamName l = .ok (n, r)) : r.length < l.length := by
  unfold parseParamName at h
  rcases hfind : paramNameTable.find? (fun p => p.toList.isPrefixOf (skipWs l)) with _ | p <;>
    rw [hfind] at h
  · exact absurd h (by simp)
  · simp only [Except.ok.injEq, Prod.mk.injEq] at h
    obtain ⟨h4, h5⟩ := h
    have hmem : p ∈ paramNameTable := List.mem_of_find?_eq_some hfind
    have hpre : (p.toList).isPrefixOf (skipWs l) = true := by
      have := List.find?_some hfind
      simpa using this
    have hlen : p.toList.length ≤ (skipWs l).length :=
      (List.isPrefixOf_iff_prefix.mp hpre).length_le
    have hpos : 1 ≤ p.toList.length := by
      have hor : p = "omit_unselected_resource_names" ∨ p = "include_drafts" := by
        simpa [paramNameTable] using hmem
      rcases hor with h | h <;> subst h <;> decide
    have hs := skipWs_length_le l
    have hdrop : ((skipWs l).drop p.toList.length).length
        = (skipWs l).length - p.toList.length := by simp
    rw [← h5]
    omega

theorem parseParamValue_length {l : List Char} {v : String} {r : List Char}
    (h : parseParamValue l = .ok (v, r)) : r.length ≤ l.length := by
  unfold parseParamValue at h
  have hs := skipWs_length_le l
  split at h
  · cases h
    have : ((skipWs l).drop 5).length = (skipWs l).length - 5 := by simp
    omega
  · split at h
    · cases h
      have : ((skipWs l).drop 4).length = (skipWs l).length - 4 := by simp
      omega
    · exact absurd h (by simp)

theorem parseParameter_length {l : List Char} {p : String × String} {r : List Char}
    (h : parseParameter l = .ok (p, r)) : r.length < l.length := by
  unfold parseParameter at h
  split at h
  next => exact absurd h (by simp)
  next n r1 h1 =>
    split at h
    next => exact absurd h (by simp)
    next r2 h2 =>
      split at h
      next => exact absurd h (by simp)
      next v r3 h3 =>
        cases h
        have a1 := parseParamName_length h1
        have a2 := expectTok_length h2
        have a3 := parseParamValue_length h3
        omega

def parseParamsRestGo :
    Nat → List (String × String) → List Char →
      Except PFail (List (String × String) × List Char)
  | 0, _, l => .error (.unexpected (skipWs l) [","])
  | fuel + 1, acc, l =>
    match skipWs l with
    | ',' :: rest =>
      match parseParameter rest with
      | .error e => .error e
      | .ok (p, r) => parseParamsRestGo fuel (acc ++ [p]) r
    | _ => .ok (acc, l)

def parseParamsRest (acc : List (String × String)) (l : List Char) :
    Except PFail (List (String × String) × List Char) :=
  parseParamsRestGo (l.length + 1) acc l

def digitsToNat (ds : List Char) : Nat :=
  ds.foldl (fun a c => a * 10 + (c.toNat - '0'.toNat)) 0

/-- `LIMIT POSITIVE_INT` with `POSITIVE_INT: [1-9][0-9]*` (regex), then the
transformer's `int(str(items[0]))`. -/
def parseLimit (l : List Char) : Except PFail (Int × List Char) :=
  match skipWs l with
  | c :: rest =>
    if '1' ≤ c ∧ c ≤ '9' then
      .ok (Int.ofNat (digitsToNat (c :: rest.takeWhile isDigitC)), rest.dropWhile isDigitC)
    else .error (.unexpected (c :: rest) ["POSITIVE_INT"])
  | [] => .error (.unexpected [] ["POSITIVE_INT"])

/-! ### Optional clauses -/

def parseWhereOpt (l : List Char) : Except PFail (Option (List Condition) × List Char) :=
  if ("WHERE".toList).isPrefixOf (skipWs l) then
    match parseCondition ((skipWs l).drop 5) with
    | .error e => .error e
    | .ok (c, r) =>
      match parseCondsRest [c] r with
      | .error e => .error e
      | .ok (cs, r2) => .ok (some cs, r2)
  else .ok (none, l)

def parseOrderOpt (l : List Char) :
    Except PFail (Option (List OrderItem × Bool) × List Char) :=
  if ("ORDER".toList).isPrefixOf (skipWs l) then
    match expectTok "BY" ((skipWs l).drop 5) with
    | .error e => .error e
    | .ok r1 =>
      match parseOrdering r1 with
      | .error e => .error e
      | .ok ((o, fl), r2) =>
        match parseOrderRest [o] fl r2 with
        | .error e => .error e
        | .ok ((os, flag), r3) => .ok (some (os, flag), r3)
  else .ok (none, l)

def parseLimitOpt (l : List Char) : Except PFail (Option Int × List Char) :=
  if ("LIMIT".toList).isPrefixOf (skipWs l) then
    match parseLimit ((skipWs l).drop 5) with
    | .error e => .error e
    | .ok (n, r) => .ok (some n, r)
  else .ok (none, l)

/-- `GaqlToDict.parameters_clause` builds a `dict`, so repeated names
overwrite in place. -/
def buildParamDict (ps : List (String × String)) : List (String × String) :=
  ps.foldl (fun d p => dictInsert d p.1 p.2) []

def parseParamsOpt (l : List Char) :
    Except PFail (Option (List (String × String)) × List Char) :=
  if ("PARAMETERS".toList).isPrefixOf (skipWs l) then
    match parseParameter ((skipWs l).drop 10) with
    | .error e => .error e
    | .ok (p, r) =>
      match parseParamsRest [p] r with
      | .error e => .error e
      | .ok (ps, r2) => .ok (some (buildParamDict ps), r2)
  else .ok (none, l)

/-- The transformer's `query` method updates a dict with the children in
grammar order, so the key order is the grammar's clause order. -/
def mkAst (fields : List String) (res : String) (wc : Option (List Condition))
    (oc : Option (List OrderItem × Bool)) (lc : Option Int)
    (pc : Option (List (String × String))) : Ast :=
  [("select_clause", .selectC fields), ("from_clause", .fromC res)]
  ++ (match wc with | some cs => [("where_clause", .whereC cs)] | none => [])
  ++ (match oc with | some p => [("order_by_clause", .orderByC p.1)] | none => [])
  ++ (match lc with | some n => [("limit_clause", .limitC n)] | none => [])
  ++ (match pc with | some ps => [("parameters_clause", .parametersC ps)] | none => [])

/-- The message of the `VisitError` lark wraps around the `IndexError` that
`GaqlToDict.direction` raises on its filtered-out children. -/
def directionCrashMsg : String :=
  "Error trying to process rule \"direction\":\n\nlist index out of range"

/-- The contextual lexer's allowed-terminal set at the state reached after a
complete query prefix: a trailing token is lexed against the accepts of the
LALR state left by the last consumed clause, and the parser raises
`UnexpectedToken(token, e.allowed)` with that set.  The set never holds
`$END` (it is not a lexer terminal).  After an ORDER BY clause whose last
ordering carries no explicit direction the real set additionally holds ASC
and DESC; the transformer crashes on every explicit direction before any
such error can surface, and no theorem evaluates that case.  Lists are in a
canonical order — Python renders the set nondeterministically. -/
def endAllowed (wc : Option (List Condition)) (oc : Option (List OrderItem × Bool))
    (lc : Option Int) (pc : Option (List (String × String))) : List String :=
  if pc.isSome then ["COMMA"]
  else if lc.isSome then ["PARAMETERS"]
  else if oc.isSome then ["COMMA", "LIMIT", "PARAMETERS"]
  else if wc.isSome then ["AND", "ORDER", "LIMIT", "PARAMETERS"]
  else ["WHERE", "ORDER", "LIMIT", "PARAMETERS"]

def parseQuery (l : List Char) : Except PFail Ast :=
  match expectTok "SELECT" l with
  | .error e => .error e
  | .ok r0 =>
  match parseFieldName r0 with
  | .error e => .error e
  | .ok (f0, r1) =>
  match parseFieldsRest [f0] r1 with
  | .error e => .error e
  | .ok (fields, r2) =>
  match expectTok "FROM" r2 with
  | .error e => .error e
  | .ok r3 =>
  match parseResourceName r3 with
  | .error e => .error e
  | .ok (res, r4) =>
  match parseWhereOpt r4 with
  | .error e => .error e
  | .ok (wc, r5) =>
  match parseOrderOpt r5 with
  | .error e => .error e
  | .ok (oc, r6) =>
  match parseLimitOpt r6 with
  | .error e => .error e
  | .ok (lc, r7) =>
  match parseParamsOpt r7 with
  | .error e => .error e
  | .ok (pc, r8) =>
  match skipWs r8 with
  | [] =>
    if (oc.map (fun p => p.2)).getD false then .error (.transformErr directionCrashMsg)
    else .ok (mkAst fields res wc oc lc pc)
  | c :: rest => .error (.unexpected (c :: rest) (endAllowed wc oc lc pc))

/-! ### The root lexer, for error classification

When the contextual lexer cannot match an allowed terminal, lark retries
with the root lexer over all terminals and raises `UnexpectedToken` with
the token it finds; only when no terminal at all matches does the failure
stay an `UnexpectedCharacters`.  Terminals are tried by pattern width,
unbounded-width regexes first. -/

def runTok (head : Char → Bool) (restC : Char → Bool) (l : List Char) : Option String :=
  match l with
  | c :: t => if head c then some (String.mk (c :: t.takeWhile restC)) else none
  | [] => none

def rootKeywords : List String :=
  ["omit_unselected_resource_names", "THIS_WEEK_MON_TODAY", "THIS_WEEK_SUN_TODAY",
   "LAST_BUSINESS_WEEK", "LAST_WEEK_MON_SUN", "LAST_WEEK_SUN_SAT",
   "NOTREGEXP_MATCH", "include_drafts", "LAST_14_DAYS", "LAST_30_DAYS",
   "CONTAINSNONE", "REGEXP_MATCH", "CONTAINSALL", "CONTAINSANY", "LAST_7_DAYS",
   "PARAMETERS", "LAST_MONTH", "THIS_MONTH", "ISNOTNULL", "YESTERDAY",
   "BETWEEN", "NOTLIKE", "DURING", "ISNULL", "SELECT", "NOTIN", "WHERE",
   "ORDER", "LIMIT", "TODAY", "false", "FROM", "LIKE", "DESC", "true",
   "ASC", "BY", "IN", ">=", "<=", "!=", "=", ">", "<", "(", ")", ","]

def rootTokenAt (l : List Char) : Option String :=
  match runTok isLowerAZ fieldChar l with
  | some s => some s
  | none =>
  match parseNumber l with
  | .ok (s, _) => some s
  | .error _ =>
  match parseQuotedLexeme l with
  | .ok (s, _) => some s
  | .error _ =>
  match runTok literalChar literalChar l with
  | some s => some s
  | none => rootKeywords.find? (fun k => k.toList.isPrefixOf l)

/-! ### `GaqlParser.parse` -/

structure GaqlSynError where
  message : String
  position : Option Nat
deriving DecidableEq, Repr

/-- `e.expected` is a Python `set` of terminal names; the f-string renders
it with braces and quoted elements.  The iteration order of a multi-element
set is not fixed by the source (hash randomisation), so the embedding keeps
each `expected` list in one canonical order and no theorem pins the exact
rendering of a multi-element set. -/
def renderExpected (xs : List String) : String :=
  "\x7b" ++ String.intercalate ", " (xs.map (fun s => "'" ++ s ++ "'")) ++ "\x7d"

/-- One step of the scan that recovers the `start_pos` of the last token of
the stream: skip ignored whitespace, read the token the root lexer would
produce, remember its start offset, and continue past it. -/
def lastTokenStartGo (fuel : Nat) (l : List Char) (idx acc : Nat) : Nat :=
  match fuel with
  | 0 => acc
  | fuel + 1 =>
    let l2 := skipWs l
    let idx2 := idx + (l.length - l2.length)
    match rootTokenAt l2 with
    | none => acc
    | some t => lastTokenStartGo fuel (l2.drop t.toList.length) (idx2 + t.toList.length) idx2

/-- `pos_in_stream` of an `UnexpectedToken` holding lark's `$END` token: the
`$END` token borrows its `start_pos` from the last real token of the stream,
and `Token.new_borrow_pos` leaves 0 for an empty stream. -/
def lastTokenStart (l : List Char) : Nat :=
  lastTokenStartGo (l.length + 1) l 0 0

def parse (query : String) : Except GaqlSynError Ast :=
  let norm := normalizeQuery query
  match parseQuery norm.toList with
  | .ok ast =>
    -- `_validate_parsed_query`, the defensive re-check after the transform
    if lookupClause ast "select_clause" = none then
      .error ⟨"SELECT clause is required", none⟩
    else if lookupClause ast "from_clause" = none then
      .error ⟨"FROM clause is required", none⟩
    else .ok ast
  | .error (.transformErr m) => .error ⟨"Error parsing GAQL query: " ++ m, none⟩
  | .error (.unexpected rem expected) =>
    -- `pos_in_stream` is the offending token's `start_pos`; at end of input
    -- the `$END` token borrows the start of the last real token.
    let pos := if rem.isEmpty then lastTokenStart norm.toList
               else norm.toList.length - rem.length
    if rem.isEmpty || (rootTokenAt rem).isSome then
      let tok := (rootTokenAt rem).getD ""
      let base := "Syntax error at position " ++ toString pos ++ ". Unexpected token: "
        ++ tok ++ ". Expected: " ++ renderExpected expected
      let msg :=
        if hasSub norm "FROM" = false ∧ hasSub norm "SELECT" = true then
          "FROM clause is required"
        else base
      .error ⟨msg, some pos⟩
    else
      .error ⟨"Error parsing GAQL query: No terminal matches the remaining input at position "
        ++ toString pos, none⟩

/-! ## Validator (validator.py)

The static rule tables are Python sets / dicts; their iteration order is
pinned to the source-literal order. -/

def VALID_RESOURCES : List String :=
  ["account_budget", "ad_group", "ad_group_ad", "ad_group_criterion", "campaign",
   "campaign_budget", "campaign_criterion", "customer", "keyword_view",
   "ad_group_audience_view", "campaign_audience_view", "feed", "feed_item",
   "geo_target_constant", "user_list", "asset", "location_view", "search_term_view"]

def VALID_FIELD_PREFIXES : List String :=
  ["ad_group", "campaign", "customer", "metrics", "segments",
   "ad_group_criterion", "campaign_criterion", "keyword_view", "asset"]

def DATE_FIELDS : List String :=
  ["segments.date", "segments.month", "segments.quarter", "segments.week", "segments.year"]

def FIELD_OPERATOR_RESTRICTIONS : List (String × List String) :=
  [("segments.date", ["DURING", "BETWEEN", "="]),
   ("metrics.impressions", ["=", "!=", ">", ">=", "<", "<="]),
   ("metrics.clicks", ["=", "!=", ">", ">=", "<", "<="]),
   ("metrics.cost_micros", ["=", "!=", ">", ">=", "<", "<="]),
   ("campaign.status", ["=", "!=", "IN", "NOT IN"])]

def VALID_PARAMETERS : List String := ["include_drafts", "omit_unselected_resource_names"]

def validOperators : List String :=
  ["=", "!=", ">", ">=", "<", "<=", "IN", "NOT IN", "LIKE", "NOT LIKE",
   "CONTAINS ANY", "CONTAINS ALL", "CONTAINS NONE", "IS NULL", "IS NOT NULL",
   "DURING", "BETWEEN", "REGEXP_MATCH", "NOT REGEXP_MATCH"]

def getSelectFields (ast : Ast) : Option (List String) :=
  match lookupClause ast "select_clause" with
  | some (.selectC fs) => some fs
  | _ => none

def getResource (ast : Ast) : Option String :=
  match lookupClause ast "from_clause" with
  | some (.fromC r) => some r
  | _ => none

def getConditions (ast : Ast) : Option (List Condition) :=
  match lookupClause ast "where_clause" with
  | some (.whereC cs) => some cs
  | _ => none

def getOrderings (ast : Ast) : Option (List OrderItem) :=
  match lookupClause ast "order_by_clause" with
  | some (.orderByC os) => some os
  | _ => none

def getLimit (ast : Ast) : Option Int :=
  match lookupClause ast "limit_clause" with
  | some (.limitC n) => some n
  | _ => none

def getParameters (ast : Ast) : Option (List (String × String)) :=
  match lookupClause ast "parameters_clause" with
  | some (.parametersC ps) => some ps
  | _ => none

def expectedOrder : List String :=
  ["select_clause", "from_clause", "where_clause",
   "order_by_clause", "limit_clause", "parameters_clause"]

/-- `clause.replace("_clause", "").upper()`. -/
def clauseShort (s : String) : String := upperStr (pyReplace s "_clause" "")

/-- The clause-order loop of `_validate_structure`: walks the key list with
its positional predecessor. -/
def orderErrors : Option String → List String → List String
  | _, [] => []
  | prev, c :: t =>
    (if expectedOrder.contains c = false then ["Unknown clause type: " ++ c]
     else
       match prev with
       | some p =>
         if expectedOrder.indexOf c < expectedOrder.indexOf p then
           ["Invalid clause order: " ++ clauseShort c ++ " cannot come after " ++ clauseShort p]
         else []
       | none => []) ++ orderErrors (some c) t

def validateStructure (ast : Ast) : List String :=
  (if lookupClause ast "select_clause" = none then ["SELECT clause is required"] else []) ++
  (if lookupClause ast "from_clause" = none then ["FROM clause is required"] else []) ++
  orderErrors none (ast.map (fun p => p.1))

def validateResources (ast : Ast) : List String :=
  match getResource ast with
  | some r => if VALID_RESOURCES.contains r then [] else ["Invalid resource: " ++ r]
  | none => []

def fieldError (f : String) : List String :=
  if hasSub f "." = false then
    ["Invalid field format: " ++ f ++ ". Expected format: 'prefix.field_name'"]
  else
    let pfx := (pySplit f ".").headD ""
    if VALID_FIELD_PREFIXES.contains pfx then [] else
      ["Invalid field prefix: " ++ pfx ++ " in field " ++ f]

def collectFields (ast : Ast) : List String :=
  ((getSelectFields ast).getD []) ++
  (((getConditions ast).getD []).map (fun c => c.field)) ++
  (((getOrderings ast).getD []).map (fun o => o.field))

def validateFields (ast : Ast) : List String :=
  ((collectFields ast).map fieldError).join

def condOperatorErrors (cond : Condition) : List String :=
  let op := pyStrip cond.op
  (if validOperators.contains op = false then ["Invalid operator: '" ++ op ++ "'"] else []) ++
  (if op = "DURING" && (DATE_FIELDS.contains cond.field = false) then
     ["Operator DURING can only be used with date fields, not with " ++ cond.field]
   else []) ++
  (match FIELD_OPERATOR_RESTRICTIONS.find? (fun p => p.1 = cond.field) with
   | some p =>
     if p.2.contains op then [] else
       ["Operator " ++ op ++ " cannot be used with field " ++ cond.field
        ++ ". Allowed operators: " ++ String.intercalate ", " p.2]
   | none => [])

def validateFieldOperators (ast : Ast) : List String :=
  match getConditions ast with
  | some conds => (conds.map condOperatorErrors).join
  | none => []

def paramError (p : String × String) : List String :=
  (if VALID_PARAMETERS.contains p.1 then [] else ["Invalid parameter name: " ++ p.1]) ++
  (if p.2 = "true" ∨ p.2 = "false" then [] else
    ["Invalid parameter value: " ++ p.2 ++ ". Expected 'true' or 'false'"])

def validateParameters (params : List (String × String)) : List String :=
  (params.map paramError).join

/-- The error list `GaqlValidator.validate` accumulates on a parsed query. -/
def allErrors (ast : Ast) : List String :=
  validateStructure ast ++ validateResources ast ++ validateFields ast ++
  validateFieldOperators ast ++
  (match getParameters ast with
   | some ps => validateParameters ps
   | none => [])

structure ValidationResult where
  valid : Bool
  errors : List String
deriving DecidableEq, Repr

/-- `GaqlValidator.validate(query, strict=False)`. -/
def validate (query : String) : ValidationResult :=
  match parse query with
  | .error e => { valid := [e.message].isEmpty, errors := [e.message] }
  | .ok ast =>
    let errs := allErrors ast
    { valid := errs.isEmpty, errors := errs }

/-- The exception classes of exceptions.py (those strict mode raises). -/
inductive GaqlExc where
  | synE (message : String) (position : Option Nat)
  | validationE (message : String)
  | resourceE (message : String)
  | fieldE (message : String)
deriving DecidableEq, Repr

/-- One step of the strict-mode keyword scan over an error string. -/
def classifyOne (e : String) : Option GaqlExc :=
  let le := lowerStr e
  if hasSub le "invalid resource" then some (.resourceE e)
  else if hasSub le "invalid field" then some (.fieldE e)
  else if hasSub le "clause order" || hasSub le "operator" then some (.synE e none)
  else none

/-- The strict-mode loop: first keyword-matching error wins, otherwise a
generic validation error carrying the first error. -/
def classifyErrors (errors : List String) : GaqlExc :=
  match errors.findSome? classifyOne with
  | some g => g
  | none => .validationE (errors.headD "Unknown validation error")

/-- `GaqlValidator.validate(query, strict=True)`: a parse failure re-raises
the syntax error; otherwise a non-empty error list raises the classified
exception. -/
def validateStrict (query : String) : Except GaqlExc ValidationResult :=
  match parse query with
  | .error e => .error (.synE e.message e.position)
  | .ok ast =>
    let errs := allErrors ast
    if errs.isEmpty then .ok { valid := true, errors := errs }
    else .error (classifyErrors errs)

/-! ## Query builder (utils.build_gaql_query) -/

/-- An `order_by` entry: a dict with a `"field"` key and an optional
`"direction"` key (read with `.get("direction", "ASC")`). -/
structure OrderInput where
  field : String
  direction : Option String
deriving DecidableEq, Repr

def pyBoolLower (b : Bool) : String := if b then "true" else "false"

/-- `build_gaql_query`; raises `GaqlError` (modelled as `Except.error` with
the message) when no field is selected or the resource is the empty string
(Python truthiness of `str`). -/
def build_gaql_query (select_fields : List String) (resource : String)
    (where_conditions : Option (List String) := none)
    (order_by : Option (List OrderInput) := none)
    (limit : Option Int := none)
    (parameters : Option (List (String × Bool)) := none) :
    Except String String :=
  if select_fields.isEmpty then .error "At least one field must be selected"
  else if resource = "" then .error "Resource is required"
  else
    let q1 := "SELECT " ++ String.intercalate ", " select_fields
    let q2 := q1 ++ " FROM " ++ resource
    let q3 := q2 ++
      (match where_conditions with
       | some ws => if ws.length > 0 then " WHERE " ++ String.intercalate " AND " ws else ""
       | none => "")
    let q4 := q3 ++
      (match order_by with
       | some os =>
         if os.length > 0 then
           " ORDER BY " ++ String.intercalate ", "
             (os.map (fun o => o.field ++ " " ++ o.direction.getD "ASC"))
         else ""
       | none => "")
    let q5 := q4 ++ (match limit with | some n => " LIMIT " ++ toString n | none => "")
    let q6 := q5 ++
      (match parameters with
       | some ps =>
         if ps.length > 0 then
           " PARAMETERS " ++ String.intercalate ", "
             (ps.map (fun p => p.1 ++ "=" ++ pyBoolLower p.2))
         else ""
       | none => "")
    .ok q6

/-! ## Formatter (utils.format_gaql)

Each `re.sub` / `re.search` call of `format_gaql` is realised as a
dedicated scanner with Python's leftmost, non-overlapping semantics. -/

/-- `re.sub("([\s]+)(kw)", "\nkw", ·)`: a maximal whitespace run directly
followed by `kw` becomes a newline plus `kw`. -/
def subWsKwGo (kw : List Char) : Nat → List Char → List Char
  | 0, _ => []
  | _, [] => []
  | fuel + 1, c :: t =>
    if pyIsSpace c then
      if kw.isPrefixOf ((c :: t).dropWhile pyIsSpace) then
        '\n' :: (kw ++ subWsKwGo kw fuel (((c :: t).dropWhile pyIsSpace).drop kw.length))
      else (c :: t).takeWhile pyIsSpace ++ subWsKwGo kw fuel ((c :: t).dropWhile pyIsSpace)
    else c :: subWsKwGo kw fuel t

def subWsKw (kw l : List Char) : List Char := subWsKwGo kw (l.length + 1) l


/-- One attempt of `(SELECT)([^F]+)(FROM)` at the head of the text:
greedy non-`F` run, then the literal `FROM`.  Returns group 2. -/
def trySelectFromAt (l : List Char) : Option (List Char) :=
  if ("SELECT".toList).isPrefixOf l then
    if ((l.drop 6).takeWhile (fun c => c ≠ 'F')).isEmpty then none
    else if ("FROM".toList).isPrefixOf ((l.drop 6).dropWhile (fun c => c ≠ 'F')) then
      some ((l.drop 6).takeWhile (fun c => c ≠ 'F'))
    else none
  else none

/-- `re.search(r"(SELECT)([^F]+)(FROM)", ·)`: group 2 of the leftmost match. -/
def searchSelectFrom : List Char → Option (List Char)
  | [] => none
  | c :: t =>
    match trySelectFromAt (c :: t) with
    | some mid => some mid
    | none => searchSelectFrom t

theorem trySelectFromAt_some_len {l mid : List Char}
    (h : trySelectFromAt l = some mid) : 10 + mid.length ≤ l.length := by
  unfold trySelectFromAt at h
  split at h
  next hsel =>
    split at h
    · exact absurd h (by simp)
    · split at h
      next hmid hfrom =>
        have h6 : 6 ≤ l.length := by
          have := (List.isPrefixOf_iff_prefix.mp hsel).length_le
          simpa using this
        have hm : mid = (l.drop 6).takeWhile (fun c => c ≠ 'F') := by
          simpa using h.symm
        have h4 : 4 ≤ ((l.drop 6).dropWhile (fun c => c ≠ 'F')).length := by
          have := (List.isPrefixOf_iff_prefix.mp hfrom).length_le
          simpa using this
        have hsum : mid.length + ((l.drop 6).dropWhile (fun c => c ≠ 'F')).length
            = (l.drop 6).length := by
          rw [hm, ← List.length_append, List.takeWhile_append_dropWhile]
        have hd : (l.drop 6).length = l.length - 6 := by simp
        omega
      next => exact absurd h (by simp)
  next => exact absurd h (by simp)

/-- `re.sub(r"(SELECT)([^F]+)(FROM)", rep, ·)` with a constant replacement. -/
def subSelectFromAllGo (rep : List Char) : Nat → List Char → List Char
  | 0, _ => []
  | _, [] => []
  | fuel + 1, c :: t =>
    match trySelectFromAt (c :: t) with
    | some mid => rep ++ subSelectFromAllGo rep fuel ((c :: t).drop (10 + mid.length))
    | none => c :: subSelectFromAllGo rep fuel t

def subSelectFromAll (rep l : List Char) : List Char :=
  subSelectFromAllGo rep (l.length + 1) l

/-- Python's `$` (no MULTILINE): end of text, or just before a final newline. -/
def reDollar (l : List Char) : Bool := l.isEmpty || l = ['\n']

/-- The non-greedy tail of `(WHERE)([^O]+?)(ORDER BY|LIMIT|PARAMETERS|$)`:
extends the middle one non-`O` character at a time, testing the
alternatives (in the pattern's order) before each extension.  Returns
(group 2, group 3, text after the match). -/
def whereEndSearch (acc : List Char) : List Char → Option (List Char × List Char × List Char)
  | [] => if acc.isEmpty then none else some (acc, [], [])
  | c :: t =>
    if acc.isEmpty then
      if c = 'O' then none else whereEndSearch [c] t
    else if ("ORDER BY".toList).isPrefixOf (c :: t) then
      some (acc, "ORDER BY".toList, (c :: t).drop 8)
    else if ("LIMIT".toList).isPrefixOf (c :: t) then
      some (acc, "LIMIT".toList, (c :: t).drop 5)
    else if ("PARAMETERS".toList).isPrefixOf (c :: t) then
      some (acc, "PARAMETERS".toList, (c :: t).drop 10)
    else if reDollar (c :: t) then some (acc, [], c :: t)
    else if c = 'O' then none else whereEndSearch (acc ++ [c]) t

theorem whereEndSearch_rest_len {acc l mid g3 rest : List Char}
    (h : whereEndSearch acc l = some (mid, g3, rest)) : rest.length ≤ l.length := by
  induction l generalizing acc with
  | nil =>
    rw [whereEndSearch] at h
    split at h
    · exact absurd h (by simp)
    · cases h; simp
  | cons c t ih =>
    rw [whereEndSearch] at h
    split at h
    · split at h
      · exact absurd h (by simp)
      · have := ih h
        simp only [List.length_cons]
        omega
    · split at h
      · cases h
        simp only [List.length_drop, List.length_cons]
        omega
      · split at h
        · cases h
          simp only [List.length_drop, List.length_cons]
          omega
        · split at h
          · cases h
            simp only [List.length_drop, List.length_cons]
            omega
          · split at h
            · cases h; simp
            · split at h
              · exact absurd h (by simp)
              · have := ih h
                simp only [List.length_cons]
                omega

/-- `re.search(r"(WHERE)([^O]+?)(ORDER BY|LIMIT|PARAMETERS|$)", ·)`. -/
def searchWhere : List Char → Option (List Char × List Char × List Char)
  | [] => none
  | c :: t =>
    if ("WHERE".toList).isPrefixOf (c :: t) then
      match whereEndSearch [] ((c :: t).drop 5) with
      | some r => some r
      | none => searchWhere t
    else searchWhere t

/-- `re.sub` on the same pattern, replacing every match by
`WHERE` + a fixed indented-conditions text + that match's own group 3. -/
def subWhereAllGo (indented : List Char) : Nat → List Char → List Char
  | 0, _ => []
  | _, [] => []
  | fuel + 1, c :: t =>
    if ("WHERE".toList).isPrefixOf (c :: t) then
      match whereEndSearch [] ((c :: t).drop 5) with
      | some r => "WHERE".toList ++ indented ++ r.2.1 ++ subWhereAllGo indented fuel r.2.2
      | none => c :: subWhereAllGo indented fuel t
    else c :: subWhereAllGo indented fuel t

def subWhereAll (indented l : List Char) : List Char :=
  subWhereAllGo indented (l.length + 1) l

/-- The analogous non-greedy tail of
`(ORDER BY)([^L]+?)(LIMIT|PARAMETERS|$)`. -/
def orderEndSearch (acc : List Char) : List Char → Option (List Char × List Char × List Char)
  | [] => if acc.isEmpty then none else some (acc, [], [])
  | c :: t =>
    if acc.isEmpty then
      if c = 'L' then none else orderEndSearch [c] t
    else if ("LIMIT".toList).isPrefixOf (c :: t) then
      some (acc, "LIMIT".toList, (c :: t).drop 5)
    else if ("PARAMETERS".toList).isPrefixOf (c :: t) then
      some (acc, "PARAMETERS".toList, (c :: t).drop 10)
    else if reDollar (c :: t) then some (acc, [], c :: t)
    else if c = 'L' then none else orderEndSearch (acc ++ [c]) t

theorem orderEndSearch_rest_len {acc l mid g3 rest : List Char}
    (h : orderEndSearch acc l = some (mid, g3, rest)) : rest.length ≤ l.length := by
  induction l generalizing acc with
  | nil =>
    rw [orderEndSearch] at h
    split at h
    · exact absurd h (by simp)
    · cases h; simp
  | cons c t ih =>
    rw [orderEndSearch] at h
    split at h
    · split at h
      · exact absurd h (by simp)
      · have := ih h
        simp only [List.length_cons]
        omega
    · split at h
      · cases h
        simp only [List.length_drop, List.length_cons]
        omega
      · split at h
        · cases h
          simp only [List.length_drop, List.length_cons]
          omega
        · split at h
          · cases h; simp
          · split at h
            · exact absurd h (by simp)
            · have := ih h
              simp only [List.length_cons]
              omega

def searchOrder : List Char → Option (List Char × List Char × List Char)
  | [] => none
  | c :: t =>
    if ("ORDER BY".toList).isPrefixOf (c :: t) then
      match orderEndSearch [] ((c :: t).drop 8) with
      | some r => some r
      | none => searchOrder t
    else searchOrder t

def subOrderAllGo (indented : List Char) : Nat → List Char → List Char
  | 0, _ => []
  | _, [] => []
  | fuel + 1, c :: t =>
    if ("ORDER BY".toList).isPrefixOf (c :: t) then
      match orderEndSearch [] ((c :: t).drop 8) with
      | some r => "ORDER BY".toList ++ indented ++ r.2.1 ++ subOrderAllGo indented fuel r.2.2
      | none => c :: subOrderAllGo indented fuel t
    else c :: subOrderAllGo indented fuel t

def subOrderAll (indented l : List Char) : List Char :=
  subOrderAllGo indented (l.length + 1) l

/-- Case-insensitive prefix test (Python `re.IGNORECASE` over ASCII). -/
def ciIsPrefixOf : List Char → List Char → Bool
  | [], _ => true
  | _ :: _, [] => false
  | p :: ps, c :: cs => (p.toLower = c.toLower) && ciIsPrefixOf ps cs

/-- `re.sub(pat, rep, ·, flags=re.IGNORECASE)` for a literal `pat`
(leftmost, non-overlapping).  `pat` is assumed non-empty. -/
def ciReplaceAllGo (pat rep : List Char) : Nat → List Char → List Char
  | 0, _ => []
  | _, [] => []
  | fuel + 1, c :: t =>
    if pat.isEmpty then c :: t
    else if ciIsPrefixOf pat (c :: t) then
      rep ++ ciReplaceAllGo pat rep fuel ((c :: t).drop pat.length)
    else c :: ciReplaceAllGo pat rep fuel t

def ciReplaceAll (pat rep l : List Char) : List Char :=
  ciReplaceAllGo pat rep (l.length + 1) l

/-- `format_gaql(query, indent=2)`.  Caveat: the SELECT-, WHERE- and
ORDER-rejoining `re.sub` calls interpolate query-derived text into their
replacement strings, and Python parses a replacement as a template — a
backslash followed by an ASCII letter outside the known escapes (such as
`\q` inside a quoted WHERE value) makes `re.sub` raise
`re.error("bad escape ...")` instead of substituting.  The embedding
splices the replacement text literally and is exact only on queries whose
clause text holds no such backslash-letter pair; every theorem below is
instantiated inside that domain, and the claims about `fix_query` totality
account for the crash separately. -/
def format_gaql (query : String) (indent : Nat := 2) : String :=
  -- normalize whitespace first: `re.sub(r'\s+', ' ', query.strip())`
  let normalized := collapseWsList (pyStripList query.toList)
  -- newline passes for every keyword after SELECT
  let f1 := subWsKw ("FROM".toList) normalized
  let f2 := subWsKw ("WHERE".toList) f1
  let f3 := subWsKw ("ORDER BY".toList) f2
  let f4 := subWsKw ("LIMIT".toList) f3
  let f5 := subWsKw ("PARAMETERS".toList) f4
  -- re-join the SELECT field list with FROM
  let f6 :=
    if hasSubList ("SELECT".toList) f5 then
      match searchSelectFrom f5 with
      | some mid =>
        subSelectFromAll (("SELECT ".toList) ++ pyStripList mid ++ (" FROM".toList)) f5
      | none => f5
    else f5
  -- WHERE conditions on an indented continuation line
  let f7 :=
    if hasSubList ("WHERE".toList) f6 then
      match searchWhere f6 with
      | some r =>
        let conditionList :=
          (pySplit (String.mk (pyStripList r.1)) "AND").map (fun c => pyStrip c)
        let indented :=
          '\n' :: (List.replicate indent ' ' ++ (String.intercalate " AND " conditionList).toList)
        subWhereAll indented f6
      | none => f6
    else f6
  -- ORDER BY orderings, with direction-keyword canonicalisation
  let f8 :=
    if hasSubList ("ORDER BY".toList) f7 then
      match searchOrder f7 with
      | some r =>
        let o1 := pyStripList r.1
        let o2 := ciReplaceAll ("ASCENDING".toList) ("ASC".toList) o1
        let o3 := ciReplaceAll ("DESCENDING".toList) ("DESC".toList) o2
        let orderingList := (pySplit (String.mk o3) ",").map (fun o => pyStrip o)
        let orderParts := (orderingList.filter (fun o => pyStrip o ≠ "")).map (fun o =>
          if hasSub (upperStr o) " ASC" = false ∧ hasSub (upperStr o) " DESC" = false then
            pyStrip o ++ " ASC"
          else o)
        if orderParts.isEmpty then f7
        else
          let indented := ' ' :: (String.intercalate ", " orderParts).toList
          subOrderAll indented f7
      | none => f7
    else f7
  String.mk f8

/-! ## Fixer (fixer.py): string similarity and closest match

Python floats are modelled as exact fractions (numerator/denominator
pairs compared by cross-multiplication); every score the heuristic
produces is a small decimal rational, and no comparison in the exercised
domain is close enough to the 0.7 threshold for float rounding to
differ. -/

structure Frac where
  num : Int
  den : Int
deriving Repr, DecidableEq

def fracLt (a b : Frac) : Bool := a.num * b.den < b.num * a.den

def fracLe (a b : Frac) : Bool := a.num * b.den ≤ b.num * a.den

def fracAdd (a b : Frac) : Frac := ⟨a.num * b.den + b.num * a.den, a.den * b.den⟩

/-- Python `min` (keeps the first argument on ties). -/
def fracMin (a b : Frac) : Frac := if fracLe a b then a else b

/-- One row update of the case-insensitive Levenshtein table. -/
def levRowAux (ca : Char) : List Char → List Nat → Nat → Nat → List Nat
  | [], _, _, _ => []
  | _ :: _, [], _, _ => []
  | cb :: bs, up :: prevRest, diag, left =>
    let cost := if ca.toLower = cb.toLower then diag
                else min (min (up + 1) (left + 1)) (diag + 1)
    cost :: levRowAux ca bs prevRest up cost

def levenshtein (a b : List Char) : Nat :=
  (a.foldl (fun prev ca =>
    match prev with
    | p0 :: rest => (p0 + 1) :: levRowAux ca b rest p0 (p0 + 1)
    | [] => []) (List.range (b.length + 1))).getLastD 0

def commonPrefixLen : List Char → List Char → Nat
  | a :: as_, b :: bs => if a = b then 1 + commonPrefixLen as_ bs else 0
  | _, _ => 0

/-- The Levenshtein tail of `_string_similarity` (reached when no earlier
heuristic returned). -/
def stringSimilarityLev (a b : String) : Frac :=
  let d := levenshtein a.toList b.toList
  let maxLen := max a.toList.length b.toList.length
  if maxLen = 0 then ⟨1, 1⟩
  else
    let base : Frac := ⟨(maxLen : Int) - (d : Int), (maxLen : Int)⟩
    if a ≠ "" ∧ b ≠ "" ∧
        (a.toList.headD ' ').toLower = (b.toList.headD ' ').toLower then
      fracMin ⟨95, 100⟩ (fracAdd base ⟨1, 10⟩)
    else base

/-- `GaqlFixer._string_similarity`. -/
def stringSimilarity (a b : String) : Frac :=
  if a = "" ∧ b = "" then ⟨1, 1⟩
  else if a = "" ∨ b = "" then ⟨0, 1⟩
  else if a = b then ⟨1, 1⟩
  else if lowerStr a = lowerStr b then ⟨9, 10⟩
  else if ((lowerStr b).toList.take 3).isPrefixOf (lowerStr a).toList
       ∨ ((lowerStr a).toList.take 3).isPrefixOf (lowerStr b).toList then
    let common := commonPrefixLen (lowerStr a).toList (lowerStr b).toList
    if 3 ≤ common then
      fracMin ⟨85, 100⟩
        (fracAdd ⟨(common : Int), (max a.toList.length b.toList.length : Int)⟩ ⟨1, 2⟩)
    else stringSimilarityLev a b
  else stringSimilarityLev a b

/-- Stable descending insertion (Python's stable `sort` with
`reverse=True`): a new entry goes after existing entries of equal score. -/
def insertDesc (x : String × Frac) : List (String × Frac) → List (String × Frac)
  | [] => [x]
  | y :: t => if fracLt y.2 x.2 then x :: y :: t else y :: insertDesc x t

def sortBySimDesc (xs : List (String × Frac)) : List (String × Frac) :=
  xs.foldl (fun acc x => insertDesc x acc) []

/-- `GaqlFixer._get_closest_match` over a set pinned to a list. -/
def getClosestMatch (value : String) (validValues : List String) : List String :=
  match validValues.find? (fun v => lowerStr v = lowerStr value) with
  | some v => [v]
  | none =>
    let best := validValues.filterMap (fun v =>
      let s := stringSimilarity (lowerStr value) (lowerStr v)
      if fracLt ⟨7, 10⟩ s then some (v, s) else none)
    (sortBySimDesc best).map (fun m => m.1)

/-! ## Python value rendering (the fixer's f-string interpolation) -/

def stripLeadingZeros (l : List Char) : List Char :=
  match l.dropWhile (fun c => c = '0') with
  | [] => ['0']
  | r => r

def stripTrailingZeros (l : List Char) : List Char :=
  match (l.reverse.dropWhile (fun c => c = '0')).reverse with
  | [] => ['0']
  | r => r

/-- `str(float(lex))` for a `NUMBER` lexeme, in the positional-notation
domain (lexemes long enough for Python's scientific notation or rounding
are not produced by any statement proved here). -/
def pyFloatRepr (lex : String) : String :=
  let l := lex.toList
  let sign : String := if l.head? = some '-' then "-" else ""
  let rest := if l.head? = some '-' then l.tail else l
  let ip := rest.takeWhile (fun c => c ≠ '.')
  let fpRaw := (rest.dropWhile (fun c => c ≠ '.')).drop 1
  let fp := if fpRaw.isEmpty then ['0'] else stripTrailingZeros fpRaw
  sign ++ String.mk (stripLeadingZeros ip) ++ "." ++ String.mk fp

/-- Python `repr` of a `str` (quote choice and quote/backslash escapes). -/
def pyReprStr (s : String) : String :=
  if hasSub s "'" && (hasSub s "\"" = false) then "\"" ++ s ++ "\""
  else "'" ++ pyReplace (pyReplace s "\\" "\\\\") "'" "\\'" ++ "'"

/-- `f"{value}"` for a parsed condition value. -/
def pyStrVal : PyVal → String
  | .str s => s
  | .num lex => pyFloatRepr lex
  | .litList xs => "[" ++ String.intercalate ", " (xs.map pyReprStr) ++ "]"
  | .strList xs => "[" ++ String.intercalate ", " (xs.map pyReprStr) ++ "]"
  | .numList xs => "[" ++ String.intercalate ", " (xs.map pyFloatRepr) ++ "]"

def pyBoolStr (b : Bool) : String := if b then "True" else "False"

/-! ## `GaqlFixer._fix_from_parsed` -/

def fixResource (resource : String) : String × List String :=
  if resource ≠ "" ∧ VALID_RESOURCES.contains resource = false then
    match getClosestMatch resource VALID_RESOURCES with
    | [] => (resource, [])
    | m :: _ => (m, ["Fixed invalid resource: '" ++ resource ++ "' -> '" ++ m ++ "'"])
  else (resource, [])

def fixCondition (cond : Condition) : String × List String :=
  let p1 : String × List String :=
    if cond.field ≠ "" ∧ hasSub cond.field "." then
      let pfx := (pySplit cond.field ".").headD ""
      if VALID_FIELD_PREFIXES.contains pfx = false then
        match getClosestMatch pfx VALID_FIELD_PREFIXES with
        | [] => (cond.field, [])
        | m :: _ =>
          let newField := m ++ cond.field.drop pfx.length
          (newField,
           ["Fixed invalid field prefix: '" ++ cond.field ++ "' -> '" ++ newField ++ "'"])
      else (cond.field, [])
    else (cond.field, [])
  let field := p1.1
  let p2 : String × List String :=
    if DATE_FIELDS.contains field then
      ("DURING",
       ["Fixed incompatible operator for " ++ field ++ ": '" ++ cond.op ++ "' -> 'DURING'"])
    else
      match FIELD_OPERATOR_RESTRICTIONS.find? (fun p => p.1 = field) with
      | some p =>
        if p.2.contains cond.op = false then
          match p.2 with
          | o :: _ =>
            (o, ["Fixed incompatible operator for " ++ field ++ ": '" ++ cond.op
                 ++ "' -> '" ++ o ++ "'"])
          | [] => (cond.op, [])
        else (cond.op, [])
      | none => (cond.op, [])
  (field ++ " " ++ p2.1 ++ " " ++ pyStrVal cond.value, p1.2 ++ p2.2)

def fixOrdering (o : OrderItem) : OrderInput × List String :=
  if o.direction ≠ "ASC" ∧ o.direction ≠ "DESC" then
    (⟨o.field, some "ASC"⟩,
     ["Fixed invalid sort direction: '" ++ o.direction ++ "' -> 'ASC'"])
  else (⟨o.field, some o.direction⟩, [])

def dictInsertB : List (String × Bool) → String → Bool → List (String × Bool)
  | [], n, v => [(n, v)]
  | (k, w) :: t, n, v => if k = n then (k, v) :: t else (k, w) :: dictInsertB t n v

/-- The parameter loop.  `old_name` is only assigned inside the name-fix
branch, so the value-fix message can raise `NameError` when no earlier
iteration assigned it; the binding persists across loop iterations. -/
def fixParams (oldName : Option String) (ps : List (String × String))
    (dict : List (String × Bool)) (changes : List String) :
    Except Unit (List (String × Bool) × List String) :=
  match ps with
  | [] => .ok (dict, changes)
  | (name0, value) :: rest =>
    let step : String × Option String × List String :=
      if VALID_PARAMETERS.contains name0 = false then
        match getClosestMatch name0 VALID_PARAMETERS with
        | [] => (name0, oldName, [])
        | m :: _ =>
          (m, some name0,
           ["Fixed invalid parameter name: '" ++ name0 ++ "' -> '" ++ m ++ "'"])
      else (name0, oldName, [])
    let name := step.1
    let oldName1 := step.2.1
    let ch1 := step.2.2
    if value ≠ "true" ∧ value ≠ "false" then
      match oldName1 with
      | none => Except.error ()
      | some oname =>
        let fixedValue :=
          lowerStr value = "true" ∨ lowerStr value = "1"
          ∨ lowerStr value = "yes" ∨ lowerStr value = "on"
        let msg := "Fixed invalid parameter value: '" ++ oname ++ "=" ++ value
          ++ "' -> '" ++ name ++ "=" ++ pyBoolStr (decide fixedValue) ++ "'"
        fixParams oldName1 rest (dictInsertB dict name (decide fixedValue))
          (changes ++ ch1 ++ [msg])
    else
      fixParams oldName1 rest (dictInsertB dict name (value = "true"))
        (changes ++ ch1)

def fixFromParsed (query : String) (parsed : Ast) : Except Unit (String × List String) :=
  let selectFields0 := (getSelectFields parsed).getD []
  let pR : String × List String :=
    match getResource parsed with
    | some r => fixResource r
    | none => ("", [])
  let condResults := ((getConditions parsed).getD []).map fixCondition
  let whereConditions := condResults.map (fun p => p.1)
  let chW := (condResults.map (fun p => p.2)).join
  let orderResults := ((getOrderings parsed).getD []).map fixOrdering
  let orderBy := orderResults.map (fun p => p.1)
  let chO := (orderResults.map (fun p => p.2)).join
  let limit : Option Int :=
    match getLimit parsed with
    | some n => if 0 < n then some n else none
    | none => none
  let paramsResult : Except Unit (List (String × Bool) × List String) :=
    match getParameters parsed with
    | some ps => fixParams none ps [] []
    | none => .ok ([], [])
  match paramsResult with
  | .error e => .error e
  | .ok (dict, chP) =>
    let pS : List String × List String :=
      if selectFields0.isEmpty then
        (["campaign.id"], ["Added missing SELECT fields: campaign.id"])
      else (selectFields0, [])
    let pR2 : String × List String :=
      if pR.1 = "" then ("campaign", ["Added missing FROM resource: campaign"])
      else (pR.1, [])
    let changes := pR.2 ++ chW ++ chO ++ chP ++ pS.2 ++ pR2.2
    match build_gaql_query pS.1 pR2.1
        (if whereConditions.isEmpty then none else some whereConditions)
        (if orderBy.isEmpty then none else some orderBy)
        limit
        (if dict.isEmpty then none else some dict) with
    | .ok q => .ok (q, changes ++ ["Rebuilt query with fixed components."])
    | .error e => .ok (query, changes ++ ["Could not rebuild query: " ++ e])

/-! ## `GaqlFixer._fix_syntax_issues`

Every `re` call is a dedicated scanner with Python's leftmost,
non-overlapping semantics; `re.IGNORECASE` patterns use the
case-insensitive prefix test. -/

def pyStripRightList (l : List Char) : List Char :=
  (l.reverse.dropWhile pyIsSpace).reverse

/-- `re.match(r'^\s*SELECT\s+', q, re.IGNORECASE)`. -/
def startsSelectWs (l : List Char) : Bool :=
  ciIsPrefixOf ("SELECT".toList) (l.dropWhile pyIsSpace)
  && (match (l.dropWhile pyIsSpace).drop 6 with
      | c :: _ => pyIsSpace c
      | [] => false)

/-- One attempt of `SELECT\s+([^F]+)` (IGNORECASE, so `[^F]` excludes both
cases of F): greedy whitespace, then a greedy run without F/f; when that
run is empty the engine backtracks one whitespace character into the
group.  Returns (group 1, length of the whole match). -/
def trySelNonFAt (l : List Char) : Option (List Char × Nat) :=
  if ciIsPrefixOf ("SELECT".toList) l then
    match l.drop 6 with
    | c :: _ =>
      if pyIsSpace c then
        let ws := (l.drop 6).takeWhile pyIsSpace
        let g1 := ((l.drop 6).dropWhile pyIsSpace).takeWhile (fun d => d ≠ 'F' ∧ d ≠ 'f')
        if g1.isEmpty = false then some (g1, 6 + ws.length + g1.length)
        else if 2 ≤ ws.length then some ([ws.getLastD ' '], 6 + ws.length)
        else none
      else none
    | [] => none
  else none

def searchSelNonF : List Char → Option (List Char)
  | [] => none
  | c :: t =>
    match trySelNonFAt (c :: t) with
    | some p => some p.1
    | none => searchSelNonF t

def subSelNonFAllGo (rep : List Char) : Nat → List Char → List Char
  | 0, _ => []
  | _, [] => []
  | fuel + 1, c :: t =>
    match trySelNonFAt (c :: t) with
    | some p => rep ++ subSelNonFAllGo rep fuel (t.drop (p.2 - 1))
    | none => c :: subSelNonFAllGo rep fuel t

def subSelNonFAll (rep l : List Char) : List Char :=
  subSelNonFAllGo rep (l.length + 1) l

/-- `re.sub(r'(SELECT|FROM|WHERE|ORDER BY|LIMIT|PARAMETERS)([^\s])',
r'\1 \2', ·, flags=re.IGNORECASE)`.  The keywords have pairwise distinct
first letters, so at most one alternative matches at a position. -/
def clausesOrderList : List String :=
  ["SELECT", "FROM", "WHERE", "ORDER BY", "LIMIT", "PARAMETERS"]

def subSpacingAllGo : Nat → List Char → List Char
  | 0, _ => []
  | _, [] => []
  | fuel + 1, c :: t =>
    match clausesOrderList.find? (fun k => ciIsPrefixOf k.toList (c :: t)) with
    | some k =>
      match (c :: t).drop k.length with
      | d :: rest2 =>
        if pyIsSpace d then c :: subSpacingAllGo fuel t
        else ((c :: t).take k.length ++ [' ', d]) ++ subSpacingAllGo fuel rest2
      | [] => c :: subSpacingAllGo fuel t
    | none => c :: subSpacingAllGo fuel t

def subSpacingAll (l : List Char) : List Char :=
  subSpacingAllGo (l.length + 1) l

/-- The non-greedy `(.+?)` with a lookahead stop, for the (unreachable)
clause-reordering branch: `.` does not match a newline. -/
def dotPlusSearch (stop : List Char → Bool) (acc : List Char) :
    List Char → Option (List Char)
  | [] => if acc.isEmpty = false ∧ stop [] then some acc else none
  | c :: t =>
    if acc.isEmpty = false ∧ stop (c :: t) then some acc
    else if c = '\n' then none
    else dotPlusSearch stop (acc ++ [c]) t

/-- `re.search(f"{clause}\\s+(.+?)(?={next}\\s+|$)", ·, re.IGNORECASE)`
(or with a plain `$` stop when the clause is the last). -/
def clauseContentStop (nxt : Option (List Char)) (l : List Char) : Bool :=
  (match nxt with
   | some kw =>
     ciIsPrefixOf kw l &&
       (match l.drop kw.length with
        | c :: _ => pyIsSpace c
        | [] => false)
   | none => false) || reDollar l

def searchClauseContent (kw : List Char) (nxt : Option (List Char)) :
    List Char → Option (List Char)
  | [] => none
  | c :: t =>
    if ciIsPrefixOf kw (c :: t) then
      match (c :: t).drop kw.length with
      | d :: _ =>
        if pyIsSpace d then
          match dotPlusSearch (clauseContentStop nxt) []
              (((c :: t).drop kw.length).dropWhile pyIsSpace) with
          | some g1 => some g1
          | none => searchClauseContent kw nxt t
        else searchClauseContent kw nxt t
      | [] => searchClauseContent kw nxt t
    else searchClauseContent kw nxt t

/-- The (dead) clause-reordering body: extract each clause's content and
re-join the found ones in canonical order. -/
def reorderClauses (l : List Char) : Option (List Char) :=
  let pick := fun (kw : String) (nxt : Option String) =>
    (searchClauseContent kw.toList (nxt.map (fun s => s.toList)) l).map
      (fun g1 => kw.toList ++ ' ' :: pyStripList g1)
  let parts := [pick "SELECT" (some "FROM"), pick "FROM" (some "WHERE"),
                pick "WHERE" (some "ORDER BY"), pick "ORDER BY" (some "LIMIT"),
                pick "LIMIT" (some "PARAMETERS"), pick "PARAMETERS" none]
  match parts.filterMap id with
  | [] => none
  | ps => some (String.intercalate " " (ps.map String.mk)).toList

/-- A generic attempt of `field\s+op\s+value` where `field` and the
operator alternatives are literals and the value is a greedy run over a
character class.  Returns the matched groups (original case) and the match
length. -/
structure TripleMatch where
  field : String
  op : String
  value : String
  len : Nat
deriving Repr

def tryTripleAt (ci : Bool) (field : List Char) (ops : List String)
    (valChar : Char → Bool) (l : List Char) : Option TripleMatch :=
  let pre := fun (p : List Char) (x : List Char) =>
    if ci then ciIsPrefixOf p x else p.isPrefixOf x
  if pre field l then
    let fieldTxt := l.take field.length
    let afterF := l.drop field.length
    let ws1 := afterF.takeWhile pyIsSpace
    if ws1.isEmpty then none
    else
      let rest2 := afterF.dropWhile pyIsSpace
      let tryOp := fun (o : String) =>
        if pre o.toList rest2 then
          let afterO := rest2.drop o.length
          let ws2 := afterO.takeWhile pyIsSpace
          if ws2.isEmpty then none
          else
            let v := (afterO.dropWhile pyIsSpace).takeWhile valChar
            if v.isEmpty then none
            else
              some (TripleMatch.mk (String.mk fieldTxt)
                (String.mk (rest2.take o.length)) (String.mk v)
                (field.length + ws1.length + o.length + ws2.length + v.length))
        else none
      ops.findSome? tryOp
  else none

def findAllTriplesGo (ci : Bool) (field : List Char) (ops : List String)
    (valChar : Char → Bool) : Nat → List Char → List TripleMatch
  | 0, _ => []
  | _, [] => []
  | fuel + 1, c :: t =>
    match tryTripleAt ci field ops valChar (c :: t) with
    | some m => m :: findAllTriplesGo ci field ops valChar fuel (t.drop (m.len - 1))
    | none => findAllTriplesGo ci field ops valChar fuel t

def findAllTriples (ci : Bool) (field : List Char) (ops : List String)
    (valChar : Char → Bool) (l : List Char) : List TripleMatch :=
  findAllTriplesGo ci field ops valChar (l.length + 1) l

/-- `field\s+op\s+value` with all three parts escaped literals. -/
def tryEscTripleAt (ci : Bool) (f o v : List Char) (l : List Char) : Option Nat :=
  let pre := fun (p : List Char) (x : List Char) =>
    if ci then ciIsPrefixOf p x else p.isPrefixOf x
  if pre f l then
    let a1 := l.drop f.length
    let ws1 := a1.takeWhile pyIsSpace
    if ws1.isEmpty then none
    else
      let a2 := a1.dropWhile pyIsSpace
      if pre o a2 then
        let a3 := a2.drop o.length
        let ws2 := a3.takeWhile pyIsSpace
        if ws2.isEmpty then none
        else
          let a4 := a3.dropWhile pyIsSpace
          if pre v a4 then some (f.length + ws1.length + o.length + ws2.length + v.length)
          else none
      else none
  else none

/-- `re.sub(..., count=1)` over the escaped triple. -/
def subFirstEscTriple (ci : Bool) (f o v rep : List Char) : List Char → List Char
  | [] => []
  | c :: t =>
    match tryEscTripleAt ci f o v (c :: t) with
    | some n => rep ++ t.drop (n - 1)
    | none => c :: subFirstEscTriple ci f o v rep t

/-- `re.sub(...)` (all occurrences) over the escaped triple. -/
def subAllEscTripleGo (ci : Bool) (f o v rep : List Char) : Nat → List Char → List Char
  | 0, _ => []
  | _, [] => []
  | fuel + 1, c :: t =>
    match tryEscTripleAt ci f o v (c :: t) with
    | some n => rep ++ subAllEscTripleGo ci f o v rep fuel (t.drop (n - 1))
    | none => c :: subAllEscTripleGo ci f o v rep fuel t

def subAllEscTriple (ci : Bool) (f o v rep l : List Char) : List Char :=
  subAllEscTripleGo ci f o v rep (l.length + 1) l

/-- `kw\s+word` (IGNORECASE) replaced everywhere by a constant. -/
def tryKwWsWordAt (kw word : List Char) (l : List Char) : Option Nat :=
  if ciIsPrefixOf kw l then
    let a1 := l.drop kw.length
    let ws := a1.takeWhile pyIsSpace
    if ws.isEmpty then none
    else if ciIsPrefixOf word (a1.dropWhile pyIsSpace) then
      some (kw.length + ws.length + word.length)
    else none
  else none

def subAllKwWsWordGo (kw word rep : List Char) : Nat → List Char → List Char
  | 0, _ => []
  | _, [] => []
  | fuel + 1, c :: t =>
    match tryKwWsWordAt kw word (c :: t) with
    | some n => rep ++ subAllKwWsWordGo kw word rep fuel (t.drop (n - 1))
    | none => c :: subAllKwWsWordGo kw word rep fuel t

def subAllKwWsWord (kw word rep l : List Char) : List Char :=
  subAllKwWsWordGo kw word rep (l.length + 1) l

def dateRangeLits : List String :=
  ["LAST_14_DAYS", "LAST_30_DAYS", "LAST_7_DAYS",
   "LAST_BUSINESS_WEEK", "LAST_MONTH", "LAST_WEEK_MON_SUN",
   "LAST_WEEK_SUN_SAT", "THIS_MONTH", "THIS_WEEK_MON_TODAY",
   "THIS_WEEK_SUN_TODAY", "TODAY", "YESTERDAY"]

def isWordChar (c : Char) : Bool := isAZ c || isDigitC c || c = '_'

/-- One attempt of `(\w+\.\w+)\s+(=|!=|LIKE|NOT LIKE|IN|NOT IN)\s+([A-Za-z][^\s,)]+)`
(IGNORECASE).  The value needs a letter and then at least one more
character outside whitespace, `,` and `)`. -/
def tryUnquotedAt (l : List Char) : Option TripleMatch :=
  match l with
  | c :: _ =>
    if isWordChar c then
      let run1 := l.takeWhile isWordChar
      match l.drop run1.length with
      | '.' :: afterDot =>
        let run2 := afterDot.takeWhile isWordChar
        if run2.isEmpty then none
        else
          let fieldLen := run1.length + 1 + run2.length
          let afterF := afterDot.drop run2.length
          let ws1 := afterF.takeWhile pyIsSpace
          if ws1.isEmpty then none
          else
            let rest2 := afterF.dropWhile pyIsSpace
            let tryOp := fun (o : String) =>
              if ciIsPrefixOf o.toList rest2 then
                let afterO := rest2.drop o.length
                let ws2 := afterO.takeWhile pyIsSpace
                if ws2.isEmpty then none
                else
                  match afterO.dropWhile pyIsSpace with
                  | v0 :: vrest =>
                    if isAZ v0 then
                      let vtail := vrest.takeWhile
                        (fun d => pyIsSpace d = false ∧ d ≠ ',' ∧ d ≠ ')')
                      if vtail.isEmpty then none
                      else
                        some (TripleMatch.mk (String.mk (l.take fieldLen))
                          (String.mk (rest2.take o.length))
                          (String.mk (v0 :: vtail))
                          (fieldLen + ws1.length + o.length + ws2.length
                            + 1 + vtail.length))
                    else none
                  | [] => none
              else none
            (["=", "!=", "LIKE", "NOT LIKE", "IN", "NOT IN"].findSome? tryOp)
      | _ => none
    else none
  | [] => none

def findAllUnquotedGo : Nat → List Char → List TripleMatch
  | 0, _ => []
  | _, [] => []
  | fuel + 1, c :: t =>
    match tryUnquotedAt (c :: t) with
    | some m => m :: findAllUnquotedGo fuel (t.drop (m.len - 1))
    | none => findAllUnquotedGo fuel t

def findAllUnquoted (l : List Char) : List TripleMatch :=
  findAllUnquotedGo (l.length + 1) l

def hasEscTriple (ci : Bool) (f o v : List Char) : List Char → Bool
  | [] => false
  | c :: t => (tryEscTripleAt ci f o v (c :: t)).isSome || hasEscTriple ci f o v t

/-- Operator alternation of `date_field_pattern`, in the pattern's order. -/
def dateOps : List String := ["=", "!=", ">", ">=", "<", "<=", "EQUAL"]

/-- Operator alternation of `numeric_date_pattern`. -/
def numDateOps : List String := ["=", "!=", ">", ">=", "<", "<=", "EQUALS", "EQUAL"]

def dateValChar (c : Char) : Bool := isAZ c || c = '_'

/-- Per-match body of the `date_field_pattern` loop (the `re.finditer`
iterator scans the snapshot taken at loop entry; the substitutions apply
to the evolving query with `count=1`). -/
def applyDateFix (st : String × List String) (m : TripleMatch) :
    String × List String :=
  if dateRangeLits.contains (upperStr m.value) then
    (String.mk (subFirstEscTriple true m.field.toList m.op.toList m.value.toList
        (m.field ++ " DURING " ++ m.value).toList st.1.toList),
     st.2 ++ ["Fixed incompatible operator for " ++ m.field ++ ": '"
              ++ m.op ++ "' -> 'DURING'"])
  else st

/-- Per-match body of the `numeric_date_pattern` loop. -/
def applyNumDateFix (st : String × List String) (m : TripleMatch) :
    String × List String :=
  (String.mk (subFirstEscTriple true m.field.toList m.op.toList m.value.toList
      (m.field ++ " BETWEEN " ++ m.value ++ ".0").toList st.1.toList),
   st.2 ++ ["Fixed incompatible operator for " ++ m.field ++ ": '"
            ++ m.op ++ "' -> 'BETWEEN'"])

/-- One iteration of the pluralised-resource loop.  The needle
`FROM resources` keeps the resource lowercase while the haystack is
uppercased, so the branch never fires. -/
def applyPluralFix (st : String × List String) (r : String) :
    String × List String :=
  if hasSub (upperStr st.1) ("FROM " ++ r ++ "s") then
    (String.mk (subAllKwWsWord "FROM".toList (r ++ "s").toList
        ("FROM " ++ r).toList st.1.toList),
     st.2 ++ ["Fixed invalid resource name: '" ++ r ++ "s' -> '" ++ r ++ "'"])
  else st

/-- Per-match body of the `unquoted_strings` loop (substitution is
case-sensitive and global there). -/
def applyUnquotedFix (st : String × List String) (m : TripleMatch) :
    String × List String :=
  if (m.value.toList.all isDigitC = false)
      && (dateRangeLits.contains (upperStr m.value) = false) then
    if pyStartsWith m.value "'" = false && pyEndsWith m.value "'" = false then
      (String.mk (subAllEscTriple false m.field.toList m.op.toList m.value.toList
          (m.field ++ " " ++ m.op ++ " '" ++ m.value ++ "'").toList st.1.toList),
       st.2 ++ ["Added missing quotes around string value: " ++ m.value
                ++ " -> '" ++ m.value ++ "'"])
    else st
  else st

/-- The `include_draft=` / `ASCENDING` / `DESCENDING` replacements; the
source contains this block twice in a row. -/
def draftAscPass (q : String) : String × List String :=
  let p1 : String × List String :=
    if hasSub q "PARAMETERS include_draft=" then
      (pyReplace q "include_draft=" "include_drafts=",
       ["Fixed parameter name: 'include_draft' -> 'include_drafts'"])
    else (q, [])
  let p2 : String × List String :=
    if hasSub p1.1 "ASCENDING" then
      (pyReplace p1.1 "ASCENDING" "ASC",
       ["Fixed sort direction: 'ASCENDING' -> 'ASC'"])
    else (p1.1, [])
  let p3 : String × List String :=
    if hasSub p2.1 "DESCENDING" then
      (pyReplace p2.1 "DESCENDING" "DESC",
       ["Fixed sort direction: 'DESCENDING' -> 'DESC'"])
    else (p2.1, [])
  (p3.1, p1.2 ++ p2.2 ++ p3.2)

/-- `GaqlFixer._fix_syntax_issues`.  The SELECT/FROM-insertion step and the
final `format_gaql` call interpolate query text into `re.sub` replacement
templates, so on input holding a backslash-letter escape the real function
raises `re.error` (see `format_gaql`); the embedding is exact away from
that domain and the totality claims account for the crash separately. -/
def fixSyntaxIssues (query : String) : String × List String :=
  let fq0 := pyStrip query
  let s1 : String × List String :=
    if startsSelectWs fq0.toList then (fq0, [])
    else ("SELECT campaign.id " ++ fq0, ["Added missing SELECT clause."])
  let s2 : String × List String :=
    if hasSub (upperStr s1.1) "SELECT" && (hasSub (upperStr s1.1) "FROM" = false) then
      match searchSelNonF s1.1.toList with
      | some g1 =>
        let rep := "SELECT ".toList ++ pyStripList g1 ++ " FROM campaign".toList
        (String.mk (subSelNonFAll rep s1.1.toList),
         s1.2 ++ ["Added missing FROM clause with default resource 'campaign'."])
      | none =>
        (String.mk (pyStripRightList s1.1.toList) ++ " FROM campaign",
         s1.2 ++ ["Added missing FROM clause with default resource 'campaign'."])
    else s1
  let fq3 := String.mk (subSpacingAll s2.1.toList)
  let currentOrder := clausesOrderList.filter (fun c => hasSub (upperStr fq3) c)
  let s4 : String × List String :=
    if currentOrder ≠ clausesOrderList.filter (fun c => currentOrder.contains c) then
      match reorderClauses fq3.toList with
      | some l => (String.mk l, s2.2 ++ ["Fixed clause ordering."])
      | none => (fq3, s2.2)
    else (fq3, s2.2)
  let s5 : String × List String :=
    if hasEscTriple true "segments.date".toList "EQUALS".toList
        "LAST_7_DAYS".toList s4.1.toList then
      (String.mk (subAllEscTriple true "segments.date".toList "EQUALS".toList
          "LAST_7_DAYS".toList "segments.date DURING LAST_7_DAYS".toList s4.1.toList),
       s4.2 ++ ["Fixed incompatible operator for segments.date: 'EQUALS' -> 'DURING'"])
    else s4
  let s6 : String × List String :=
    if hasSub s5.1 "ORDER BY invalid.field ASC, metrics.impressions ASC" then
      (pyReplace s5.1 "ORDER BY invalid.field ASC, metrics.impressions ASC"
         "ORDER BY metrics.impressions ASC",
       s5.2 ++ ["Removed invalid field from ORDER BY clause."])
    else s5
  let s7 := (findAllTriples true "segments.date".toList dateOps dateValChar
      s6.1.toList).foldl applyDateFix s6
  let s8 := (findAllTriples true "segments.date".toList numDateOps isDigitC
      s7.1.toList).foldl applyNumDateFix s7
  let s9 := VALID_RESOURCES.foldl applyPluralFix s8
  let sA : String × List String :=
    if hasSub (upperStr s9.1) "FROM CAMPAING" then
      (String.mk (subAllKwWsWord "FROM".toList "campaing".toList
          "FROM campaign".toList s9.1.toList),
       s9.2 ++ ["Fixed misspelled resource: 'campaing' -> 'campaign'"])
    else s9
  let sB : String × List String :=
    if hasSub (upperStr sA.1) "FROM ADGROUP" then
      (String.mk (subAllKwWsWord "FROM".toList "adgroup".toList
          "FROM ad_group".toList sA.1.toList),
       sA.2 ++ ["Fixed misspelled resource: 'adgroup' -> 'ad_group'"])
    else sA
  let sC : String × List String :=
    if hasSub sB.1 "ad_group.name = test" then
      (pyReplace sB.1 "ad_group.name = test" "ad_group.name = 'test'",
       sB.2 ++ ["Added missing quotes around string value: test -> 'test'"])
    else sB
  let sD := (findAllUnquoted sC.1.toList).foldl applyUnquotedFix sC
  let sE := draftAscPass sD.1
  let sF := draftAscPass sE.1
  (format_gaql sF.1, sD.2 ++ sE.2 ++ sF.2)

/-- `GaqlFixer.fix_query`.  The fixer's `NameError` is modelled as
`Except.error ()`; `GaqlSyntaxError` from the parser is caught and routed
to `_fix_syntax_issues`.  The `re.error` that `format_gaql` raises on
backslash-letter escapes (fixer.py line 59 and inside
`_fix_syntax_issues`) is NOT modelled — the embedding substitutes
literally — so this definition is exact only on inputs free of such
escapes, and no totality statement is derived from it. -/
def fixQuery (query : String) : Except Unit (String × List String) :=
  let vr := validate query
  if vr.valid then Except.ok (query, ["Query is already valid, no changes needed."])
  else
    let step : Except Unit (String × List String) :=
      match parse query with
      | Except.ok parsed => fixFromParsed query parsed
      | Except.error _ => Except.ok (fixSyntaxIssues query)
    match step with
    | Except.error e => Except.error e
    | Except.ok fc =>
      let finalQuery := format_gaql fc.1
      let changes2 :=
        if finalQuery ≠ fc.1 then
          fc.2 ++ ["Applied formatting for better readability."]
        else fc.2
      let fv := validate finalQuery
      let changes3 :=
        if fv.valid then changes2
        else changes2 ++ ["Not all issues could be fixed", "Remaining errors:"]
          ++ fv.errors.map (fun e => "  - " ++ e)
      Except.ok (finalQuery, changes3)

/-! ## Supporting lemmas: parsed parameter values are always boolean lexemes

`PARAMETER_VALUE: "true" | "false"`, so every parameter value the parser
can deliver is one of the two lexemes; the fixer's value-fix branch (the
one that can raise `NameError`) is therefore unreachable from `fix_query`.
-/

def goodVals (ps : List (String × String)) : Prop :=
  ∀ p ∈ ps, p.2 = "false" ∨ p.2 = "true"

theorem parseParamValue_val {l : List Char} {v : String} {r : List Char}
    (h : parseParamValue l = .ok (v, r)) : v = "false" ∨ v = "true" := by
  unfold parseParamValue at h
  split at h
  · cases h
    exact Or.inl rfl
  · split at h
    · cases h
      exact Or.inr rfl
    · exact absurd h (by simp)

theorem parseParameter_val {l : List Char} {p : String × String} {r : List Char}
    (h : parseParameter l = .ok (p, r)) : p.2 = "false" ∨ p.2 = "true" := by
  unfold parseParameter at h
  split at h
  next => exact absurd h (by simp)
  next n r1 h1 =>
    split at h
    next => exact absurd h (by simp)
    next r2 h2 =>
      split at h
      next => exact absurd h (by simp)
      next v r3 h3 =>
        cases h
        exact parseParamValue_val h3

theorem parseParamsRestGo_val :
    ∀ (fuel : Nat) (l : List Char) {acc xs : List (String × String)} {r : List Char},
      goodVals acc → parseParamsRestGo fuel acc l = .ok (xs, r) → goodVals xs := by
  intro fuel
  induction fuel with
  | zero =>
    intro l acc xs r hacc h
    rw [parseParamsRestGo] at h
    exact absurd h (by simp)
  | succ n ih =>
    intro l acc xs r hacc h
    rw [parseParamsRestGo] at h
    split at h
    next rest hskip =>
      split at h
      next => exact absurd h (by simp)
      next p ri hp =>
        refine ih ri ?_ h
        intro q hq
        rcases List.mem_append.mp hq with hq | hq
        · exact hacc q hq
        · have hq' := List.mem_singleton.mp hq
          subst hq'
          exact parseParameter_val hp
    next =>
      cases h
      exact hacc

theorem dictInsert_val {d : List (String × String)} {k v : String} {p : String × String}
    (h : p ∈ dictInsert d k v) : p.2 = v ∨ p ∈ d := by
  induction d with
  | nil =>
    rw [dictInsert] at h
    have := List.mem_singleton.mp h
    subst this
    exact Or.inl rfl
  | cons q t ih =>
    obtain ⟨a, b⟩ := q
    rw [dictInsert] at h
    split at h
    · rcases List.mem_cons.mp h with h | h
      · subst h
        exact Or.inl rfl
      · exact Or.inr (List.mem_cons.mpr (Or.inr h))
    · rcases List.mem_cons.mp h with h | h
      · exact Or.inr (List.mem_cons.mpr (Or.inl h))
      · rcases ih h with h | h
        · exact Or.inl h
        · exact Or.inr (List.mem_cons.mpr (Or.inr h))

theorem foldl_dictInsert_val :
    ∀ (ps init : List (String × String)), goodVals init → goodVals ps →
      goodVals (ps.foldl (fun d p => dictInsert d p.1 p.2) init) := by
  intro ps
  induction ps with
  | nil =>
    intro init hi _
    simpa using hi
  | cons p t ih =>
    intro init hi hg
    rw [List.foldl_cons]
    refine ih _ ?_ ?_
    · intro q hq
      rcases dictInsert_val hq with h | h
      · rw [h]
        exact hg p (by simp)
      · exact hi q h
    · intro q hq
      exact hg q (by simp [hq])

theorem buildParamDict_val {ps : List (String × String)} (h : goodVals ps) :
    goodVals (buildParamDict ps) :=
  foldl_dictInsert_val ps [] (by intro q hq; simp at hq) h

theorem parseParamsOpt_val {l : List Char} {pc : Option (List (String × String))}
    {r : List Char} (h : parseParamsOpt l = .ok (pc, r)) :
    ∀ ps, pc = some ps → goodVals ps := by
  unfold parseParamsOpt at h
  split at h
  · split at h
    next => exact absurd h (by simp)
    next p ri hp =>
      split at h
      next => exact absurd h (by simp)
      next ps2 r2 hps =>
        cases h
        intro ps hps'
        cases hps'
        refine buildParamDict_val ?_
        refine parseParamsRestGo_val _ ri ?_ hps
        intro q hq
        have hq' := List.mem_singleton.mp hq
        subst hq'
        exact parseParameter_val hp
  · cases h
    intro ps hps
    exact absurd hps (by simp)

theorem getParameters_mkAst (fields : List String) (res : String)
    (wc : Option (List Condition)) (oc : Option (List OrderItem × Bool))
    (lc : Option Int) (pc : Option (List (String × String))) :
    getParameters (mkAst fields res wc oc lc pc) = pc := by
  cases wc <;> cases oc <;> cases lc <;> cases pc <;>
    simp [mkAst, getParameters, lookupClause, List.find?]

theorem parseQuery_good_params {l : List Char} {ast : Ast}
    (h : parseQuery l = .ok ast) :
    ∀ ps, getParameters ast = some ps → goodVals ps := by
  unfold parseQuery at h
  split at h
  next => exact absurd h (by simp)
  next r0 h0 =>
  split at h
  next => exact absurd h (by simp)
  next f0 r1 h1 =>
  split at h
  next => exact absurd h (by simp)
  next fields r2 h2 =>
  split at h
  next => exact absurd h (by simp)
  next r3 h3 =>
  split at h
  next => exact absurd h (by simp)
  next res r4 h4 =>
  split at h
  next => exact absurd h (by simp)
  next wc r5 h5 =>
  split at h
  next => exact absurd h (by simp)
  next oc r6 h6 =>
  split at h
  next => exact absurd h (by simp)
  next lc r7 h7 =>
  split at h
  next => exact absurd h (by simp)
  next pc r8 h8 =>
  split at h
  next =>
    split at h
    next => exact absurd h (by simp)
    next =>
      cases h
      rw [getParameters_mkAst]
      exact parseParamsOpt_val h8
  next => exact absurd h (by simp)

theorem parse_good_params {q : String} {ast : Ast} (h : parse q = .ok ast) :
    ∀ ps, getParameters ast = some ps → goodVals ps := by
  unfold parse at h
  simp only [] at h
  split at h
  next ast2 hq =>
    split at h
    next => exact absurd h (by simp)
    next =>
      split at h
      next => exact absurd h (by simp)
      next =>
        cases h
        exact parseQuery_good_params hq
  next m hq => exact absurd h (by simp)
  next rem expected hq =>
    split at h <;> exact absurd h (by simp)

theorem fixParams_ok :
    ∀ (ps : List (String × String)) (oldName : Option String)
      (dict : List (String × Bool)) (changes : List String),
      goodVals ps → ∃ r, fixParams oldName ps dict changes = .ok r := by
  intro ps
  induction ps with
  | nil =>
    intro o d c _
    exact ⟨_, rfl⟩
  | cons p t ih =>
    intro o d c hg
    obtain ⟨name0, value⟩ := p
    have hv := hg (name0, value) (by simp)
    simp only at hv
    have hcond : ¬(value ≠ "true" ∧ value ≠ "false") := by
      rcases hv with h | h <;> subst h <;> simp
    rw [fixParams]
    rw [if_neg hcond]
    exact ih _ _ _ (fun q hq => hg q (by simp [hq]))

theorem fixFromParsed_params_step {ast : Ast}
    (hgood : ∀ ps, getParameters ast = some ps → goodVals ps) :
    ∃ d, (match getParameters ast with
          | some ps => fixParams none ps [] []
          | none => Except.ok ([], [])) = Except.ok d := by
  rcases hps : getParameters ast with _ | ps
  · exact ⟨_, rfl⟩
  · have := fixParams_ok ps none [] [] (hgood ps hps)
    simpa using this

theorem build_match_ok (x : Except String String)
    (A B : String → String × List String) :
    ∃ r, (match x with
          | Except.ok q2 => Except.ok (A q2)
          | Except.error e2 => Except.ok (B e2) : Except Unit (String × List String))
        = Except.ok r := by
  cases x with
  | ok y => exact ⟨A y, rfl⟩
  | error a => exact ⟨B a, rfl⟩

theorem fixFromParsed_ok {q : String} {ast : Ast}
    (hgood : ∀ ps, getParameters ast = some ps → goodVals ps) :
    ∃ r, fixFromParsed q ast = .ok r := by
  obtain ⟨d, hd⟩ := fixFromParsed_params_step hgood
  obtain ⟨dict, chP⟩ := d
  unfold fixFromParsed
  rw [hd]
  exact build_match_ok _ _ _

/-- C6 (amended): on an already-valid query fix_query returns the query
unchanged with the single "already valid" notice (in particular a
non-empty change list).  The rest of the original claim fails: the change
list can be empty on some inputs (the counterexample below), and
fix_query does not always return a pair — `format_gaql` at fixer.py line
59 interpolates query text into a `re.sub` replacement template, so a
backslash-letter escape such as `\q` inside a quoted WHERE value raises
an uncaught `re.error` before any pair is built. -/
theorem fix_query_id_on_valid (q : String) (hv : (validate q).valid = true) :
    fixQuery q = .ok (q, ["Query is already valid, no changes needed."]) := by
  simp only [fixQuery]
  rw [if_pos hv]

set_option maxRecDepth 80000 in
theorem fix_query_id_on_valid_witness :
    (validate "SELECT campaign.id FROM campaign").valid = true
    ∧ fixQuery "SELECT campaign.id FROM campaign"
        = .ok ("SELECT campaign.id FROM campaign",
               ["Query is already valid, no changes needed."]) :=
  ⟨by decide, fix_query_id_on_valid "SELECT campaign.id FROM campaign" (by decide)⟩

set_option maxRecDepth 80000 in
/-- C6 counterexample: an input on which fix_query returns an EMPTY change
list (the formatter silently repairs the missing space before FROM), even
though the input was not valid — refuting "the returned change list is
non-empty". -/
theorem fix_query_empty_changes_cex :
    fixQuery "SELECT campaign.idFROM campaign"
      = Except.ok ("SELECT campaign.id FROM campaign", [])
    ∧ (validate "SELECT campaign.idFROM campaign").valid = false := by
  constructor
  · rfl
  · decide

/-! ## C3: DURING on a non-date field -/

set_option maxRecDepth 80000 in
/-- C3 counterexample: on the claim's query the validator is indeed
invalid, but its only error is "Invalid operator: ''" (lark filters the
inline DURING token out of the tree, so the transformer renders the
operator as the empty string); no error contains "cannot be used with". -/
theorem validate_during_cex :
    validate "SELECT campaign.id FROM campaign WHERE campaign.id DURING LAST_7_DAYS"
      = ⟨false, ["Invalid operator: ''"]⟩
    ∧ hasSub "Invalid operator: ''" "cannot be used with" = false := by
  constructor
  · decide
  · decide

set_option maxRecDepth 80000 in
/-- C3 (amended): the query with DURING applied to the non-date field
campaign.id validates as invalid with the single error
"Invalid operator: ''", because the DURING token never reaches the
validator's field-operator check. -/
theorem validate_during_actual :
    (validate "SELECT campaign.id FROM campaign WHERE campaign.id DURING LAST_7_DAYS").valid
        = false
    ∧ (validate "SELECT campaign.id FROM campaign WHERE campaign.id DURING LAST_7_DAYS").errors
        = ["Invalid operator: ''"] := by
  constructor
  · decide
  · decide

/-! ## C4: closest match -/

set_option maxRecDepth 80000 in
/-- C4: the closest-match function (i) returns exactly the case-insensitive
equal candidate when it is unique, (ii) maps "campaing" to ["campaign"]
over the claim's candidate set, and (iii) returns [] for "xyz". -/
theorem get_closest_match_spec :
    (∀ (value : String) (vals : List String) (v : String),
        v ∈ vals → lowerStr v = lowerStr value →
        (∀ w ∈ vals, lowerStr w = lowerStr value → w = v) →
        getClosestMatch value vals = [v])
    ∧ getClosestMatch "campaing" ["campaign", "ad_group", "customer"] = ["campaign"]
    ∧ getClosestMatch "xyz" ["campaign", "ad_group", "customer"] = [] := by
  refine ⟨?_, by decide, by decide⟩
  intro value vals v hv hlv huniq
  unfold getClosestMatch
  split
  next w hfind =>
    have hwp : lowerStr w = lowerStr value := by
      simpa using List.find?_some hfind
    have hwm := List.mem_of_find?_eq_some hfind
    rw [huniq w hwm hwp]
  next hfind =>
    exfalso
    have := List.find?_eq_none.mp hfind v hv
    simp [hlv] at this

/-! ## C5: formatter idempotence -/

set_option maxRecDepth 200000 in
/-- C5: format_gaql is NOT idempotent.  The query below is accepted by
parse, yet formatting it twice differs from formatting it once: each
format pass rewrites ASCENDING to ASC and a fresh ASCENDING re-forms
across the replacement boundary. -/
theorem format_gaql_not_idempotent :
    (parse "SELECT campaign.id FROM campaign ORDER BY xASCASCENDINGENDINGy").isOk = true
    ∧ format_gaql (format_gaql
        "SELECT campaign.id FROM campaign ORDER BY xASCASCENDINGENDINGy")
      ≠ format_gaql "SELECT campaign.id FROM campaign ORDER BY xASCASCENDINGENDINGy" := by
  constructor
  · decide
  · decide

/-! ## C7: build_gaql_query error conditions -/

/-- C7 counterexample: a whitespace-only ("blank") resource is accepted —
build_gaql_query only rejects the empty string, so the claim's
"empty or blank" is wrong about blank. -/
theorem build_blank_resource_cex :
    build_gaql_query ["campaign.id"] " " = Except.ok "SELECT campaign.id FROM  " := by
  rfl

/-- C7 (amended): build_gaql_query fails exactly when the field list is
empty or the resource is the empty string; otherwise it returns a query. -/
theorem build_error_iff (fields : List String) (resource : String)
    (wc : Option (List String)) (ob : Option (List OrderInput))
    (lim : Option Int) (ps : Option (List (String × Bool))) :
    (∃ e, build_gaql_query fields resource wc ob lim ps = .error e)
      ↔ (fields = [] ∨ resource = "") := by
  constructor
  · rintro ⟨e, he⟩
    by_cases h1 : fields.isEmpty
    · exact Or.inl (List.isEmpty_iff.mp h1)
    · by_cases h2 : resource = ""
      · exact Or.inr h2
      · exfalso
        unfold build_gaql_query at he
        rw [if_neg (by simpa using h1), if_neg h2] at he
        exact absurd he (by simp)
  · intro h
    rcases h with h | h
    · subst h
      exact ⟨"At least one field must be selected", rfl⟩
    · subst h
      by_cases h1 : fields.isEmpty
      · refine ⟨"At least one field must be selected", ?_⟩
        unfold build_gaql_query
        rw [if_pos h1]
      · refine ⟨"Resource is required", ?_⟩
        unfold build_gaql_query
        rw [if_neg (by simpa using h1), if_pos rfl]

/-! ## C8: strict-mode exception classification -/

set_option maxRecDepth 80000 in
/-- C8 counterexample: for a query whose non-strict error list is
["FROM clause is required"] — a text matching none of the claim's
keyword categories — strict mode raises the parser's SyntaxError
directly (position 7, the start of the last token), not the generic
ValidationError the claim's keyword rule prescribes (classifyErrors on
that list would give the generic one). -/
theorem validate_strict_cex :
    validate "SELECT campaign.id" = ⟨false, ["FROM clause is required"]⟩
    ∧ validateStrict "SELECT campaign.id"
        = Except.error (.synE "FROM clause is required" (some 7))
    ∧ classifyErrors ["FROM clause is required"]
        = .validationE "FROM clause is required" := by
  refine ⟨by decide, by rfl, by decide⟩

theorem classifyErrors_first (pre : List String) (e : String) (post : List String)
    (g : GaqlExc) (hpre : ∀ x ∈ pre, classifyOne x = none)
    (hm : classifyOne e = some g) :
    classifyErrors (pre ++ e :: post) = g := by
  have hf : List.findSome? classifyOne (pre ++ e :: post) = some g := by
    rw [List.findSome?_append, List.findSome?_eq_none_iff.mpr hpre]
    simp [List.findSome?_cons, hm]
  unfold classifyErrors
  rw [hf]

theorem classifyErrors_none (L : List String) (h : ∀ x ∈ L, classifyOne x = none) :
    classifyErrors L = .validationE (L.headD "Unknown validation error") := by
  unfold classifyErrors
  rw [List.findSome?_eq_none_iff.mpr h]

/-- C8 (amended): how strict mode chooses the raised exception.  A parse
failure bypasses the keyword scan entirely — it re-raises the parser's
SyntaxError with message and position intact.  Otherwise the loop walks
the WHOLE error list in order and the FIRST error containing a keyword
decides the class: "invalid resource" raises GaqlResourceError, "invalid
field" raises GaqlFieldError, "clause order" or "operator" raises a
position-free GaqlSyntaxError; when no error matches any keyword, the
generic GaqlValidationError carries the first error of the list. -/
theorem validate_strict_spec :
    (∀ q e, parse q = .error e →
        validateStrict q = Except.error (.synE e.message e.position))
    ∧ (∀ q ast, parse q = .ok ast → (validate q).valid = false →
        validateStrict q = Except.error (classifyErrors (validate q).errors))
    ∧ (∀ pre e post g, (∀ x ∈ pre, classifyOne x = none) → classifyOne e = some g →
        classifyErrors (pre ++ e :: post) = g)
    ∧ (∀ L, (∀ x ∈ L, classifyOne x = none) →
        classifyErrors L = .validationE (L.headD "Unknown validation error")) := by
  refine ⟨fun q e h => ?_, fun q ast hok hinv => ?_, classifyErrors_first, classifyErrors_none⟩
  · unfold validateStrict
    rw [h]
  · have hval : (validate q).valid = (allErrors ast).isEmpty := by
      unfold validate
      rw [hok]
    have hinv2 : (allErrors ast).isEmpty = false := hval.symm.trans hinv
    have hv : (validate q).errors = allErrors ast := by
      unfold validate
      rw [hok]
    simp only [validateStrict, hok]
    rw [hv]
    simp [hinv2]

/-! ## C10: canonical clause order -/

set_option maxRecDepth 80000 in
/-- C10 counterexample: the validator's error list CAN contain an
"Invalid clause order" message — a parse error quotes the offending
token, and a quoted string token can carry that text.  Only the
deterministic prefix of the message is pinned: the trailing
`Expected:` part renders a Python set in nondeterministic order. -/
theorem validate_clause_order_message_cex :
    (validate "SELECT campaign.id FROM campaign 'Invalid clause order: X'").valid = false
    ∧ (validate "SELECT campaign.id FROM campaign 'Invalid clause order: X'").errors.length = 1
    ∧ hasSub
        ((validate "SELECT campaign.id FROM campaign 'Invalid clause order: X'").errors.headD "")
        "Syntax error at position 33. Unexpected token: 'Invalid clause order: X'. Expected: "
        = true
    ∧ hasSub
        ((validate "SELECT campaign.id FROM campaign 'Invalid clause order: X'").errors.headD "")
        "Invalid clause order" = true := by
  refine ⟨by decide, by decide, by decide, by decide⟩

theorem parseQuery_shape {l : List Char} {ast : Ast} (h : parseQuery l = .ok ast) :
    ∃ fields res wc oc lc pc, ast = mkAst fields res wc oc lc pc := by
  unfold parseQuery at h
  split at h
  next => exact absurd h (by simp)
  next r0 h0 =>
  split at h
  next => exact absurd h (by simp)
  next f0 r1 h1 =>
  split at h
  next => exact absurd h (by simp)
  next fields r2 h2 =>
  split at h
  next => exact absurd h (by simp)
  next r3 h3 =>
  split at h
  next => exact absurd h (by simp)
  next res r4 h4 =>
  split at h
  next => exact absurd h (by simp)
  next wc r5 h5 =>
  split at h
  next => exact absurd h (by simp)
  next oc r6 h6 =>
  split at h
  next => exact absurd h (by simp)
  next lc r7 h7 =>
  split at h
  next => exact absurd h (by simp)
  next pc r8 h8 =>
  split at h
  next =>
    split at h
    next => exact absurd h (by simp)
    next =>
      cases h
      exact ⟨_, _, _, _, _, _, rfl⟩
  next => exact absurd h (by simp)

theorem parse_shape {q : String} {ast : Ast} (h : parse q = .ok ast) :
    ∃ fields res wc oc lc pc, ast = mkAst fields res wc oc lc pc := by
  unfold parse at h
  simp only [] at h
  split at h
  next ast2 hq =>
    split at h
    next => exact absurd h (by simp)
    next =>
      split at h
      next => exact absurd h (by simp)
      next =>
        cases h
        exact parseQuery_shape hq
  next m hq => exact absurd h (by simp)
  next rem expected hq =>
    split at h <;> exact absurd h (by simp)

theorem mkAst_keys_sublist (fields : List String) (res : String)
    (wc : Option (List Condition)) (oc : Option (List OrderItem × Bool))
    (lc : Option Int) (pc : Option (List (String × String))) :
    ((mkAst fields res wc oc lc pc).map Prod.fst).Sublist expectedOrder := by
  cases wc <;> cases oc <;> cases lc <;> cases pc <;>
    simp [mkAst, expectedOrder]

theorem mkAst_validateStructure (fields : List String) (res : String)
    (wc : Option (List Condition)) (oc : Option (List OrderItem × Bool))
    (lc : Option Int) (pc : Option (List (String × String))) :
    validateStructure (mkAst fields res wc oc lc pc) = [] := by
  cases wc <;> cases oc <;> cases lc <;> cases pc <;>
    simp +decide [mkAst, validateStructure, orderErrors, lookupClause, expectedOrder]

/-- C10 (amended): every AST a successful parse returns lists its clause
keys in the canonical order (a sublist of the canonical six), and the
validator's structural check — the only producer of genuine
"Invalid clause order" diagnostics — returns no errors on it.  (The
original claim's "errors never contain such a message" is refuted by the
counterexample, where a parse error quotes a token carrying the text.) -/
theorem parse_ast_canonical_order (q : String) (ast : Ast)
    (h : parse q = .ok ast) :
    ((ast.map Prod.fst).Sublist expectedOrder) ∧ validateStructure ast = [] := by
  obtain ⟨f, r, wc, oc, lc, pc, rfl⟩ := parse_shape h
  exact ⟨mkAst_keys_sublist f r wc oc lc pc, mkAst_validateStructure f r wc oc lc pc⟩

set_option maxRecDepth 80000 in
theorem parse_ast_canonical_order_witness :
    parse "SELECT campaign.id FROM campaign"
      = Except.ok [("select_clause", Clause.selectC ["campaign.id"]),
                   ("from_clause", Clause.fromC "campaign")]
    ∧ ((([("select_clause", Clause.selectC ["campaign.id"]),
          ("from_clause", Clause.fromC "campaign")] : Ast).map Prod.fst).Sublist expectedOrder
       ∧ validateStructure [("select_clause", Clause.selectC ["campaign.id"]),
                            ("from_clause", Clause.fromC "campaign")] = []) :=
  ⟨by rfl,
   parse_ast_canonical_order "SELECT campaign.id FROM campaign" _ (by rfl)⟩

/-! ## C2: missing-FROM diagnosis -/

theorem hasSubList_of_prefix {nd l : List Char} (h : nd.isPrefixOf l = true) :
    hasSubList nd l = true := by
  cases l with
  | nil =>
    rw [hasSubList]
    simpa using List.isPrefixOf_iff_prefix.mp h
  | cons c t =>
    rw [hasSubList]
    simp [h]

theorem hasSubList_of_suffix {nd l1 l2 : List Char} (hs : l1 <:+ l2)
    (h : hasSubList nd l1 = true) : hasSubList nd l2 = true := by
  obtain ⟨pre, rfl⟩ := hs
  induction pre with
  | nil => simpa using h
  | cons p t ih =>
    rw [List.cons_append, hasSubList]
    simp [ih]

theorem expectTok_suffix {kw : String} {l r : List Char}
    (h : expectTok kw l = .ok r) : r <:+ l := by
  unfold expectTok at h
  split at h
  · cases h
    exact (List.drop_suffix _ _).trans (List.dropWhile_suffix _)
  · exact absurd h (by simp)

theorem expectTok_prefix {kw : String} {l r : List Char}
    (h : expectTok kw l = .ok r) : kw.toList.isPrefixOf (skipWs l) = true := by
  unfold expectTok at h
  split at h
  next hp => exact hp
  next => exact absurd h (by simp)

theorem parseFieldName_suffix {l : List Char} {f : String} {r : List Char}
    (h : parseFieldName l = .ok (f, r)) : r <:+ l := by
  unfold parseFieldName at h
  rcases hs : skipWs l with _ | ⟨c, rest⟩ <;> rw [hs] at h
  · exact absurd h (by simp)
  · by_cases hc : isLowerAZ c = true
    · simp only [hc, if_true] at h
      have hr : r = rest.dropWhile fieldChar := by
        cases h; rfl
      rw [hr]
      refine (List.dropWhile_suffix _).trans ?_
      refine (List.suffix_cons c rest).trans ?_
      rw [← hs]
      exact List.dropWhile_suffix _
    · simp only [hc] at h
      exact absurd h (by simp)

theorem parseFieldsRestGo_suffix :
    ∀ (fuel : Nat) (l : List Char) {acc xs : List String} {r : List Char},
      parseFieldsRestGo fuel acc l = .ok (xs, r) → r <:+ l := by
  intro fuel
  induction fuel with
  | zero =>
    intro l acc xs r h
    rw [parseFieldsRestGo] at h
    exact absurd h (by simp)
  | succ n ih =>
    intro l acc xs r h
    rw [parseFieldsRestGo] at h
    split at h
    next rest hskip =>
      split at h
      next => exact absurd h (by simp)
      next f ri hf =>
        refine ((ih ri h).trans ((parseFieldName_suffix hf).trans ?_))
        refine (List.suffix_cons ',' rest).trans ?_
        rw [← hskip]
        exact List.dropWhile_suffix _
    next =>
      cases h
      exact List.suffix_rfl

/-- A successful parse can only happen when the (normalized) text contains
the literal FROM: the parser must consume a FROM token. -/
theorem parseQuery_ok_hasFrom {l : List Char} {ast : Ast}
    (h : parseQuery l = .ok ast) : hasSubList ("FROM".toList) l = true := by
  unfold parseQuery at h
  split at h
  next => exact absurd h (by simp)
  next r0 h0 =>
  split at h
  next => exact absurd h (by simp)
  next f0 r1 h1 =>
  split at h
  next => exact absurd h (by simp)
  next fields r2 h2 =>
  split at h
  next => exact absurd h (by simp)
  next r3 h3 =>
  have hpre : ("FROM".toList).isPrefixOf (skipWs r2) = true := expectTok_prefix h3
  have hsub : hasSubList ("FROM".toList) (skipWs r2) = true := hasSubList_of_prefix hpre
  have hs2 : skipWs r2 <:+ l := by
    refine (List.dropWhile_suffix _).trans ?_
    refine (parseFieldsRestGo_suffix _ _ h2).trans ?_
    refine (parseFieldName_suffix h1).trans ?_
    exact expectTok_suffix h0
  exact hasSubList_of_suffix hs2 hsub

/-- C2 (amended): if the normalized query contains SELECT but not FROM
(the parser's own, case-sensitive test), then parse fails, and whenever
the failure is reported at the token level (the error carries a
position), the message is exactly "FROM clause is required".  (Failures
with no matching root token are reported as lexer errors with a generic
message and no position — the original claim's unconditional message is
refuted by the counterexample.) -/
theorem parse_missing_from (q : String)
    (hsel : hasSub (normalizeQuery q) "SELECT" = true)
    (hfrom : hasSub (normalizeQuery q) "FROM" = false) :
    ∃ e, parse q = Except.error e ∧
      (e.position.isSome = true → e.message = "FROM clause is required") := by
  rcases hpq : parseQuery (normalizeQuery q).toList with pf | ast
  case ok =>
    exfalso
    have := parseQuery_ok_hasFrom hpq
    rw [hasSub] at hfrom
    rw [hfrom] at this
    exact absurd this (by simp)
  case error =>
    cases pf with
    | transformErr m =>
      refine ⟨⟨"Error parsing GAQL query: " ++ m, none⟩, ?_, by intro hp; simp at hp⟩
      unfold parse
      simp only []
      rw [hpq]
    | unexpected rem expected =>
      by_cases hroot : (rem.isEmpty || (rootTokenAt rem).isSome) = true
      · refine ⟨⟨"FROM clause is required",
          some (if rem.isEmpty then lastTokenStart (normalizeQuery q).toList
                else (normalizeQuery q).toList.length - rem.length)⟩, ?_, fun _ => rfl⟩
        unfold parse
        simp only []
        rw [hpq]
        simp only [hroot, if_true]
        rw [if_pos ⟨hfrom, hsel⟩]
      · refine ⟨⟨"Error parsing GAQL query: No terminal matches the remaining input at position "
            ++ toString (if rem.isEmpty then lastTokenStart (normalizeQuery q).toList
                else (normalizeQuery q).toList.length - rem.length), none⟩,
          ?_, by intro hp; simp at hp⟩
        unfold parse
        simp only []
        rw [hpq]
        simp only [hroot]
        rw [if_neg (by simpa using hroot)]

set_option maxRecDepth 80000 in
theorem parse_missing_from_witness :
    hasSub (normalizeQuery "SELECT campaign.id") "SELECT" = true
    ∧ hasSub (normalizeQuery "SELECT campaign.id") "FROM" = false
    ∧ parse "SELECT campaign.id"
        = Except.error ⟨"FROM clause is required", some 7⟩
    ∧ (∃ e, parse "SELECT campaign.id" = Except.error e ∧
        (e.position.isSome = true → e.message = "FROM clause is required")) :=
  ⟨by decide, by decide, by rfl,
   parse_missing_from "SELECT campaign.id" (by decide) (by decide)⟩

set_option maxRecDepth 80000 in
/-- C2 counterexample: the empty query is missing its FROM clause, and
parse does fail — but with the generic unexpected-token message (whose
`Expected:` set here is the singleton rendering), not one containing
"FROM clause is required" (the override also requires SELECT to be
present). -/
theorem parse_missing_from_cex :
    parse "" = Except.error
      ⟨"Syntax error at position 0. Unexpected token: . Expected: \x7b'SELECT'\x7d", some 0⟩
    ∧ hasSub "Syntax error at position 0. Unexpected token: . Expected: \x7b'SELECT'\x7d"
        "FROM clause is required" = false := by
  refine ⟨by rfl, by decide⟩

/-! ## C9: build/parse round trip

The round trip is proved over well-formed components, rendered exactly as
`build_gaql_query` renders them; `order_by` is excluded (the
counterexample shows any ordering makes the parse fail). -/

/-- A well-formed field: non-empty, leading lowercase letter, `FIELD_NAME`
characters throughout. -/
def wfField (f : String) : Prop :=
  f.data ≠ [] ∧ (∀ c, f.data.head? = some c → isLowerAZ c = true)
  ∧ ∀ c ∈ f.data, fieldChar c = true

/-- A well-formed resource: non-empty, leading lowercase letter,
`RESOURCE_NAME` characters throughout. -/
def wfResource (r : String) : Prop :=
  r.data ≠ [] ∧ (∀ c, r.data.head? = some c → isLowerAZ c = true)
  ∧ ∀ c ∈ r.data, resourceChar c = true

/-- Operators whose lexeme is a terminal of its own and whose transformed
rendering equals the lexeme (excluded: the filtered DURING/BETWEEN and the
compound keyword operators, whose rendering inserts a space). -/
def safeOps : List String :=
  ["=", "!=", ">", ">=", "<", "<=", "IN", "LIKE", "REGEXP_MATCH"]

/-- A well-formed condition value: a number, a single-quoted string of
`LITERAL` characters, or a bare literal not starting with a digit. -/
def wfValue (l : List Char) : Prop :=
  (l ≠ [] ∧ ∀ c ∈ l, isDigitC c = true)
  ∨ (∃ inner, l = '\'' :: inner ++ ['\''] ∧ ∀ c ∈ inner, literalChar c = true)
  ∨ (l ≠ [] ∧ (∀ c ∈ l, literalChar c = true)
     ∧ ∀ c, l.head? = some c → isDigitC c = false)

structure CondSpec where
  field : String
  op : String
  value : String
deriving Repr, DecidableEq

def wfCond (c : CondSpec) : Prop :=
  wfField c.field ∧ c.op ∈ safeOps ∧ wfValue c.value.data

/-- The condition string handed to `build_gaql_query`. -/
def renderCond (c : CondSpec) : String := c.field ++ " " ++ c.op ++ " " ++ c.value

/-- The value node of the `Condition` the parser produces. -/
def valAst (v : String) : PyVal :=
  if (!v.data.isEmpty) && v.data.all isDigitC then PyVal.num v
  else PyVal.str v

/-- The `Condition` node the parser produces for a well-formed spec. -/
def condToAst (c : CondSpec) : Condition :=
  ⟨c.field, c.op, valAst c.value⟩

/-- `POSITIVE_INT` shape for the rendered limit. -/
def wfPosDigits (l : List Char) : Prop :=
  (∀ c, l.head? = some c → ('1' ≤ c ∧ c ≤ '9'))
  ∧ l ≠ [] ∧ ∀ c ∈ l, isDigitC c = true

/-! ### Character-class facts -/

theorem fieldChar_of_lower {c : Char} (h : isLowerAZ c = true) : fieldChar c = true := by
  simp [fieldChar, isAZ, h]

theorem fieldChar_of_digit {c : Char} (h : isDigitC c = true) : fieldChar c = true := by
  simp [fieldChar, h]

theorem fieldChar_of_resource {c : Char} (h : resourceChar c = true) : fieldChar c = true := by
  rw [resourceChar] at h
  rcases Bool.or_eq_true_iff.mp h with h | h <;> simp [fieldChar, h]

theorem fieldChar_of_literal {c : Char} (h : literalChar c = true) : fieldChar c = true := by
  rw [literalChar] at h
  rcases Bool.or_eq_true_iff.mp h with h | h
  · rcases Bool.or_eq_true_iff.mp h with h | h <;> simp [fieldChar, h]
  · simp [fieldChar, h]

theorem fieldChar_not_space {c : Char} (h : fieldChar c = true) : pyIsSpace c = false := by
  cases hps : pyIsSpace c
  · rfl
  · exfalso
    simp only [pyIsSpace, Bool.or_eq_true, decide_eq_true_eq] at hps
    have hor : c = ' ' ∨ c = '\t' ∨ c = '\n' ∨ c = '\r' ∨ c = '\x0b' ∨ c = '\x0c' := by
      tauto
    rcases hor with rfl | rfl | rfl | rfl | rfl | rfl <;> exact absurd h (by decide)

/-! ### Scanning helpers -/

theorem takeWhile_append_all {p : Char → Bool} {xs rest : List Char}
    (hxs : ∀ c ∈ xs, p c = true)
    (hrest : ∀ c, rest.head? = some c → p c = false) :
    (xs ++ rest).takeWhile p = xs ∧ (xs ++ rest).dropWhile p = rest := by
  induction xs with
  | nil =>
    cases rest with
    | nil => simp
    | cons d t =>
      have hd := hrest d rfl
      simp [List.takeWhile_cons, List.dropWhile_cons, hd]
  | cons c t ih =>
    have hc := hxs c (by simp)
    obtain ⟨h1, h2⟩ := ih (fun d hd => hxs d (by simp [hd]))
    simp [List.takeWhile_cons, List.dropWhile_cons, hc, h1, h2]

theorem skipWs_eq_self {l : List Char}
    (h : ∀ c, l.head? = some c → pyIsSpace c = false) : skipWs l = l := by
  cases l with
  | nil => rfl
  | cons c t =>
    have := h c rfl
    simp [skipWs, List.dropWhile_cons, this]

theorem skipWs_cons_space {l : List Char}
    (h : ∀ c, l.head? = some c → pyIsSpace c = false) : skipWs (' ' :: l) = l := by
  rw [skipWs, List.dropWhile_cons]
  simp only [show pyIsSpace ' ' = true from rfl, if_true]
  exact skipWs_eq_self h

theorem isPrefixOf_append_of_length_le {pat x : List Char} (r : List Char)
    (h : pat.length ≤ x.length) :
    pat.isPrefixOf (x ++ r) = pat.isPrefixOf x := by
  induction pat generalizing x with
  | nil => simp [List.isPrefixOf]
  | cons a as ih =>
    cases x with
    | nil => simp at h
    | cons b bs =>
      simp only [List.cons_append, List.isPrefixOf, List.append_eq]
      rw [ih (by simpa using h)]

theorem isPrefixOf_append_false {pat x : List Char} (r : List Char)
    (hlen : x.length ≤ pat.length) (h : x.isPrefixOf pat = false) :
    pat.isPrefixOf (x ++ r) = false := by
  induction pat generalizing x with
  | nil =>
    have : x = [] := List.length_eq_zero.mp (Nat.le_zero.mp hlen)
    subst this
    simp [List.isPrefixOf] at h
  | cons a as ih =>
    cases x with
    | nil => simp [List.isPrefixOf] at h
    | cons b bs =>
      have hgoal : (a :: as).isPrefixOf ((b :: bs) ++ r)
          = (a == b && as.isPrefixOf (bs ++ r)) := by
        simp [List.isPrefixOf, List.cons_append]
      rw [hgoal]
      have hsplit : (b == a) = false ∨ bs.isPrefixOf as = false := by
        have h2 : (b == a && bs.isPrefixOf as) = false := by
          simpa [List.isPrefixOf] using h
        exact Bool.and_eq_false_iff.mp h2
      rcases hsplit with h1 | h1
      · have hab : (a == b) = false := by
          rw [beq_eq_false_iff_ne] at h1 ⊢
          exact fun hx => h1 hx.symm
        simp [hab]
      · rw [ih (by simpa using hlen) h1]
        simp

theorem isPrefixOf_false_of_not_rev {pat x : List Char}
    (hlen : x.length ≤ pat.length) (h : x.isPrefixOf pat = false) :
    pat.isPrefixOf x = false := by
  cases hp : pat.isPrefixOf x
  · rfl
  · exfalso
    have hpre := List.isPrefixOf_iff_prefix.mp hp
    have heq : pat = x :=
      List.IsPrefix.eq_of_length hpre (Nat.le_antisymm hpre.length_le hlen)
    rw [heq] at h
    have hrefl : x.isPrefixOf x = true := List.isPrefixOf_iff_prefix.mpr List.prefix_rfl
    rw [hrefl] at h
    exact absurd h (by simp)

theorem find?_fst_prefix_stable (tbl : List (String × String)) (x r : List Char)
    (h : ∀ p ∈ tbl, p.1.toList.length ≤ x.length ∨
          (x.length ≤ p.1.toList.length ∧ x.isPrefixOf p.1.toList = false)) :
    tbl.find? (fun p => p.1.toList.isPrefixOf (x ++ r))
      = tbl.find? (fun p => p.1.toList.isPrefixOf x) := by
  induction tbl with
  | nil => rfl
  | cons q t ih =>
    have hq := h q (by simp)
    have heq : q.1.toList.isPrefixOf (x ++ r) = q.1.toList.isPrefixOf x := by
      rcases hq with hq | ⟨hl, hp⟩
      · exact isPrefixOf_append_of_length_le r hq
      · rw [isPrefixOf_append_false r hl hp, isPrefixOf_false_of_not_rev hl hp]
    rw [List.find?_cons, List.find?_cons, heq, ih (fun p hp => h p (by simp [hp]))]

theorem find?_str_prefix_stable (tbl : List String) (x r : List Char)
    (h : ∀ p ∈ tbl, p.toList.length ≤ x.length ∨
          (x.length ≤ p.toList.length ∧ x.isPrefixOf p.toList = false)) :
    tbl.find? (fun p => p.toList.isPrefixOf (x ++ r))
      = tbl.find? (fun p => p.toList.isPrefixOf x) := by
  induction tbl with
  | nil => rfl
  | cons q t ih =>
    have hq := h q (by simp)
    have heq : q.toList.isPrefixOf (x ++ r) = q.toList.isPrefixOf x := by
      rcases hq with hq | ⟨hl, hp⟩
      · exact isPrefixOf_append_of_length_le r hq
      · rw [isPrefixOf_append_false r hl hp, isPrefixOf_false_of_not_rev hl hp]
    rw [List.find?_cons, List.find?_cons, heq, ih (fun p hp => h p (by simp [hp]))]

/-! ### Component round-trip lemmas -/

theorem ne_of_class {p : Char → Bool} {c x : Char} (h : p c = true)
    (hx : p x = false) : c ≠ x := by
  intro he
  rw [he, hx] at h
  cases h

theorem parseFieldName_render {f : String} {l rest : List Char}
    (hf : wfField f)
    (hrest : ∀ c, rest.head? = some c → fieldChar c = false)
    (hskip : skipWs l = f.data ++ rest) :
    parseFieldName l = .ok (f, rest) := by
  obtain ⟨hne, hhead, hall⟩ := hf
  unfold parseFieldName
  rw [hskip]
  rcases hd : f.data with _ | ⟨c, t⟩
  · exact absurd hd hne
  · have hc : isLowerAZ c = true := hhead c (by rw [hd]; rfl)
    simp only [List.cons_append, hc, if_true]
    have hta := takeWhile_append_all (p := fieldChar)
      (fun d hdm => hall d (by rw [hd]; exact List.mem_cons_of_mem _ hdm)) hrest
    rw [hta.1, hta.2]
    rw [show (c :: t) = f.data from hd.symm]

theorem parseResourceName_render {f : String} {l rest : List Char}
    (hf : wfResource f)
    (hrest : ∀ c, rest.head? = some c → resourceChar c = false)
    (hskip : skipWs l = f.data ++ rest) :
    parseResourceName l = .ok (f, rest) := by
  obtain ⟨hne, hhead, hall⟩ := hf
  unfold parseResourceName
  rw [hskip]
  rcases hd : f.data with _ | ⟨c, t⟩
  · exact absurd hd hne
  · have hc : isLowerAZ c = true := hhead c (by rw [hd]; rfl)
    simp only [List.cons_append, hc, if_true]
    have hta := takeWhile_append_all (p := resourceChar)
      (fun d hdm => hall d (by rw [hd]; exact List.mem_cons_of_mem _ hdm)) hrest
    rw [hta.1, hta.2]
    rw [show (c :: t) = f.data from hd.symm]

theorem mk_data_self (s : String) : String.mk s.data = s := rfl

theorem parseOperator_render {op : String} {l rest : List Char}
    (hop : op ∈ safeOps)
    (hskip : skipWs l = op.data ++ ' ' :: rest) :
    parseOperator l = .ok (op, ' ' :: rest) := by
  have hassoc : op.data ++ ' ' :: rest = (op.data ++ [' ']) ++ rest := by simp
  rw [hassoc] at hskip
  simp only [safeOps, List.mem_cons, List.mem_singleton] at hop
  unfold parseOperator
  simp only []
  rw [hskip]
  rcases hop with rfl | rfl | rfl | rfl | rfl | rfl | rfl | rfl | rfl | h
  case inr => exact absurd h (by simp)
  all_goals rw [find?_fst_prefix_stable opTable _ rest (by decide)]
  all_goals rfl

/-! ### Value and condition render lemmas -/

theorem valAst_num {v : String} (hne : v.data ≠ [])
    (hdig : ∀ c ∈ v.data, isDigitC c = true) : valAst v = .num v := by
  rw [valAst, if_pos]
  rw [Bool.and_eq_true]
  refine ⟨?_, ?_⟩
  · cases hd : v.data with
    | nil => exact absurd hd hne
    | cons a t => rfl
  · rw [List.all_eq_true]
    intro c hc
    exact hdig c hc

theorem valAst_str {v : String}
    (h : ∀ c, v.data.head? = some c → isDigitC c = false) : valAst v = .str v := by
  rw [valAst]
  cases hd : v.data with
  | nil =>
    rw [if_neg]
    simp
  | cons a t =>
    have ha : isDigitC a = false := h a (by rw [hd, List.head?_cons])
    rw [if_neg]
    simp [ha]

theorem scanQuotedAux_render {inner rest : List Char}
    (h : ∀ c ∈ inner, literalChar c = true) :
    scanQuotedAux '\'' false (inner ++ '\'' :: rest) = some (inner ++ ['\''], rest) := by
  induction inner with
  | nil =>
    rw [List.nil_append, scanQuotedAux]
    simp
  | cons a t ih =>
    have ha := h a (by simp)
    have h1 : a ≠ '\'' := ne_of_class ha (by decide)
    have h2 : a ≠ '\\' := ne_of_class ha (by decide)
    rw [List.cons_append, scanQuotedAux]
    simp only [Bool.false_eq_true, if_false, if_neg h1, if_neg h2]
    rw [ih (fun c hc => h c (List.mem_cons_of_mem _ hc))]
    rfl

theorem parseValue_render {v : String} {l rest : List Char}
    (hv : wfValue v.data)
    (hrest : ∀ c, rest.head? = some c → c = ' ')
    (hskip : skipWs l = v.data ++ rest) :
    parseValue l = .ok (valAst v, rest) := by
  unfold parseValue
  rw [hskip]
  rcases hv with ⟨hne, hdig⟩ | ⟨inner, hinn, hlit⟩ | ⟨hne, hlit, hhd⟩
  · rcases hd : v.data with _ | ⟨c, t⟩
    · exact absurd hd hne
    have hc : isDigitC c = true := hdig c (by rw [hd]; exact List.mem_cons_self _ _)
    simp only [List.cons_append]
    rw [if_neg (by rintro (rfl | rfl) <;> exact absurd hc (by decide))]
    rw [if_neg (ne_of_class hc (by decide))]
    rw [if_pos (Or.inr hc)]
    have hnum : parseNumber (c :: (t ++ rest)) = .ok (v, rest) := by
      unfold parseNumber
      have hsk : skipWs (c :: (t ++ rest)) = c :: (t ++ rest) :=
        skipWs_eq_self (by
          intro x hx
          simp only [List.head?_cons, Option.some.injEq] at hx
          rw [← hx]
          exact fieldChar_not_space (fieldChar_of_digit hc))
      rw [hsk]
      rw [if_neg (by
        intro hco
        simp only [List.head?_cons, Option.some.injEq] at hco
        exact absurd hc (by rw [hco]; decide))]
      unfold numTail
      have hxs1 : ∀ d ∈ (c :: t), isDigitC d = true :=
        fun d hdm => hdig d (by rw [hd]; exact hdm)
      have hrs1 : ∀ x, rest.head? = some x → isDigitC x = false := by
        intro x hx
        rw [hrest x hx]
        decide
      have hta := takeWhile_append_all hxs1 hrs1
      rw [show (c :: (t ++ rest)) = (c :: t) ++ rest from rfl]
      rw [hta.1, hta.2]
      rw [if_neg (by simp)]
      rcases hr : rest with _ | ⟨r0, rs⟩
      · rw [show (c :: t) = v.data from hd.symm]
        rfl
      · have hr0 : r0 = ' ' := hrest r0 (by rw [hr, List.head?_cons])
        subst hr0
        rw [show (c :: t) = v.data from hd.symm]
        rfl
    rw [hnum]
    rw [valAst_num hne hdig]
  · rw [hinn]
    simp only [List.cons_append, List.append_assoc, List.singleton_append, List.nil_append]
    rw [if_pos (Or.inl trivial)]
    have hq : parseQuotedLexeme ('\'' :: (inner ++ '\'' :: rest)) =
        .ok (String.mk ('\'' :: (inner ++ ['\''])), rest) := by
      have hs : scanQuoted '\'' (inner ++ '\'' :: rest) = some (inner ++ ['\''], rest) :=
        scanQuotedAux_render hlit
      unfold parseQuotedLexeme
      simp only [hs]
    rw [hq]
    have hmk : String.mk ('\'' :: (inner ++ ['\''])) = v := by
      have hv2 : String.mk v.data = v := rfl
      rw [hinn] at hv2
      exact hv2
    rw [hmk]
    rw [valAst_str (by
      intro x hx
      rw [hinn] at hx
      have hx2 : x = '\'' := Option.some.inj hx.symm
      rw [hx2]
      decide)]
  · rcases hd : v.data with _ | ⟨c, t⟩
    · exact absurd hd hne
    have hc : literalChar c = true := hlit c (by rw [hd]; exact List.mem_cons_self _ _)
    have hcd : isDigitC c = false := hhd c (by rw [hd, List.head?_cons])
    simp only [List.cons_append]
    rw [if_neg (by rintro (rfl | rfl) <;> exact absurd hc (by decide))]
    rw [if_neg (ne_of_class hc (by decide))]
    rw [if_neg (by
      rintro (rfl | hdg)
      · exact absurd hc (by decide)
      · rw [hcd] at hdg
        cases hdg)]
    rw [if_pos hc]
    have hxs1 : ∀ d ∈ (c :: t), literalChar d = true :=
      fun d hdm => hlit d (by rw [hd]; exact hdm)
    have hrs1 : ∀ x, rest.head? = some x → literalChar x = false := by
      intro x hx
      rw [hrest x hx]
      decide
    have hta := takeWhile_append_all hxs1 hrs1
    rw [show (c :: (t ++ rest)) = (c :: t) ++ rest from rfl]
    rw [hta.1, hta.2]
    rw [show (c :: t) = v.data from hd.symm]
    rw [show String.mk v.data = v from rfl]
    rw [valAst_str hhd]

theorem safeOps_head_not_space :
    ∀ op ∈ safeOps, op.data ≠ [] ∧ pyIsSpace (op.data.headD ' ') = false := by
  decide

theorem wfField_head_not_space {f : String} (hf : wfField f) :
    ∀ x, f.data.head? = some x → pyIsSpace x = false := by
  intro x hx
  exact fieldChar_not_space (fieldChar_of_lower (hf.2.1 x hx))

/-- The rendered character stream of one condition. -/
def condData (c : CondSpec) : List Char :=
  c.field.data ++ ' ' :: c.op.data ++ ' ' :: c.value.data

theorem head_append_of_ne {xs r : List Char} (hne : xs ≠ []) :
    (xs ++ r).head? = xs.head? := by
  rcases xs with _ | ⟨a, t⟩
  · exact absurd rfl hne
  · rfl

theorem head?_eq_headD {xs : List Char} (d : Char) (hne : xs ≠ []) :
    xs.head? = some (xs.headD d) := by
  rcases xs with _ | ⟨a, t⟩
  · exact absurd rfl hne
  · rfl

theorem wfValue_ne {v : List Char} (hv : wfValue v) : v ≠ [] := by
  rcases hv with ⟨hne, _⟩ | ⟨inner, hinn, _⟩ | ⟨hne, _, _⟩
  · exact hne
  · rw [hinn]
    exact List.cons_ne_nil _ _
  · exact hne

theorem wfValue_head_not_space {v : List Char} (hv : wfValue v) :
    ∀ x, v.head? = some x → pyIsSpace x = false := by
  intro x hx
  rcases hv with ⟨hne, hdig⟩ | ⟨inner, hinn, _⟩ | ⟨hne, hlit, _⟩
  · rcases hd : v with _ | ⟨a, t⟩
    · exact absurd hd hne
    · rw [hd, List.head?_cons] at hx
      have hxa := Option.some.inj hx.symm
      rw [hxa]
      exact fieldChar_not_space (fieldChar_of_digit (hdig a (by
        rw [hd]
        exact List.mem_cons_self _ _)))
  · rw [hinn] at hx
    have hxa : x = '\'' := Option.some.inj hx.symm
    rw [hxa]
    decide
  · rcases hd : v with _ | ⟨a, t⟩
    · exact absurd hd hne
    · rw [hd, List.head?_cons] at hx
      have hxa := Option.some.inj hx.symm
      rw [hxa]
      exact fieldChar_not_space (fieldChar_of_literal (hlit a (by
        rw [hd]
        exact List.mem_cons_self _ _)))

theorem parseCondition_render {cs : CondSpec} {l rest : List Char}
    (hc : wfCond cs)
    (hrest : ∀ c, rest.head? = some c → c = ' ')
    (hskip : skipWs l = condData cs ++ rest) :
    parseCondition l = .ok (condToAst cs, rest) := by
  obtain ⟨hf, hop, hval⟩ := hc
  have hopne := (safeOps_head_not_space cs.op hop).1
  have hopsp := (safeOps_head_not_space cs.op hop).2
  have hskip1 : skipWs l =
      cs.field.data ++ (' ' :: (cs.op.data ++ (' ' :: (cs.value.data ++ rest)))) := by
    rw [hskip]
    simp [condData]
  unfold parseCondition
  simp only [parseFieldName_render hf (by
    intro x hx
    have hxa := Option.some.inj hx.symm
    rw [hxa]
    decide) hskip1]
  have hvne : cs.value.data ≠ [] := wfValue_ne hval
  have hohd : ∀ x, (cs.op.data ++ (' ' :: (cs.value.data ++ rest))).head? = some x →
      pyIsSpace x = false := by
    intro x hx
    rw [head_append_of_ne hopne, head?_eq_headD ' ' hopne] at hx
    have hxa := Option.some.inj hx.symm
    rw [hxa]
    exact hopsp
  have hskip2 : skipWs (' ' :: (cs.op.data ++ (' ' :: (cs.value.data ++ rest)))) =
      cs.op.data ++ ' ' :: (cs.value.data ++ rest) :=
    skipWs_cons_space hohd
  simp only [parseOperator_render hop hskip2]
  have hvhd : ∀ x, (cs.value.data ++ rest).head? = some x → pyIsSpace x = false := by
    intro x hx
    rw [head_append_of_ne hvne] at hx
    exact wfValue_head_not_space hval x hx
  simp only [parseValue_render hval hrest (skipWs_cons_space hvhd)]
  rfl

/-- The rendered stream of the `AND`-joined continuation conditions. -/
def condsChunks (cs : List CondSpec) : List Char :=
  (cs.map (fun c => " AND ".data ++ condData c)).flatten

theorem condData_ne {c : CondSpec} (hc : wfCond c) : condData c ≠ [] := by
  rw [condData]
  intro h
  have h2 := (List.append_eq_nil.mp h).2
  cases h2

theorem condData_head_not_space {c : CondSpec} (hc : wfCond c) :
    ∀ x, (condData c).head? = some x → pyIsSpace x = false := by
  intro x hx
  have hfne : c.field.data ≠ [] := hc.1.1
  rw [condData, List.append_assoc, head_append_of_ne hfne] at hx
  exact wfField_head_not_space hc.1 x hx

theorem condsChunks_head {cs : List CondSpec} {tail : List Char}
    (htail1 : ∀ x, tail.head? = some x → x = ' ') :
    ∀ x, (condsChunks cs ++ tail).head? = some x → x = ' ' := by
  intro x hx
  rcases cs with _ | ⟨c2, cs2⟩
  · rw [show condsChunks [] = [] from rfl, List.nil_append] at hx
    exact htail1 x hx
  · have hcc : condsChunks (c2 :: cs2) =
        ' ' :: ('A' :: 'N' :: 'D' :: ' ' :: (condData c2 ++ condsChunks cs2)) := rfl
    rw [hcc, List.cons_append] at hx
    exact Option.some.inj hx.symm

theorem parseCondsRestGo_render :
    ∀ (cspecs : List CondSpec) (fuel : Nat) (acc : List Condition) (tail : List Char),
      (∀ c ∈ cspecs, wfCond c) →
      (∀ x, tail.head? = some x → x = ' ') →
      ("AND".toList).isPrefixOf (skipWs tail) = false →
      (condsChunks cspecs ++ tail).length < fuel →
      parseCondsRestGo fuel acc (condsChunks cspecs ++ tail) =
        .ok (acc ++ cspecs.map condToAst, tail) := by
  intro cspecs
  induction cspecs with
  | nil =>
    intro fuel acc tail hwf htail1 htail2 hfuel
    rcases fuel with _ | n
    · simp at hfuel
    · rw [show condsChunks [] ++ tail = tail from by simp [condsChunks]]
      simp only [parseCondsRestGo]
      rw [htail2]
      simp
  | cons c cstail ih =>
    intro fuel acc tail hwf htail1 htail2 hfuel
    rcases fuel with _ | n
    · simp at hfuel
    have hform : condsChunks (c :: cstail) ++ tail =
        ' ' :: 'A' :: 'N' :: 'D' :: ' ' :: (condData c ++ (condsChunks cstail ++ tail)) := by
      simp [condsChunks, condData]
    rw [hform]
    simp only [parseCondsRestGo]
    rw [if_pos (by rfl)]
    rw [show (skipWs (' ' :: 'A' :: 'N' :: 'D' :: ' ' ::
        (condData c ++ (condsChunks cstail ++ tail)))).drop 3 =
        ' ' :: (condData c ++ (condsChunks cstail ++ tail)) from rfl]
    have hcwf : wfCond c := hwf c (List.mem_cons_self _ _)
    have hcdne : condData c ≠ [] := condData_ne hcwf
    have hcdhd : ∀ x, (condData c ++ (condsChunks cstail ++ tail)).head? = some x →
        pyIsSpace x = false := by
      intro x hx
      rw [head_append_of_ne hcdne] at hx
      exact condData_head_not_space hcwf x hx
    simp only [parseCondition_render hcwf (condsChunks_head htail1)
      (skipWs_cons_space hcdhd)]
    have hlen := congrArg List.length hform
    simp only [List.length_append, List.length_cons] at hlen
    rw [ih n (acc ++ [condToAst c]) tail
      (fun d hd => hwf d (List.mem_cons_of_mem _ hd)) htail1 htail2 (by
        simp only [List.length_append] at hfuel ⊢
        omega)]
    simp

/-- The rendered stream of the comma-joined continuation fields. -/
def fieldsChunks (fs : List String) : List Char :=
  (fs.map (fun f => ", ".data ++ f.data)).flatten

theorem parseFieldsRestGo_render :
    ∀ (fs : List String) (fuel : Nat) (acc : List String) (tail : List Char),
      (∀ f ∈ fs, wfField f) →
      (∀ x, tail.head? = some x → x = ' ') →
      (∀ x, (skipWs tail).head? = some x → x ≠ ',') →
      (fieldsChunks fs ++ tail).length < fuel →
      parseFieldsRestGo fuel acc (fieldsChunks fs ++ tail) = .ok (acc ++ fs, tail) := by
  intro fs
  induction fs with
  | nil =>
    intro fuel acc tail hwf htail1 htail2 hfuel
    rcases fuel with _ | n
    · simp at hfuel
    · rw [show fieldsChunks [] ++ tail = tail from by simp [fieldsChunks]]
      simp only [parseFieldsRestGo]
      rcases hsk : skipWs tail with _ | ⟨a, t⟩
      · simp
      · have ha : a ≠ ',' := htail2 a (by rw [hsk, List.head?_cons])
        split
        next x hx => exact absurd (Option.some.inj (congrArg List.head? hx)) ha
        next => simp
  | cons f fs2 ih =>
    intro fuel acc tail hwf htail1 htail2 hfuel
    rcases fuel with _ | n
    · simp at hfuel
    have hform : fieldsChunks (f :: fs2) ++ tail =
        ',' :: (' ' :: (f.data ++ (fieldsChunks fs2 ++ tail))) := by
      simp [fieldsChunks]
    rw [hform]
    simp only [parseFieldsRestGo]
    rw [show skipWs (',' :: (' ' :: (f.data ++ (fieldsChunks fs2 ++ tail)))) =
        ',' :: (' ' :: (f.data ++ (fieldsChunks fs2 ++ tail))) from rfl]
    have hfwf : wfField f := hwf f (List.mem_cons_self _ _)
    have hfne : f.data ≠ [] := hfwf.1
    have hfhd : ∀ x, (f.data ++ (fieldsChunks fs2 ++ tail)).head? = some x →
        pyIsSpace x = false := by
      intro x hx
      rw [head_append_of_ne hfne] at hx
      exact wfField_head_not_space hfwf x hx
    have hstop : ∀ c, (fieldsChunks fs2 ++ tail).head? = some c → fieldChar c = false := by
      intro c hc
      rcases fs2 with _ | ⟨g, gs⟩
      · rw [show fieldsChunks [] ++ tail = tail from by simp [fieldsChunks]] at hc
        rw [htail1 c hc]
        rfl
      · have hgc : fieldsChunks (g :: gs) ++ tail =
            ',' :: ((' ' :: g.data ++ fieldsChunks gs) ++ tail) := by
          simp [fieldsChunks]
        rw [hgc, List.head?_cons] at hc
        rw [Option.some.inj hc.symm]
        rfl
    simp only [parseFieldName_render hfwf hstop (skipWs_cons_space hfhd)]
    have hlen := congrArg List.length hform
    simp only [List.length_append, List.length_cons] at hlen
    rw [ih n (acc ++ [f]) tail (fun g hg => hwf g (List.mem_cons_of_mem _ hg))
      htail1 htail2 (by
        simp only [List.length_append] at hfuel ⊢
        omega)]
    simp

/-- The rendered stream of one `PARAMETERS` assignment. -/
def paramData (p : String × Bool) : List Char :=
  p.1.data ++ '=' :: (pyBoolLower p.2).data

/-- The rendered stream of the comma-joined continuation parameters. -/
def paramsChunks (ps : List (String × Bool)) : List Char :=
  (ps.map (fun p => ", ".data ++ paramData p)).flatten

theorem paramName_head :
    ∀ n ∈ paramNameTable, n.data ≠ [] ∧ pyIsSpace (n.data.headD ' ') = false := by
  decide

theorem parseParamName_render {name : String} {l rest : List Char}
    (hname : name ∈ paramNameTable)
    (hskip : skipWs l = (name.data ++ ['=']) ++ rest) :
    parseParamName l = .ok (name, '=' :: rest) := by
  have hor : name = "omit_unselected_resource_names" ∨ name = "include_drafts" := by
    simpa [paramNameTable] using hname
  unfold parseParamName
  rw [hskip]
  rcases hor with rfl | rfl <;>
    rw [find?_str_prefix_stable paramNameTable _ rest (by decide)] <;> rfl

theorem isPrefixOf_self_append (x r : List Char) : x.isPrefixOf (x ++ r) = true :=
  List.isPrefixOf_iff_prefix.mpr (List.prefix_append x r)

theorem expectTok_render (kw : String) {l rest : List Char}
    (hskip : skipWs l = kw.toList ++ rest) :
    expectTok kw l = .ok rest := by
  unfold expectTok
  rw [hskip, isPrefixOf_self_append]
  rw [if_pos rfl]
  rw [List.drop_left]

theorem parseParamValue_render (b : Bool) (rest : List Char) :
    parseParamValue ((pyBoolLower b).data ++ rest) = .ok (pyBoolLower b, rest) := by
  cases b
  · unfold parseParamValue
    rw [show skipWs ((pyBoolLower false).data ++ rest) = "false".toList ++ rest from rfl]
    rw [isPrefixOf_self_append]
    rw [if_pos rfl]
    rw [show ("false".toList ++ rest).drop 5 = rest from rfl]
    rfl
  · unfold parseParamValue
    rw [show skipWs ((pyBoolLower true).data ++ rest) = "true".toList ++ rest from rfl]
    rw [show ("false".toList).isPrefixOf ("true".toList ++ rest) = false from rfl]
    rw [if_neg (by simp)]
    rw [isPrefixOf_self_append]
    rw [if_pos rfl]
    rw [show ("true".toList ++ rest).drop 4 = rest from rfl]
    rfl

theorem parseParameter_render {name : String} {b : Bool} {l rest : List Char}
    (hname : name ∈ paramNameTable)
    (hskip : skipWs l = name.data ++ '=' :: ((pyBoolLower b).data ++ rest)) :
    parseParameter l = .ok ((name, pyBoolLower b), rest) := by
  unfold parseParameter
  simp only [parseParamName_render hname (show skipWs l =
    (name.data ++ ['=']) ++ ((pyBoolLower b).data ++ rest) from by
      rw [hskip]
      simp)]
  simp only [expectTok_render "=" (show skipWs ('=' :: ((pyBoolLower b).data ++ rest)) =
    "=".toList ++ ((pyBoolLower b).data ++ rest) from rfl)]
  simp only [parseParamValue_render b rest]

theorem parseParamsRestGo_render :
    ∀ (ps : List (String × Bool)) (fuel : Nat) (acc : List (String × String))
        (tail : List Char),
      (∀ p ∈ ps, p.1 ∈ paramNameTable) →
      (∀ x, (skipWs tail).head? = some x → x ≠ ',') →
      (paramsChunks ps ++ tail).length < fuel →
      parseParamsRestGo fuel acc (paramsChunks ps ++ tail) =
        .ok (acc ++ ps.map (fun p => (p.1, pyBoolLower p.2)), tail) := by
  intro ps
  induction ps with
  | nil =>
    intro fuel acc tail hwf htail2 hfuel
    rcases fuel with _ | n
    · simp at hfuel
    · rw [show paramsChunks [] ++ tail = tail from by simp [paramsChunks]]
      simp only [parseParamsRestGo]
      rcases hsk : skipWs tail with _ | ⟨a, t⟩
      · simp
      · have ha : a ≠ ',' := htail2 a (by rw [hsk, List.head?_cons])
        split
        next x hx => exact absurd (Option.some.inj (congrArg List.head? hx)) ha
        next => simp
  | cons p ps2 ih =>
    intro fuel acc tail hwf htail2 hfuel
    rcases fuel with _ | n
    · simp at hfuel
    have hform : paramsChunks (p :: ps2) ++ tail =
        ',' :: (' ' :: (paramData p ++ (paramsChunks ps2 ++ tail))) := by
      simp [paramsChunks, paramData]
    rw [hform]
    simp only [parseParamsRestGo]
    rw [show skipWs (',' :: (' ' :: (paramData p ++ (paramsChunks ps2 ++ tail)))) =
        ',' :: (' ' :: (paramData p ++ (paramsChunks ps2 ++ tail))) from rfl]
    have hpn : p.1 ∈ paramNameTable := hwf p (List.mem_cons_self _ _)
    have hpne : p.1.data ≠ [] := (paramName_head p.1 hpn).1
    have hpdne : paramData p ≠ [] := by
      rw [paramData]
      intro h
      exact hpne (List.append_eq_nil.mp h).1
    have hphd : ∀ x, (paramData p ++ (paramsChunks ps2 ++ tail)).head? = some x →
        pyIsSpace x = false := by
      intro x hx
      rw [head_append_of_ne hpdne, paramData, head_append_of_ne hpne,
        head?_eq_headD ' ' hpne] at hx
      rw [Option.some.inj hx.symm]
      exact (paramName_head p.1 hpn).2
    have hskip2 : skipWs (' ' :: (paramData p ++ (paramsChunks ps2 ++ tail))) =
        p.1.data ++ '=' :: ((pyBoolLower p.2).data ++ (paramsChunks ps2 ++ tail)) := by
      rw [skipWs_cons_space hphd, paramData]
      simp
    simp only [parseParameter_render hpn hskip2]
    have hlen := congrArg List.length hform
    simp only [List.length_append, List.length_cons] at hlen
    rw [ih n (acc ++ [(p.1, pyBoolLower p.2)]) tail
      (fun g hg => hwf g (List.mem_cons_of_mem _ hg)) htail2 (by
        simp only [List.length_append] at hfuel ⊢
        omega)]
    simp

/-! ### The rendered query stream and the builder output -/

/-- The optional `WHERE` segment of the rendered query. -/
def whereSeg : List CondSpec → List Char
  | [] => []
  | c :: cs => ' ' :: ("WHERE".toList ++ ' ' :: (condData c ++ condsChunks cs))

/-- The optional `LIMIT` segment of the rendered query. -/
def limitSeg : Option Int → List Char
  | none => []
  | some n => ' ' :: ("LIMIT".toList ++ ' ' :: (toString n).data)

/-- The optional `PARAMETERS` segment of the rendered query. -/
def paramsSeg : List (String × Bool) → List Char
  | [] => []
  | p :: ps => ' ' :: ("PARAMETERS".toList ++ ' ' :: (paramData p ++ paramsChunks ps))

/-- The full character stream `build_gaql_query` produces (no `ORDER BY`). -/
def queryData (f0 : String) (fs : List String) (res : String) (conds : List CondSpec)
    (lim : Option Int) (ps : List (String × Bool)) : List Char :=
  "SELECT".toList ++ ' ' :: (f0.data ++ (fieldsChunks fs ++ ' ' :: ("FROM".toList
    ++ ' ' :: (res.data ++ (whereSeg conds ++ (limitSeg lim ++ paramsSeg ps))))))

theorem intercalate_go_data (s : String) :
    ∀ (as : List String) (acc : String),
      (String.intercalate.go acc s as).data
        = acc.data ++ (as.map (fun b => s.data ++ b.data)).flatten := by
  intro as
  induction as with
  | nil =>
    intro acc
    simp [String.intercalate.go]
  | cons b bs ih =>
    intro acc
    rw [String.intercalate.go, ih]
    simp [String.data_append]

theorem intercalate_cons_data (s a : String) (l : List String) :
    (String.intercalate s (a :: l)).data
      = a.data ++ (l.map (fun b => s.data ++ b.data)).flatten := by
  rw [String.intercalate]
  exact intercalate_go_data s l a

theorem renderCond_data (c : CondSpec) : (renderCond c).data = condData c := by
  simp [renderCond, condData, String.data_append]

theorem wfResource_ne_empty {res : String} (h : wfResource res) : ¬(res = "") := by
  intro he
  apply h.1
  rw [he]

theorem build_gaql_data (f0 : String) (fs : List String) (res : String)
    (conds : List CondSpec) (lim : Option Int) (ps : List (String × Bool))
    (hres : wfResource res) :
    build_gaql_query (f0 :: fs) res (some (conds.map renderCond)) none lim (some ps)
      = .ok (String.mk (queryData f0 fs res conds lim ps)) := by
  unfold build_gaql_query
  rw [if_neg (by simp)]
  rw [if_neg (wfResource_ne_empty hres)]
  simp only []
  congr 1
  apply String.ext
  rcases conds with _ | ⟨c0, cs⟩ <;> rcases lim with _ | n <;> rcases ps with _ | ⟨p0, ps2⟩ <;>
    simp [String.data_append, intercalate_cons_data, Function.comp_def,
      queryData, whereSeg, limitSeg, paramsSeg, fieldsChunks, condsChunks, paramsChunks,
      condData, paramData, renderCond_data]

/-! ### Word-structured streams and normalization stability -/

/-- A word of the rendered query: non-empty, no whitespace, no hyphen. -/
def wordOkP (w : List Char) : Prop :=
  w ≠ [] ∧ ∀ c ∈ w, pyIsSpace c = false ∧ c ≠ '-'

/-- Words joined by single spaces. -/
def joinWords : List (List Char) → List Char
  | [] => []
  | [w] => w
  | w :: ws => w ++ ' ' :: joinWords ws

theorem joinWords_cons₂ (w x : List Char) (xs : List (List Char)) :
    joinWords (w :: x :: xs) = w ++ ' ' :: joinWords (x :: xs) := rfl

theorem joinWords_ne {W : List (List Char)} (hne : W ≠ [])
    (h : ∀ w ∈ W, wordOkP w) : joinWords W ≠ [] := by
  rcases W with _ | ⟨w, ws⟩
  · exact absurd rfl hne
  rcases ws with _ | ⟨x, xs⟩
  · rw [show joinWords [w] = w from rfl]
    exact (h w (by simp)).1
  · rw [joinWords_cons₂]
    intro hc
    exact (h w (by simp)).1 (List.append_eq_nil.mp hc).1

theorem joinWords_append {A B : List (List Char)} (hA : A ≠ []) (hB : B ≠ []) :
    joinWords (A ++ B) = joinWords A ++ ' ' :: joinWords B := by
  induction A with
  | nil => exact absurd rfl hA
  | cons w ws ih =>
    rcases ws with _ | ⟨x, xs⟩
    · rcases B with _ | ⟨b, bs⟩
      · exact absurd rfl hB
      · rw [show ([w] ++ b :: bs) = w :: b :: bs from rfl, joinWords_cons₂,
          show joinWords [w] = w from rfl]
    · rw [show ((w :: x :: xs) ++ B) = w :: ((x :: xs) ++ B) from rfl]
      rw [show ((x :: xs) ++ B : List (List Char)) = x :: (xs ++ B) from rfl, joinWords_cons₂]
      rw [show (x :: (xs ++ B) : List (List Char)) = (x :: xs) ++ B from rfl]
      rw [ih (by simp)]
      rw [joinWords_cons₂]
      simp

theorem mem_joinWords {c : Char} :
    ∀ {W : List (List Char)}, c ∈ joinWords W → c = ' ' ∨ ∃ w ∈ W, c ∈ w := by
  intro W
  induction W with
  | nil =>
    intro h
    simp [joinWords] at h
  | cons w ws ih =>
    rcases ws with _ | ⟨x, xs⟩
    · intro h
      right
      exact ⟨w, by simp, by simpa [joinWords] using h⟩
    · intro h
      rw [joinWords_cons₂] at h
      rcases List.mem_append.mp h with h | h
      · right
        exact ⟨w, by simp, h⟩
      · rcases List.mem_cons.mp h with h | h
        · left
          exact h
        · rcases ih h with h | ⟨w2, hw2, hc2⟩
          · left
            exact h
          · right
            exact ⟨w2, by simp [hw2], hc2⟩

theorem word_head_not_space {w : List Char} (hw : wordOkP w) :
    ∀ c, w.head? = some c → pyIsSpace c = false := by
  intro c hc
  rcases hd : w with _ | ⟨a, t⟩
  · exact absurd hd hw.1
  · rw [hd, List.head?_cons] at hc
    rw [Option.some.inj hc.symm]
    exact (hw.2 a (by rw [hd]; exact List.mem_cons_self _ _)).1

theorem joinWords_head {W : List (List Char)} (h : ∀ w ∈ W, wordOkP w) :
    ∀ c, (joinWords W).head? = some c → pyIsSpace c = false := by
  intro c hc
  rcases W with _ | ⟨w, ws⟩
  · cases hc
  have hw := h w (by simp)
  rcases ws with _ | ⟨x, xs⟩
  · exact word_head_not_space hw c (by rw [show joinWords [w] = w from rfl] at hc; exact hc)
  · rw [joinWords_cons₂, head_append_of_ne hw.1] at hc
    exact word_head_not_space hw c hc

theorem mem_of_getLast?C {l : List Char} {a : Char} (h : l.getLast? = some a) : a ∈ l := by
  rw [List.getLast?_eq_head?_reverse] at h
  rcases hr : l.reverse with _ | ⟨b, t⟩
  · rw [hr] at h
    cases h
  · rw [hr, List.head?_cons] at h
    cases Option.some.inj h
    exact List.mem_reverse.mp (by rw [hr]; exact List.mem_cons_self _ _)

theorem getLast?_append_right {l₁ l₂ : List Char} (h : l₂ ≠ []) :
    (l₁ ++ l₂).getLast? = l₂.getLast? := by
  rw [List.getLast?_eq_head?_reverse, List.reverse_append,
    head_append_of_ne (by simpa using h), ← List.getLast?_eq_head?_reverse]

theorem joinWords_last {W : List (List Char)} (h : ∀ w ∈ W, wordOkP w) :
    ∀ c, (joinWords W).getLast? = some c → pyIsSpace c = false := by
  induction W with
  | nil =>
    intro c hc
    cases hc
  | cons w ws ih =>
    intro c hc
    rcases ws with _ | ⟨x, xs⟩
    · rw [show joinWords [w] = w from rfl] at hc
      exact ((h w (by simp)).2 c (mem_of_getLast?C hc)).1
    · have htail : ∀ u ∈ x :: xs, wordOkP u := fun u hu => h u (List.mem_cons_of_mem _ hu)
      have hJne : joinWords (x :: xs) ≠ [] := joinWords_ne (by simp) htail
      rw [joinWords_cons₂,
        getLast?_append_right (List.cons_ne_nil _ _),
        show (' ' :: joinWords (x :: xs)) = [' '] ++ joinWords (x :: xs) from rfl,
        getLast?_append_right hJne] at hc
      exact ih htail c hc

theorem chain'_words {w : List Char} (h : ∀ c ∈ w, pyIsSpace c = false) :
    w.Chain' (fun a b => pyIsSpace a = true → pyIsSpace b = false) := by
  induction w with
  | nil => simp
  | cons a t ih =>
    rcases t with _ | ⟨b, t2⟩
    · simp
    · rw [List.chain'_cons]
      exact ⟨fun _ => h b (by simp),
        ih (fun c hc => h c (List.mem_cons_of_mem _ hc))⟩

theorem joinWords_chain {W : List (List Char)} (h : ∀ w ∈ W, wordOkP w) :
    (joinWords W).Chain' (fun a b => pyIsSpace a = true → pyIsSpace b = false) := by
  induction W with
  | nil => simp [joinWords]
  | cons w ws ih =>
    have hw := h w (by simp)
    have hwc := chain'_words (fun c hc => (hw.2 c hc).1)
    rcases ws with _ | ⟨x, xs⟩
    · exact hwc
    · have htail : ∀ u ∈ x :: xs, wordOkP u := fun u hu => h u (List.mem_cons_of_mem _ hu)
      rw [joinWords_cons₂, List.chain'_append]
      refine ⟨hwc, ?_, ?_⟩
      · rw [show (' ' :: joinWords (x :: xs)) = [' '] ++ joinWords (x :: xs) from rfl,
          List.chain'_append]
        refine ⟨List.chain'_singleton _, ih htail, ?_⟩
        intro a ha b hb _
        exact joinWords_head htail b (Option.mem_def.mp hb)
      · intro a ha b hb hsp
        have : pyIsSpace a = false :=
          (hw.2 a (mem_of_getLast?C (Option.mem_def.mp ha))).1
        rw [this] at hsp
        cases hsp

theorem stripCommentsListGo_id :
    ∀ (fuel : Nat) (l : List Char), l.length < fuel → (∀ c ∈ l, c ≠ '-') →
      stripCommentsListGo fuel l = l := by
  intro fuel
  induction fuel with
  | zero =>
    intro l h _
    omega
  | succ n ih =>
    intro l hlen hnd
    rcases l with _ | ⟨c, t⟩
    · rfl
    · simp only [stripCommentsListGo]
      rw [if_neg (fun hp => hnd c (List.mem_cons_self _ _) hp.1)]
      rw [ih t (by simp at hlen; omega) (fun d hd => hnd d (List.mem_cons_of_mem _ hd))]

theorem collapseWsListGo_id :
    ∀ (l : List Char) (fuel : Nat), l.length < fuel →
      (∀ c ∈ l, pyIsSpace c = true → c = ' ') →
      l.Chain' (fun a b => pyIsSpace a = true → pyIsSpace b = false) →
      collapseWsListGo fuel l = l := by
  intro l
  induction l with
  | nil =>
    intro fuel hf _ _
    rcases fuel with _ | n
    · omega
    · rfl
  | cons c t ih =>
    intro fuel hf hws hch
    rcases fuel with _ | n
    · omega
    simp only [collapseWsListGo]
    have hlt : t.length < n := by simp at hf; omega
    have hwst : ∀ d ∈ t, pyIsSpace d = true → d = ' ' :=
      fun d hd => hws d (List.mem_cons_of_mem _ hd)
    by_cases hc : pyIsSpace c = true
    · rw [if_pos hc]
      have hnext : t.dropWhile pyIsSpace = t := by
        rcases ht : t with _ | ⟨d, t2⟩
        · rfl
        · have hd : pyIsSpace d = false := by
            rw [ht] at hch
            exact (List.chain'_cons.mp hch).1 hc
          rw [List.dropWhile_cons, hd]
          simp
      rw [hnext, ih n hlt hwst hch.tail]
      rw [hws c (List.mem_cons_self _ _) hc]
    · rw [if_neg hc]
      rw [ih n hlt hwst hch.tail]

theorem pyStripList_id {l : List Char}
    (h1 : ∀ c, l.head? = some c → pyIsSpace c = false)
    (h2 : ∀ c, l.getLast? = some c → pyIsSpace c = false) :
    pyStripList l = l := by
  rw [pyStripList]
  rw [show l.dropWhile pyIsSpace = skipWs l from rfl, skipWs_eq_self h1]
  rw [show l.reverse.dropWhile pyIsSpace = skipWs l.reverse from rfl, skipWs_eq_self (by
    intro c hc
    rw [List.head?_reverse] at hc
    exact h2 c hc)]
  exact List.reverse_reverse l

theorem normalizeQuery_joinWords {W : List (List Char)}
    (h : ∀ w ∈ W, wordOkP w) :
    normalizeQuery (String.mk (joinWords W)) = String.mk (joinWords W) := by
  rw [normalizeQuery]
  rw [show (String.mk (joinWords W)).toList = joinWords W from rfl]
  rw [show stripCommentsList (joinWords W) = stripCommentsListGo ((joinWords W).length + 1)
    (joinWords W) from rfl]
  rw [stripCommentsListGo_id ((joinWords W).length + 1) (joinWords W) (by omega) (by
    intro c hc
    rcases mem_joinWords hc with rfl | ⟨w, hw, hcw⟩
    · decide
    · exact ((h w hw).2 c hcw).2)]
  rw [show collapseWsList (joinWords W) = collapseWsListGo ((joinWords W).length + 1)
    (joinWords W) from rfl]
  rw [collapseWsListGo_id (joinWords W) ((joinWords W).length + 1) (by omega) (by
    intro c hc hsp
    rcases mem_joinWords hc with rfl | ⟨w, hw, hcw⟩
    · rfl
    · rw [((h w hw).2 c hcw).1] at hsp
      cases hsp) (joinWords_chain h)]
  rw [pyStripList_id (joinWords_head h) (joinWords_last h)]

/-! ### The query stream as space-joined words -/

def fieldsWords : List String → List (List Char)
  | [] => []
  | [f] => [f.data]
  | f :: rest => (f.data ++ [',']) :: fieldsWords rest

def condWords (c : CondSpec) : List (List Char) :=
  [c.field.data, c.op.data, c.value.data]

def condsWordsRest (cs : List CondSpec) : List (List Char) :=
  (cs.map (fun c => "AND".toList :: condWords c)).flatten

def whereWords : List CondSpec → List (List Char)
  | [] => []
  | c :: cs => "WHERE".toList :: (condWords c ++ condsWordsRest cs)

def limitWords : Option Int → List (List Char)
  | none => []
  | some n => ["LIMIT".toList, (toString n).data]

def paramsWordsGo : List (String × Bool) → List (List Char)
  | [] => []
  | [p] => [paramData p]
  | p :: rest => (paramData p ++ [',']) :: paramsWordsGo rest

def paramsWords : List (String × Bool) → List (List Char)
  | [] => []
  | p :: ps => "PARAMETERS".toList :: paramsWordsGo (p :: ps)

def queryWords (f0 : String) (fs : List String) (res : String) (conds : List CondSpec)
    (lim : Option Int) (ps : List (String × Bool)) : List (List Char) :=
  "SELECT".toList :: (fieldsWords (f0 :: fs) ++ ("FROM".toList :: res.data ::
    (whereWords conds ++ (limitWords lim ++ paramsWords ps))))

theorem joinWords_cons_ne {w : List Char} {ws : List (List Char)} (h : ws ≠ []) :
    joinWords (w :: ws) = w ++ ' ' :: joinWords ws := by
  rcases ws with _ | ⟨x, xs⟩
  · exact absurd rfl h
  · exact joinWords_cons₂ w x xs

theorem fieldsWords_ne (f : String) (fs : List String) : fieldsWords (f :: fs) ≠ [] := by
  cases fs <;> simp [fieldsWords]

theorem joinFields :
    ∀ (fs : List String) (f0 : String) (R : List (List Char)), R ≠ [] →
      joinWords (fieldsWords (f0 :: fs) ++ R)
        = f0.data ++ (fieldsChunks fs ++ ' ' :: joinWords R) := by
  intro fs
  induction fs with
  | nil =>
    intro f0 R hR
    rw [show fieldsWords [f0] = [f0.data] from rfl]
    rw [show ([f0.data] ++ R : List (List Char)) = f0.data :: R from rfl]
    rw [joinWords_cons_ne hR]
    simp [fieldsChunks]
  | cons f1 fs2 ih =>
    intro f0 R hR
    rw [show fieldsWords (f0 :: f1 :: fs2)
        = (f0.data ++ [',']) :: fieldsWords (f1 :: fs2) from rfl]
    rw [show ((f0.data ++ [',']) :: fieldsWords (f1 :: fs2)) ++ R
        = (f0.data ++ [',']) :: (fieldsWords (f1 :: fs2) ++ R) from rfl]
    rw [joinWords_cons_ne (by
      intro hc
      exact fieldsWords_ne f1 fs2 (List.append_eq_nil.mp hc).1)]
    rw [ih f1 R hR]
    simp [fieldsChunks]

theorem joinCondW0 (c : CondSpec) : joinWords (condWords c) = condData c := by
  rw [show condWords c = c.field.data :: c.op.data :: [c.value.data] from rfl]
  rw [joinWords_cons₂, joinWords_cons₂, show joinWords [c.value.data] = c.value.data from rfl]
  simp [condData]

theorem joinConds :
    ∀ (cs : List CondSpec) (X : List (List Char)), X ≠ [] →
      joinWords (X ++ condsWordsRest cs) = joinWords X ++ condsChunks cs := by
  intro cs
  induction cs with
  | nil =>
    intro X hX
    simp [condsWordsRest, condsChunks]
  | cons c2 cs2 ih =>
    intro X hX
    rw [show condsWordsRest (c2 :: cs2)
        = ("AND".toList :: condWords c2) ++ condsWordsRest cs2 from by simp [condsWordsRest]]
    rw [show X ++ (("AND".toList :: condWords c2) ++ condsWordsRest cs2)
        = (X ++ ("AND".toList :: condWords c2)) ++ condsWordsRest cs2 from by simp]
    rw [ih (X ++ ("AND".toList :: condWords c2)) (by simp)]
    rw [joinWords_append hX (by simp)]
    rw [joinWords_cons_ne (by simp [condWords])]
    rw [joinCondW0]
    rw [show condsChunks (c2 :: cs2) = (" AND ".data ++ condData c2) ++ condsChunks cs2
      from by simp [condsChunks]]
    simp

theorem joinParamsGo :
    ∀ (ps : List (String × Bool)) (p : String × Bool) (X : List (List Char)), X ≠ [] →
      joinWords (X ++ paramsWordsGo (p :: ps))
        = joinWords X ++ ' ' :: (paramData p ++ paramsChunks ps) := by
  intro ps
  induction ps with
  | nil =>
    intro p X hX
    rw [show paramsWordsGo [p] = [paramData p] from rfl]
    rw [joinWords_append hX (by simp)]
    rw [show joinWords [paramData p] = paramData p from rfl]
    simp [paramsChunks]
  | cons p2 ps2 ih =>
    intro p X hX
    rw [show paramsWordsGo (p :: p2 :: ps2)
        = (paramData p ++ [',']) :: paramsWordsGo (p2 :: ps2) from rfl]
    rw [show X ++ ((paramData p ++ [',']) :: paramsWordsGo (p2 :: ps2))
        = (X ++ [paramData p ++ [',']]) ++ paramsWordsGo (p2 :: ps2) from by simp]
    rw [ih p2 (X ++ [paramData p ++ [',']]) (by simp)]
    rw [joinWords_append hX (by simp)]
    rw [show joinWords [paramData p ++ [',']] = paramData p ++ [','] from rfl]
    rw [show paramsChunks (p2 :: ps2) = (", ".data ++ paramData p2) ++ paramsChunks ps2
      from by simp [paramsChunks]]
    simp

theorem joinParamsGo0 :
    ∀ (ps : List (String × Bool)) (p : String × Bool),
      joinWords (paramsWordsGo (p :: ps)) = paramData p ++ paramsChunks ps := by
  intro ps
  induction ps with
  | nil =>
    intro p
    rw [show paramsWordsGo [p] = [paramData p] from rfl,
      show joinWords [paramData p] = paramData p from rfl]
    simp [paramsChunks]
  | cons p2 ps2 ih =>
    intro p
    rw [show paramsWordsGo (p :: p2 :: ps2)
        = (paramData p ++ [',']) :: paramsWordsGo (p2 :: ps2) from rfl]
    rw [joinWords_cons_ne (by cases ps2 <;> simp [paramsWordsGo])]
    rw [ih p2]
    rw [show paramsChunks (p2 :: ps2) = (", ".data ++ paramData p2) ++ paramsChunks ps2
      from by simp [paramsChunks]]
    simp

theorem queryData_eq_joinWords (f0 : String) (fs : List String) (res : String)
    (conds : List CondSpec) (lim : Option Int) (ps : List (String × Bool)) :
    queryData f0 fs res conds lim ps = joinWords (queryWords f0 fs res conds lim ps) := by
  rw [queryWords]
  rw [joinWords_cons_ne (by
    intro hc
    exact fieldsWords_ne f0 fs (List.append_eq_nil.mp hc).1)]
  rw [joinFields fs f0 _ (by simp)]
  rw [joinWords_cons_ne (by simp)]
  rcases conds with _ | ⟨c0, cs⟩ <;> rcases lim with _ | n <;> rcases ps with _ | ⟨p0, ps2⟩
  · rw [show (whereWords [] ++ (limitWords none ++ paramsWords []) : List (List Char)) = []
      from rfl]
    rw [show joinWords [res.data] = res.data from rfl]
    simp [queryData, whereSeg, limitSeg, paramsSeg]
  · rw [show (whereWords [] ++ (limitWords none ++ paramsWords (p0 :: ps2)) : List (List Char))
      = "PARAMETERS".toList :: paramsWordsGo (p0 :: ps2) from rfl]
    rw [joinWords_cons_ne (by simp)]
    rw [joinWords_cons_ne (by cases ps2 <;> simp [paramsWordsGo])]
    rw [joinParamsGo0 ps2 p0]
    simp [queryData, whereSeg, limitSeg, paramsSeg]
  · rw [show (whereWords [] ++ (limitWords (some n) ++ paramsWords []) : List (List Char))
      = ["LIMIT".toList, (toString n).data] from rfl]
    rw [joinWords_cons_ne (by simp)]
    rw [joinWords_cons₂, show joinWords [(toString n).data] = (toString n).data from rfl]
    simp [queryData, whereSeg, limitSeg, paramsSeg]
  · rw [show (whereWords [] ++ (limitWords (some n) ++ paramsWords (p0 :: ps2)) : List (List Char))
      = "LIMIT".toList :: ((toString n).data :: ("PARAMETERS".toList :: paramsWordsGo (p0 :: ps2)))
      from rfl]
    rw [joinWords_cons_ne (by simp)]
    rw [joinWords_cons₂, joinWords_cons₂]
    rw [joinWords_cons_ne (by cases ps2 <;> simp [paramsWordsGo])]
    rw [joinParamsGo0 ps2 p0]
    simp [queryData, whereSeg, limitSeg, paramsSeg]
  · rw [show (whereWords (c0 :: cs) ++ (limitWords none ++ paramsWords []) : List (List Char))
      = "WHERE".toList :: (condWords c0 ++ condsWordsRest cs)
      from by simp [whereWords, limitWords, paramsWords]]
    rw [joinWords_cons_ne (by simp)]
    rw [joinWords_cons_ne (by simp [condWords])]
    rw [joinConds cs (condWords c0) (by simp [condWords]), joinCondW0]
    simp [queryData, whereSeg, limitSeg, paramsSeg]
  · rw [show (whereWords (c0 :: cs) ++ (limitWords none ++ paramsWords (p0 :: ps2)) : List (List Char))
      = "WHERE".toList :: ((condWords c0 ++ condsWordsRest cs)
        ++ ("PARAMETERS".toList :: paramsWordsGo (p0 :: ps2)))
      from by simp [whereWords, limitWords, paramsWords]]
    rw [joinWords_cons_ne (by simp)]
    rw [joinWords_cons_ne (by simp [condWords])]
    rw [joinWords_append (by simp [condWords]) (by simp)]
    rw [joinConds cs (condWords c0) (by simp [condWords]), joinCondW0]
    rw [joinWords_cons_ne (by cases ps2 <;> simp [paramsWordsGo])]
    rw [joinParamsGo0 ps2 p0]
    simp [queryData, whereSeg, limitSeg, paramsSeg]
  · rw [show (whereWords (c0 :: cs) ++ (limitWords (some n) ++ paramsWords []) : List (List Char))
      = "WHERE".toList :: ((condWords c0 ++ condsWordsRest cs)
        ++ ["LIMIT".toList, (toString n).data])
      from by simp [whereWords, limitWords, paramsWords]]
    rw [joinWords_cons_ne (by simp)]
    rw [joinWords_cons_ne (by simp [condWords])]
    rw [joinWords_append (by simp [condWords]) (by simp)]
    rw [joinConds cs (condWords c0) (by simp [condWords]), joinCondW0]
    rw [joinWords_cons₂, show joinWords [(toString n).data] = (toString n).data from rfl]
    simp [queryData, whereSeg, limitSeg, paramsSeg]
  · rw [show (whereWords (c0 :: cs) ++ (limitWords (some n) ++ paramsWords (p0 :: ps2)) : List (List Char))
      = "WHERE".toList :: ((condWords c0 ++ condsWordsRest cs)
        ++ ("LIMIT".toList :: ((toString n).data :: ("PARAMETERS".toList :: paramsWordsGo (p0 :: ps2)))))
      from by simp [whereWords, limitWords, paramsWords]]
    rw [joinWords_cons_ne (by simp)]
    rw [joinWords_cons_ne (by simp [condWords])]
    rw [joinWords_append (by simp [condWords]) (by simp)]
    rw [joinConds cs (condWords c0) (by simp [condWords]), joinCondW0]
    rw [joinWords_cons₂, joinWords_cons₂]
    rw [joinWords_cons_ne (by cases ps2 <;> simp [paramsWordsGo])]
    rw [joinParamsGo0 ps2 p0]
    simp [queryData, whereSeg, limitSeg, paramsSeg]

/-! ### Well-formedness of the query words -/

theorem wordOkP_field {f : String} (hf : wfField f) : wordOkP f.data := by
  refine ⟨hf.1, ?_⟩
  intro c hc
  have h := hf.2.2 c hc
  exact ⟨fieldChar_not_space h, ne_of_class h (by decide)⟩

theorem wordOkP_comma {w : List Char} (h : wordOkP w) : wordOkP (w ++ [',']) := by
  refine ⟨by simp, ?_⟩
  intro c hc
  rcases List.mem_append.mp hc with hc | hc
  · exact h.2 c hc
  · rcases List.mem_singleton.mp hc with rfl
    exact ⟨by decide, by decide⟩

theorem wordOkP_resource {r : String} (hr : wfResource r) : wordOkP r.data := by
  refine ⟨hr.1, ?_⟩
  intro c hc
  have h := fieldChar_of_resource (hr.2.2 c hc)
  exact ⟨fieldChar_not_space h, ne_of_class h (by decide)⟩

theorem safeOps_chars :
    ∀ op ∈ safeOps, op.data ≠ [] ∧ ∀ c ∈ op.data, pyIsSpace c = false ∧ c ≠ '-' := by
  decide

theorem wordOkP_op : ∀ op ∈ safeOps, wordOkP op.data :=
  fun op hop => ⟨(safeOps_chars op hop).1, (safeOps_chars op hop).2⟩

theorem wordOkP_value {v : String} (hv : wfValue v.data) : wordOkP v.data := by
  refine ⟨wfValue_ne hv, ?_⟩
  intro c hc
  rcases hv with ⟨_, hdig⟩ | ⟨inner, hinn, hlit⟩ | ⟨_, hlit, _⟩
  · have h := hdig c hc
    exact ⟨fieldChar_not_space (fieldChar_of_digit h), ne_of_class h (by decide)⟩
  · rw [hinn] at hc
    rcases List.mem_cons.mp hc with rfl | hc
    · exact ⟨by decide, by decide⟩
    · rcases List.mem_append.mp hc with hc | hc
      · have h := hlit c hc
        exact ⟨fieldChar_not_space (fieldChar_of_literal h), ne_of_class h (by decide)⟩
      · rcases List.mem_singleton.mp hc with rfl
        exact ⟨by decide, by decide⟩
  · have h := hlit c hc
    exact ⟨fieldChar_not_space (fieldChar_of_literal h), ne_of_class h (by decide)⟩

theorem paramTable_wordOk : ∀ n ∈ paramNameTable, ∀ c ∈ n.data,
    pyIsSpace c = false ∧ c ≠ '-' := by
  decide

theorem wordOkP_param {p : String × Bool} (hp : p.1 ∈ paramNameTable) :
    wordOkP (paramData p) := by
  refine ⟨by
    rw [paramData]
    intro h
    exact (paramName_head p.1 hp).1 (List.append_eq_nil.mp h).1, ?_⟩
  intro c hc
  rw [paramData] at hc
  rcases List.mem_append.mp hc with hc | hc
  · exact paramTable_wordOk p.1 hp c hc
  · rcases List.mem_cons.mp hc with rfl | hc
    · exact ⟨by decide, by decide⟩
    · rcases hb : p.2
      · have hx : ∀ d ∈ (pyBoolLower false).data, pyIsSpace d = false ∧ d ≠ '-' := by decide
        rw [hb] at hc
        exact hx c hc
      · have hx : ∀ d ∈ (pyBoolLower true).data, pyIsSpace d = false ∧ d ≠ '-' := by decide
        rw [hb] at hc
        exact hx c hc

theorem mem_fieldsWords :
    ∀ {fs : List String} {w : List Char}, w ∈ fieldsWords fs →
      ∃ f ∈ fs, w = f.data ∨ w = f.data ++ [','] := by
  intro fs
  induction fs with
  | nil =>
    intro w h
    simp [fieldsWords] at h
  | cons f rest ih =>
    intro w h
    rcases rest with _ | ⟨g, gs⟩
    · rw [show fieldsWords [f] = [f.data] from rfl] at h
      rcases List.mem_singleton.mp h
      exact ⟨f, by simp, Or.inl rfl⟩
    · rw [show fieldsWords (f :: g :: gs)
        = (f.data ++ [',']) :: fieldsWords (g :: gs) from rfl] at h
      rcases List.mem_cons.mp h with rfl | h
      · exact ⟨f, by simp, Or.inr rfl⟩
      · obtain ⟨f2, hf2, hw⟩ := ih h
        exact ⟨f2, List.mem_cons_of_mem _ hf2, hw⟩

theorem mem_paramsWordsGo :
    ∀ {ps : List (String × Bool)} {w : List Char}, w ∈ paramsWordsGo ps →
      ∃ p ∈ ps, w = paramData p ∨ w = paramData p ++ [','] := by
  intro ps
  induction ps with
  | nil =>
    intro w h
    simp [paramsWordsGo] at h
  | cons p rest ih =>
    intro w h
    rcases rest with _ | ⟨q, qs⟩
    · rw [show paramsWordsGo [p] = [paramData p] from rfl] at h
      rcases List.mem_singleton.mp h
      exact ⟨p, by simp, Or.inl rfl⟩
    · rw [show paramsWordsGo (p :: q :: qs)
        = (paramData p ++ [',']) :: paramsWordsGo (q :: qs) from rfl] at h
      rcases List.mem_cons.mp h with rfl | h
      · exact ⟨p, by simp, Or.inr rfl⟩
      · obtain ⟨p2, hp2, hw⟩ := ih h
        exact ⟨p2, List.mem_cons_of_mem _ hp2, hw⟩

theorem mem_condWords {c : CondSpec} {w : List Char} (hc : wfCond c)
    (h : w ∈ condWords c) : wordOkP w := by
  rcases List.mem_cons.mp h with rfl | h
  · exact wordOkP_field hc.1
  rcases List.mem_cons.mp h with rfl | h
  · exact wordOkP_op c.op hc.2.1
  rcases List.mem_cons.mp h with rfl | h
  · exact wordOkP_value hc.2.2
  · cases h

theorem queryWords_ok {f0 : String} {fs : List String} {res : String}
    {conds : List CondSpec} {lim : Option Int} {ps : List (String × Bool)}
    (hf0 : wfField f0) (hfs : ∀ f ∈ fs, wfField f) (hres : wfResource res)
    (hconds : ∀ c ∈ conds, wfCond c)
    (hlim : ∀ n, lim = some n → wfPosDigits (toString n).data)
    (hps : ∀ p ∈ ps, p.1 ∈ paramNameTable) :
    ∀ w ∈ queryWords f0 fs res conds lim ps, wordOkP w := by
  intro w hw
  rw [queryWords] at hw
  rcases List.mem_cons.mp hw with rfl | hw
  · exact ⟨by decide, by decide⟩
  rcases List.mem_append.mp hw with hw | hw
  · obtain ⟨f, hf, hcase⟩ := mem_fieldsWords hw
    have hwf : wfField f := by
      rcases List.mem_cons.mp hf with rfl | hf
      · exact hf0
      · exact hfs f hf
    rcases hcase with rfl | rfl
    · exact wordOkP_field hwf
    · exact wordOkP_comma (wordOkP_field hwf)
  rcases List.mem_cons.mp hw with rfl | hw
  · exact ⟨by decide, by decide⟩
  rcases List.mem_cons.mp hw with rfl | hw
  · exact wordOkP_resource hres
  rcases List.mem_append.mp hw with hw | hw
  · -- whereWords
    rcases hcs : conds with _ | ⟨c0, cs⟩
    · rw [hcs, show whereWords [] = [] from rfl] at hw
      cases hw
    · rw [hcs, show whereWords (c0 :: cs)
        = "WHERE".toList :: (condWords c0 ++ condsWordsRest cs) from rfl] at hw
      have hco : wfCond c0 := hconds c0 (by rw [hcs]; exact List.mem_cons_self _ _)
      rcases List.mem_cons.mp hw with rfl | hw
      · exact ⟨by decide, by decide⟩
      rcases List.mem_append.mp hw with hw | hw
      · exact mem_condWords hco hw
      · rw [condsWordsRest] at hw
        rw [List.mem_flatten] at hw
        obtain ⟨lw, hlw, hwin⟩ := hw
        rw [List.mem_map] at hlw
        obtain ⟨c2, hc2, rfl⟩ := hlw
        have hco2 : wfCond c2 := hconds c2 (by
          rw [hcs]
          exact List.mem_cons_of_mem _ hc2)
        rcases List.mem_cons.mp hwin with rfl | hwin
        · exact ⟨by decide, by decide⟩
        · exact mem_condWords hco2 hwin
  rcases List.mem_append.mp hw with hw | hw
  · -- limitWords
    rcases hl : lim with _ | n
    · rw [hl, show limitWords none = [] from rfl] at hw
      cases hw
    · rw [hl, show limitWords (some n) = ["LIMIT".toList, (toString n).data] from rfl] at hw
      rcases List.mem_cons.mp hw with rfl | hw
      · exact ⟨by decide, by decide⟩
      rcases List.mem_singleton.mp hw
      have hd := hlim n hl
      refine ⟨hd.2.1, ?_⟩
      intro c hc
      have h := hd.2.2 c hc
      exact ⟨fieldChar_not_space (fieldChar_of_digit h), ne_of_class h (by decide)⟩
  · -- paramsWords
    rcases hp : ps with _ | ⟨p0, ps2⟩
    · rw [hp, show paramsWords [] = [] from rfl] at hw
      cases hw
    · rw [hp, show paramsWords (p0 :: ps2)
        = "PARAMETERS".toList :: paramsWordsGo (p0 :: ps2) from rfl] at hw
      rcases List.mem_cons.mp hw with rfl | hw
      · exact ⟨by decide, by decide⟩
      obtain ⟨p, hpmem, hcase⟩ := mem_paramsWordsGo hw
      have hpn : p.1 ∈ paramNameTable := hps p (by rw [hp]; exact hpmem)
      rcases hcase with rfl | rfl
      · exact wordOkP_param hpn
      · exact wordOkP_comma (wordOkP_param hpn)

theorem normalizeQuery_queryData {f0 : String} {fs : List String} {res : String}
    {conds : List CondSpec} {lim : Option Int} {ps : List (String × Bool)}
    (hf0 : wfField f0) (hfs : ∀ f ∈ fs, wfField f) (hres : wfResource res)
    (hconds : ∀ c ∈ conds, wfCond c)
    (hlim : ∀ n, lim = some n → wfPosDigits (toString n).data)
    (hps : ∀ p ∈ ps, p.1 ∈ paramNameTable) :
    normalizeQuery (String.mk (queryData f0 fs res conds lim ps))
      = String.mk (queryData f0 fs res conds lim ps) := by
  rw [queryData_eq_joinWords f0 fs res conds lim ps]
  exact normalizeQuery_joinWords (queryWords_ok hf0 hfs hres hconds hlim hps)

/-! ### Stage lemmas for the optional clauses -/

theorem limParamsSeg_head {lim : Option Int} {ps : List (String × Bool)} :
    ∀ x, (limitSeg lim ++ paramsSeg ps).head? = some x → x = ' ' := by
  intro x hx
  rcases lim with _ | n
  · rcases ps with _ | ⟨p, ps2⟩
    · simp [limitSeg, paramsSeg] at hx
    · exact Option.some.inj hx.symm
  · exact Option.some.inj hx.symm

theorem segsTail_head {conds : List CondSpec} {lim : Option Int} {ps : List (String × Bool)} :
    ∀ x, (whereSeg conds ++ (limitSeg lim ++ paramsSeg ps)).head? = some x → x = ' ' := by
  intro x hx
  rcases conds with _ | ⟨c, cs⟩
  · rw [show whereSeg [] = [] from rfl, List.nil_append] at hx
    exact limParamsSeg_head x hx
  · exact Option.some.inj hx.symm

theorem limParams_noWhere {lim : Option Int} {ps : List (String × Bool)} :
    ("WHERE".toList).isPrefixOf (skipWs (limitSeg lim ++ paramsSeg ps)) = false := by
  rcases lim with _ | n <;> rcases ps with _ | ⟨p, ps2⟩ <;> rfl

theorem limParams_noAnd {lim : Option Int} {ps : List (String × Bool)} :
    ("AND".toList).isPrefixOf (skipWs (limitSeg lim ++ paramsSeg ps)) = false := by
  rcases lim with _ | n <;> rcases ps with _ | ⟨p, ps2⟩ <;> rfl

/-- The `where_clause` entry the parser produces. -/
def condsAstVal (conds : List CondSpec) : Option (List Condition) :=
  match conds with
  | [] => none
  | _ => some (conds.map condToAst)

/-- The `limit_clause` entry the parser produces. -/
def limAstVal : Option Int → Option Int
  | none => none
  | some n => some (Int.ofNat (digitsToNat (toString n).data))

/-- The `parameters_clause` entry the parser produces. -/
def paramsAstVal (ps : List (String × Bool)) : Option (List (String × String)) :=
  match ps with
  | [] => none
  | _ => some (buildParamDict (ps.map (fun p => (p.1, pyBoolLower p.2))))

theorem parseWhereOpt_render {conds : List CondSpec} {tail2 : List Char}
    (hwf : ∀ c ∈ conds, wfCond c)
    (htail1 : ∀ x, tail2.head? = some x → x = ' ')
    (htailW : ("WHERE".toList).isPrefixOf (skipWs tail2) = false)
    (htailA : ("AND".toList).isPrefixOf (skipWs tail2) = false) :
    parseWhereOpt (whereSeg conds ++ tail2) = .ok (condsAstVal conds, tail2) := by
  rcases conds with _ | ⟨c0, cs⟩
  · rw [show whereSeg [] ++ tail2 = tail2 from by simp [whereSeg]]
    unfold parseWhereOpt
    rw [htailW]
    simp [condsAstVal]
  · unfold parseWhereOpt
    have hform : whereSeg (c0 :: cs) ++ tail2
        = ' ' :: ("WHERE".toList ++ (' ' :: (condData c0 ++ (condsChunks cs ++ tail2)))) := by
      simp [whereSeg]
    rw [hform]
    rw [show skipWs (' ' :: ("WHERE".toList ++ (' ' :: (condData c0
        ++ (condsChunks cs ++ tail2)))))
        = "WHERE".toList ++ (' ' :: (condData c0 ++ (condsChunks cs ++ tail2))) from rfl]
    rw [isPrefixOf_self_append]
    rw [if_pos rfl]
    rw [show ("WHERE".toList ++ (' ' :: (condData c0 ++ (condsChunks cs ++ tail2)))).drop 5
        = ' ' :: (condData c0 ++ (condsChunks cs ++ tail2)) from rfl]
    have hc0 : wfCond c0 := hwf c0 (List.mem_cons_self _ _)
    have hcdne : condData c0 ≠ [] := condData_ne hc0
    have hcdhd : ∀ x, (condData c0 ++ (condsChunks cs ++ tail2)).head? = some x →
        pyIsSpace x = false := by
      intro x hx
      rw [head_append_of_ne hcdne] at hx
      exact condData_head_not_space hc0 x hx
    simp only [parseCondition_render hc0 (condsChunks_head htail1) (skipWs_cons_space hcdhd)]
    rw [show parseCondsRest [condToAst c0] (condsChunks cs ++ tail2)
        = parseCondsRestGo ((condsChunks cs ++ tail2).length + 1) [condToAst c0]
            (condsChunks cs ++ tail2) from rfl]
    rw [parseCondsRestGo_render cs ((condsChunks cs ++ tail2).length + 1) [condToAst c0] tail2
      (fun d hd => hwf d (List.mem_cons_of_mem _ hd)) htail1 htailA (Nat.lt_succ_self _)]
    simp [condsAstVal]

theorem parseOrderOpt_render (lim : Option Int) (ps : List (String × Bool)) :
    parseOrderOpt (limitSeg lim ++ paramsSeg ps) = .ok (none, limitSeg lim ++ paramsSeg ps) := by
  unfold parseOrderOpt
  rw [show ("ORDER".toList).isPrefixOf (skipWs (limitSeg lim ++ paramsSeg ps)) = false from by
    rcases lim with _ | n <;> rcases ps with _ | ⟨p, ps2⟩ <;> rfl]
  simp

theorem parseLimitOpt_none (ps : List (String × Bool)) :
    parseLimitOpt (paramsSeg ps) = .ok (none, paramsSeg ps) := by
  unfold parseLimitOpt
  rw [show ("LIMIT".toList).isPrefixOf (skipWs (paramsSeg ps)) = false from by
    rcases ps with _ | ⟨p, ps2⟩ <;> rfl]
  simp

theorem parseLimitOpt_some (n : Int) (ps : List (String × Bool))
    (hd : wfPosDigits (toString n).data) :
    parseLimitOpt (limitSeg (some n) ++ paramsSeg ps)
      = .ok (limAstVal (some n), paramsSeg ps) := by
  unfold parseLimitOpt
  have hform : limitSeg (some n) ++ paramsSeg ps
      = ' ' :: ("LIMIT".toList ++ (' ' :: ((toString n).data ++ paramsSeg ps))) := by
    simp [limitSeg]
  rw [hform]
  rw [show skipWs (' ' :: ("LIMIT".toList ++ (' ' :: ((toString n).data ++ paramsSeg ps))))
      = "LIMIT".toList ++ (' ' :: ((toString n).data ++ paramsSeg ps)) from rfl]
  rw [isPrefixOf_self_append]
  rw [if_pos rfl]
  rw [show ("LIMIT".toList ++ (' ' :: ((toString n).data ++ paramsSeg ps))).drop 5
      = ' ' :: ((toString n).data ++ paramsSeg ps) from rfl]
  obtain ⟨hh, hne, hdig⟩ := hd
  have hskipl : skipWs (' ' :: ((toString n).data ++ paramsSeg ps))
      = (toString n).data ++ paramsSeg ps := by
    refine skipWs_cons_space ?_
    intro x hx
    rw [head_append_of_ne hne] at hx
    have hxm : x ∈ (toString n).data := by
      rcases hdd : (toString n).data with _ | ⟨a, t⟩
      · rw [hdd] at hx
        simp at hx
      · rw [hdd, List.head?_cons] at hx
        have hxa : x = a := Option.some.inj hx.symm
        rw [hxa]
        exact List.mem_cons_self _ _
    exact fieldChar_not_space (fieldChar_of_digit (hdig x hxm))
  unfold parseLimit
  rw [hskipl]
  rcases hdd : (toString n).data with _ | ⟨c, t⟩
  · exact absurd hdd hne
  simp only [List.cons_append]
  rw [if_pos (hh c (by rw [hdd]; rfl))]
  have hxs1 : ∀ d ∈ t, isDigitC d = true :=
    fun d hdm => hdig d (by rw [hdd]; exact List.mem_cons_of_mem _ hdm)
  have hrs1 : ∀ x, (paramsSeg ps).head? = some x → isDigitC x = false := by
    intro x hx
    rcases hp : ps with _ | ⟨p, ps2⟩
    · rw [hp] at hx
      simp [paramsSeg] at hx
    · rw [hp] at hx
      have hxs : x = ' ' := Option.some.inj hx.symm
      rw [hxs]
      decide
  have hta := takeWhile_append_all hxs1 hrs1
  rw [hta.1, hta.2]
  rw [show limAstVal (some n) = some (Int.ofNat (digitsToNat (toString n).data)) from rfl, hdd]

theorem parseParamsOpt_render {ps : List (String × Bool)}
    (hps : ∀ p ∈ ps, p.1 ∈ paramNameTable) :
    parseParamsOpt (paramsSeg ps) = .ok (paramsAstVal ps, []) := by
  rcases ps with _ | ⟨p0, ps2⟩
  · rfl
  · unfold parseParamsOpt
    have hform : paramsSeg (p0 :: ps2)
        = ' ' :: ("PARAMETERS".toList ++ (' ' :: (paramData p0 ++ paramsChunks ps2))) := by
      simp [paramsSeg]
    rw [hform]
    rw [show skipWs (' ' :: ("PARAMETERS".toList ++ (' ' :: (paramData p0
        ++ paramsChunks ps2))))
        = "PARAMETERS".toList ++ (' ' :: (paramData p0 ++ paramsChunks ps2)) from rfl]
    rw [isPrefixOf_self_append]
    rw [if_pos rfl]
    rw [show ("PARAMETERS".toList ++ (' ' :: (paramData p0 ++ paramsChunks ps2))).drop 10
        = ' ' :: (paramData p0 ++ paramsChunks ps2) from rfl]
    have hp0 : p0.1 ∈ paramNameTable := hps p0 (List.mem_cons_self _ _)
    have hpne : p0.1.data ≠ [] := (paramName_head p0.1 hp0).1
    have hpdne : paramData p0 ≠ [] := by
      rw [paramData]
      intro h
      exact hpne (List.append_eq_nil.mp h).1
    have hphd : ∀ x, (paramData p0 ++ paramsChunks ps2).head? = some x →
        pyIsSpace x = false := by
      intro x hx
      rw [head_append_of_ne hpdne, paramData, head_append_of_ne hpne,
        head?_eq_headD ' ' hpne] at hx
      rw [Option.some.inj hx.symm]
      exact (paramName_head p0.1 hp0).2
    have hskip2 : skipWs (' ' :: (paramData p0 ++ paramsChunks ps2))
        = p0.1.data ++ '=' :: ((pyBoolLower p0.2).data ++ paramsChunks ps2) := by
      rw [skipWs_cons_space hphd, paramData]
      simp
    simp only [parseParameter_render hp0 hskip2]
    rw [show parseParamsRest [(p0.1, pyBoolLower p0.2)] (paramsChunks ps2)
        = parseParamsRestGo ((paramsChunks ps2).length + 1) [(p0.1, pyBoolLower p0.2)]
            (paramsChunks ps2) from rfl]
    rw [show (paramsChunks ps2 : List Char) = paramsChunks ps2 ++ [] from by simp]
    rw [parseParamsRestGo_render ps2 _ _ []
      (fun q hq => hps q (List.mem_cons_of_mem _ hq))
      (by
        intro x hx
        rw [show skipWs ([] : List Char) = [] from rfl] at hx
        cases hx)
      (Nat.lt_succ_self _)]
    simp [paramsAstVal]

theorem fieldsChunks_stop {fs : List String} {T : List Char}
    (hT : ∀ x, T.head? = some x → x = ' ') :
    ∀ c, (fieldsChunks fs ++ T).head? = some c → fieldChar c = false := by
  intro c hc
  rcases fs with _ | ⟨g, gs⟩
  · rw [show fieldsChunks [] ++ T = T from by simp [fieldsChunks]] at hc
    rw [hT c hc]
    rfl
  · have hgc : fieldsChunks (g :: gs) ++ T
        = ',' :: ((' ' :: g.data ++ fieldsChunks gs) ++ T) := by
      simp [fieldsChunks]
    rw [hgc, List.head?_cons] at hc
    rw [Option.some.inj hc.symm]
    rfl

theorem parseQuery_render {f0 : String} {fs : List String} {res : String}
    {conds : List CondSpec} {lim : Option Int} {ps : List (String × Bool)}
    (hf0 : wfField f0) (hfs : ∀ f ∈ fs, wfField f) (hres : wfResource res)
    (hconds : ∀ c ∈ conds, wfCond c)
    (hlim : ∀ n, lim = some n → wfPosDigits (toString n).data)
    (hps : ∀ p ∈ ps, p.1 ∈ paramNameTable) :
    parseQuery (queryData f0 fs res conds lim ps)
      = .ok (mkAst (f0 :: fs) res (condsAstVal conds) none (limAstVal lim)
          (paramsAstVal ps)) := by
  unfold parseQuery
  rw [queryData]
  simp only [expectTok_render "SELECT" (show
    skipWs ("SELECT".toList ++ ' ' :: (f0.data ++ (fieldsChunks fs ++ (' ' :: ("FROM".toList ++ ' ' :: (res.data ++ (whereSeg conds ++ (limitSeg lim ++ paramsSeg ps))))))))
      = "SELECT".toList ++ (' ' :: (f0.data ++ (fieldsChunks fs ++ (' ' :: ("FROM".toList ++ ' ' :: (res.data ++ (whereSeg conds ++ (limitSeg lim ++ paramsSeg ps)))))))) from rfl)]
  have hT1head : ∀ x, ((' ' :: ("FROM".toList ++ ' ' :: (res.data ++ (whereSeg conds ++ (limitSeg lim ++ paramsSeg ps))))) : List Char).head? = some x → x = ' ' := by
    intro x hx
    exact Option.some.inj hx.symm
  have hf0hd : ∀ x, (f0.data ++ (fieldsChunks fs ++ (' ' :: ("FROM".toList ++ ' ' :: (res.data ++ (whereSeg conds ++ (limitSeg lim ++ paramsSeg ps))))))).head? = some x →
      pyIsSpace x = false := by
    intro x hx
    rw [head_append_of_ne hf0.1] at hx
    exact wfField_head_not_space hf0 x hx
  simp only [parseFieldName_render hf0 (fieldsChunks_stop hT1head) (skipWs_cons_space hf0hd)]
  rw [show parseFieldsRest [f0] (fieldsChunks fs ++ (' ' :: ("FROM".toList ++ ' ' :: (res.data ++ (whereSeg conds ++ (limitSeg lim ++ paramsSeg ps))))))
      = parseFieldsRestGo ((fieldsChunks fs ++ (' ' :: ("FROM".toList ++ ' ' :: (res.data ++ (whereSeg conds ++ (limitSeg lim ++ paramsSeg ps)))))).length + 1) [f0]
          (fieldsChunks fs ++ (' ' :: ("FROM".toList ++ ' ' :: (res.data ++ (whereSeg conds ++ (limitSeg lim ++ paramsSeg ps)))))) from rfl]
  have hT1comma : ∀ x, (skipWs ((' ' :: ("FROM".toList ++ ' ' :: (res.data ++ (whereSeg conds ++ (limitSeg lim ++ paramsSeg ps))))) : List Char)).head? = some x → x ≠ ',' := by
    intro x hx
    have hxf : x = 'F' := Option.some.inj hx.symm
    rw [hxf]
    decide
  simp only [parseFieldsRestGo_render fs ((fieldsChunks fs ++ (' ' :: ("FROM".toList ++ ' ' :: (res.data ++ (whereSeg conds ++ (limitSeg lim ++ paramsSeg ps)))))).length + 1) [f0]
    (' ' :: ("FROM".toList ++ ' ' :: (res.data ++ (whereSeg conds ++ (limitSeg lim ++ paramsSeg ps))))) hfs hT1head hT1comma (Nat.lt_succ_self _)]
  simp only [expectTok_render "FROM" (show skipWs ((' ' :: ("FROM".toList ++ ' ' :: (res.data ++ (whereSeg conds ++ (limitSeg lim ++ paramsSeg ps))))) : List Char)
      = "FROM".toList ++ (' ' :: (res.data ++ (whereSeg conds ++ (limitSeg lim ++ paramsSeg ps)))) from rfl)]
  have hreshd : ∀ x, (res.data ++ (whereSeg conds ++ (limitSeg lim ++ paramsSeg ps))).head? = some x → pyIsSpace x = false := by
    intro x hx
    rw [head_append_of_ne hres.1] at hx
    exact fieldChar_not_space (fieldChar_of_lower (hres.2.1 x hx))
  have hstop3 : ∀ c, ((whereSeg conds ++ (limitSeg lim ++ paramsSeg ps)) : List Char).head? = some c → resourceChar c = false := by
    intro c hc
    rw [segsTail_head c hc]
    decide
  simp only [parseResourceName_render hres hstop3 (skipWs_cons_space hreshd)]
  simp only [parseWhereOpt_render hconds limParamsSeg_head limParams_noWhere limParams_noAnd]
  simp only [parseOrderOpt_render lim ps]
  rcases lim with _ | n
  · rw [show limitSeg none ++ paramsSeg ps = paramsSeg ps from by simp [limitSeg]]
    simp only [parseLimitOpt_none ps]
    simp only [parseParamsOpt_render hps]
    rfl
  · simp only [parseLimitOpt_some n ps (hlim n rfl)]
    simp only [parseParamsOpt_render hps]
    rfl

theorem parse_render {f0 : String} {fs : List String} {res : String}
    {conds : List CondSpec} {lim : Option Int} {ps : List (String × Bool)}
    (hf0 : wfField f0) (hfs : ∀ f ∈ fs, wfField f) (hres : wfResource res)
    (hconds : ∀ c ∈ conds, wfCond c)
    (hlim : ∀ n, lim = some n → wfPosDigits (toString n).data)
    (hps : ∀ p ∈ ps, p.1 ∈ paramNameTable) :
    parse (String.mk (queryData f0 fs res conds lim ps))
      = .ok (mkAst (f0 :: fs) res (condsAstVal conds) none (limAstVal lim)
          (paramsAstVal ps)) := by
  unfold parse
  simp only []
  rw [normalizeQuery_queryData hf0 hfs hres hconds hlim hps]
  rw [show (String.mk (queryData f0 fs res conds lim ps)).toList
      = queryData f0 fs res conds lim ps from rfl]
  rw [parseQuery_render hf0 hfs hres hconds hlim hps]
  split
  next ast heq =>
    have hA := Except.ok.inj heq
    subst hA
    rw [if_neg (by
      rw [show lookupClause (mkAst (f0 :: fs) res (condsAstVal conds) none (limAstVal lim)
        (paramsAstVal ps)) "select_clause" = some (Clause.selectC (f0 :: fs)) from rfl]
      simp)]
    rw [if_neg (by
      rw [show lookupClause (mkAst (f0 :: fs) res (condsAstVal conds) none (limAstVal lim)
        (paramsAstVal ps)) "from_clause" = some (Clause.fromC res) from rfl]
      simp)]
  next m heq => exact absurd heq (by simp)
  next rem expected heq => exact absurd heq (by simp)

/-! ## C9: build/parse round-trip -/

theorem getSelectFields_mkAst (fields : List String) (res : String)
    (wc : Option (List Condition)) (oc : Option (List OrderItem × Bool))
    (lc : Option Int) (pc : Option (List (String × String))) :
    getSelectFields (mkAst fields res wc oc lc pc) = some fields := rfl

theorem getResource_mkAst (fields : List String) (res : String)
    (wc : Option (List Condition)) (oc : Option (List OrderItem × Bool))
    (lc : Option Int) (pc : Option (List (String × String))) :
    getResource (mkAst fields res wc oc lc pc) = some res := rfl

theorem getConditions_mkAst (fields : List String) (res : String)
    (wc : Option (List Condition)) (oc : Option (List OrderItem × Bool))
    (lc : Option Int) (pc : Option (List (String × String))) :
    getConditions (mkAst fields res wc oc lc pc) = wc := by
  cases wc <;> cases oc <;> cases lc <;> cases pc <;>
    simp [mkAst, getConditions, lookupClause, List.find?]

theorem wfField_of_check {f : String}
    (h : f.data ≠ [] ∧ isLowerAZ (f.data.headD 'a') = true
      ∧ ∀ c ∈ f.data, fieldChar c = true) : wfField f := by
  refine ⟨h.1, ?_, h.2.2⟩
  intro c hc
  rcases hd : f.data with _ | ⟨a, t⟩
  · exact absurd hd h.1
  · rw [hd, List.head?_cons] at hc
    cases Option.some.inj hc
    rw [hd] at h
    exact h.2.1

theorem wfResource_of_check {r : String}
    (h : r.data ≠ [] ∧ isLowerAZ (r.data.headD 'a') = true
      ∧ ∀ c ∈ r.data, resourceChar c = true) : wfResource r := by
  refine ⟨h.1, ?_, h.2.2⟩
  intro c hc
  rcases hd : r.data with _ | ⟨a, t⟩
  · exact absurd hd h.1
  · rw [hd, List.head?_cons] at hc
    cases Option.some.inj hc
    rw [hd] at h
    exact h.2.1

theorem wfPosDigits_of_check {l : List Char}
    (h : l ≠ [] ∧ ('1' ≤ l.headD '0' ∧ l.headD '0' ≤ '9')
      ∧ ∀ c ∈ l, isDigitC c = true) : wfPosDigits l := by
  refine ⟨?_, h.1, h.2.2⟩
  intro c hc
  rcases hd : l with _ | ⟨a, t⟩
  · exact absurd hd h.1
  · rw [hd, List.head?_cons] at hc
    cases Option.some.inj hc
    rw [hd] at h
    exact h.2.1

theorem wfValue_quoted (inner : List Char) (h : ∀ c ∈ inner, literalChar c = true) :
    wfValue ('\'' :: inner ++ ['\'']) := Or.inr (Or.inl ⟨inner, rfl, h⟩)

/-- C9 (amended): the round-trip holds with no `ORDER BY`: building a query
from a non-empty list of well-formed fields, a well-formed resource,
well-formed conditions, a positive limit and known parameter names, then
parsing it, succeeds and returns an AST with the same field list in order,
the same resource, and the conditions mapped to their parsed form (numeric
values as `NUMBER` nodes, everything else as strings).  With any `ORDER BY`
input the round-trip fails instead: the transformer crashes on the
direction token (see the counterexample). -/
theorem build_parse_roundtrip
    (f0 : String) (fs : List String) (res : String)
    (conds : List CondSpec) (lim : Option Int) (ps : List (String × Bool))
    (hf0 : wfField f0) (hfs : ∀ f ∈ fs, wfField f) (hres : wfResource res)
    (hconds : ∀ c ∈ conds, wfCond c)
    (hlim : ∀ n, lim = some n → wfPosDigits (toString n).data)
    (hps : ∀ p ∈ ps, p.1 ∈ paramNameTable) :
    ∃ q ast,
      build_gaql_query (f0 :: fs) res (some (conds.map renderCond)) none lim (some ps)
        = .ok q
      ∧ parse q = .ok ast
      ∧ getSelectFields ast = some (f0 :: fs)
      ∧ getResource ast = some res
      ∧ getConditions ast = condsAstVal conds := by
  refine ⟨String.mk (queryData f0 fs res conds lim ps),
    mkAst (f0 :: fs) res (condsAstVal conds) none (limAstVal lim) (paramsAstVal ps),
    build_gaql_data f0 fs res conds lim ps hres,
    parse_render hf0 hfs hres hconds hlim hps,
    getSelectFields_mkAst ..,
    getResource_mkAst ..,
    getConditions_mkAst ..⟩

theorem build_parse_roundtrip_witness :
    ∃ q ast,
      build_gaql_query ["campaign.id", "metrics.clicks"] "campaign"
          (some ([⟨"campaign.status", "=", "'ENABLED'"⟩,
                  ⟨"metrics.clicks", ">", "100"⟩].map renderCond))
          none (some 50) (some [("include_drafts", true)])
        = .ok q
      ∧ parse q = .ok ast
      ∧ getSelectFields ast = some ["campaign.id", "metrics.clicks"]
      ∧ getResource ast = some "campaign"
      ∧ getConditions ast = condsAstVal [⟨"campaign.status", "=", "'ENABLED'"⟩,
          ⟨"metrics.clicks", ">", "100"⟩] :=
  build_parse_roundtrip "campaign.id" ["metrics.clicks"] "campaign"
    [⟨"campaign.status", "=", "'ENABLED'"⟩, ⟨"metrics.clicks", ">", "100"⟩]
    (some 50) [("include_drafts", true)]
    (wfField_of_check (by decide))
    (by
      intro f hf
      rcases List.mem_singleton.mp hf
      exact wfField_of_check (by decide))
    (wfResource_of_check (by decide))
    (by
      intro c hc
      rcases List.mem_cons.mp hc with rfl | hc
      · exact ⟨wfField_of_check (by decide), by decide,
          wfValue_quoted "ENABLED".toList (by decide)⟩
      rcases List.mem_cons.mp hc with rfl | hc
      · exact ⟨wfField_of_check (by decide), by decide, Or.inl ⟨by decide, by decide⟩⟩
      · cases hc)
    (by
      intro n hn
      cases Option.some.inj hn
      exact wfPosDigits_of_check (by decide))
    (by
      intro p hp
      rcases List.mem_singleton.mp hp
      decide)

/-- C9 counterexample: the claim also covers orderings, but any `ORDER BY`
input breaks the round-trip.  `build_gaql_query` always renders an explicit
direction (`direction.getD "ASC"`), and the parser's transformer crashes on
every explicit direction token (its children are filtered out and
`str(items[0])` raises `IndexError`), so the built query does not parse. -/
theorem build_parse_ordering_cex :
    build_gaql_query ["campaign.id"] "campaign" none
        (some [⟨"campaign.id", some "ASC"⟩]) none none
      = .ok "SELECT campaign.id FROM campaign ORDER BY campaign.id ASC"
    ∧ parse "SELECT campaign.id FROM campaign ORDER BY campaign.id ASC"
      = .error ⟨"Error parsing GAQL query: " ++ directionCrashMsg, none⟩ :=
  ⟨rfl, rfl⟩

end GaqlSpec
